import Mathlib

/-!
A verification development for the `lrucache` package

The Go package implements a fixed-capacity LRU cache with optional per-entry
expiry.  Every entry lives in a pre-allocated arena and is linked into three
structures at once: the `table` map, the `priorityQueue` binary heap ordered by
`expire`, and one of the two intrusive doubly linked rings `lruList` /
`freeList`.

Memory model.

Go pointers are modelled component-wise: an `*entry[T]` is the arena slot number
of the entry (`Nat`), `nil` is `none`, and every struct field is a map from the
address of the struct to the content of the field.  An `*element[T]` is a `Node`:
either the `root` sentinel of one of the two lists or the `element` embedded in
an arena entry.  A `*list[T]` is a `ListId`.  A nil dereference or an index out
of range panics in Go; here the operation returns `none`.

The Go `int` values of the code (list lengths, heap positions, `index`) are
mathematical integers here: each is bounded by the number of entries of the
arena, so the 64-bit arithmetic of the source does not overflow; the guard
`j1 < 0` of `down` is kept as written.

`time.Time` is modelled by the integer number of nanoseconds elapsed since the
zero instant (January 1, year 1, 00:00:00 UTC), so that `IsZero` is `= 0` and
`Before` is `<`; `time.Duration` is a number of nanoseconds.  A call of
`time.Now()` reads an explicit wall-clock argument.

A `MultiLRUCache` is the list of the states of its shards; the key is routed
by `crc32.ChecksumIEEE`, given here by the bitwise definition of CRC-32.
-/

namespace lrucache

/-! ## time.Time -/

/-- An instant, in nanoseconds since the zero instant of `time.Time`. -/
abbrev Time := Int

/-- A `time.Duration`, in nanoseconds. -/
abbrev Duration := Int

/-- The largest `time.Duration` (an int64). -/
def maxDuration : Duration := 2 ^ 63 - 1

/-- The smallest `time.Duration` (an int64). -/
def minDuration : Duration := -(2 ^ 63)

/-- The method `t.IsZero()`: is `t` the zero instant. -/
def Time.IsZero (t : Time) : Bool := decide (t = 0)

/-- The method `t.Before(u)`: is the instant `t` strictly before `u`. -/
def Time.Before (t u : Time) : Bool := decide (t < u)

/-- The method `t.Sub(u)`: the duration `t - u`, saturated to the range of
`time.Duration`. -/
def Time.Sub (t u : Time) : Duration :=
  if maxDuration < t - u then maxDuration
  else if t - u < minDuration then minDuration
  else t - u

/-! ## Addresses -/

/-- The two lists of an `LRUCache`: a `*list[T]` is one of `&b.lruList`,
`&b.freeList` (or nil). -/
inductive ListId where
  | lruList
  | freeList
deriving DecidableEq, Repr

/-- The address of an `element[T]`: the `root` sentinel of a list, or the
`element` field of the arena entry in slot `i`. -/
inductive Node where
  | root (l : ListId)
  | elem (i : Nat)
deriving DecidableEq, Repr

/-! ## The cache state -/

/-- The memory reachable from an `*LRUCache[T]`.

* `key`, `value`, `expire`, `index`: the fields of `entry[T]`, per arena slot;
* `next`, `prev`, `list`, `Value`: the fields of `element[T]`, per element
  address (for a root only `next` and `prev` are used);
* `len`: the field `len` of each `list[T]`;
* `table`: the Go map from key to `*entry[T]` (a missing key reads as nil);
* `priorityQueue`: the slice of `*entry[T]`;
* `ExpireGracePeriod`: the public field of that name.

The mutex `lock` is not modelled: every public method holds it from entry to
exit, so the methods are executed one at a time. -/
structure LRUCache (T : Type) where
  key : Nat → String
  value : Nat → T
  expire : Nat → Time
  index : Nat → Int
  next : Node → Option Node
  prev : Node → Option Node
  list : Node → Option ListId
  Value : Node → Option Nat
  len : ListId → Int
  table : String → Option Nat
  priorityQueue : List Nat
  ExpireGracePeriod : Duration

variable {T : Type}

/-! ## list.go and list_extension.go -/

/-- The method `(l *list[T]) Init()`: `l.root.next = &l.root`,
`l.root.prev = &l.root`, `l.len = 0`. -/
def list.Init (b : LRUCache T) (l : ListId) : LRUCache T :=
  let b := { b with next := Function.update b.next (Node.root l) (some (Node.root l)) }
  let b := { b with prev := Function.update b.prev (Node.root l) (some (Node.root l)) }
  { b with len := Function.update b.len l 0 }

/-- The method `(l *list[T]) Len()`. -/
def list.Len (b : LRUCache T) (l : ListId) : Int := b.len l

/-- The method `(l *list[T]) Front()`: nil when `l.len == 0`, else `l.root.next`. -/
def list.Front (b : LRUCache T) (l : ListId) : Option Node :=
  if b.len l = 0 then none else b.next (Node.root l)

/-- The method `(l *list[T]) Back()`: nil when `l.len == 0`, else `l.root.prev`. -/
def list.Back (b : LRUCache T) (l : ListId) : Option Node :=
  if b.len l = 0 then none else b.prev (Node.root l)

/-- The method `(l *list[T]) insert(e, at)`: links `e` after `at` and increments
`l.len`.  The statements are executed in the order of the source; the result
of the source is the pointer `e` itself. -/
def list.insert (b : LRUCache T) (l : ListId) (e at_ : Option Node) :
    Option (LRUCache T) := do
  let a ← at_
  let n := b.next a
  let b := { b with next := Function.update b.next a e }
  let e' ← e
  let b := { b with prev := Function.update b.prev e' (some a) }
  let b := { b with next := Function.update b.next e' n }
  let n' ← n
  let b := { b with prev := Function.update b.prev n' e }
  let b := { b with list := Function.update b.list e' (some l) }
  pure { b with len := Function.update b.len l (b.len l + 1) }

/-- The method `(l *list[T]) remove(e)`: unlinks `e`, clears its three
pointers and decrements `l.len`; the result of the source is `e` itself. -/
def list.remove (b : LRUCache T) (l : ListId) (e : Option Node) :
    Option (LRUCache T) := do
  let e' ← e
  let p ← b.prev e'
  let b := { b with next := Function.update b.next p (b.next e') }
  let n ← b.next e'
  let b := { b with prev := Function.update b.prev n (b.prev e') }
  let b := { b with next := Function.update b.next e' none }
  let b := { b with prev := Function.update b.prev e' none }
  let b := { b with list := Function.update b.list e' none }
  pure { b with len := Function.update b.len l (b.len l - 1) }

/-- The method `(l *list[T]) Remove(e)`: removes `e` when `e.list == l` and
returns `e.Value.value`. -/
def list.Remove (b : LRUCache T) (l : ListId) (e : Option Node) :
    Option (LRUCache T × T) := do
  let e' ← e
  let b ← (if b.list e' = some l then list.remove b l e else some b)
  let v ← b.Value e'
  pure (b, b.value v)

/-- The method `(l *list[T]) MoveToFront(e)`. -/
def list.MoveToFront (b : LRUCache T) (l : ListId) (e : Option Node) :
    Option (LRUCache T) := do
  let e' ← e
  if b.list e' ≠ some l ∨ b.next (Node.root l) = e then
    pure b
  else do
    let b ← list.remove b l e
    list.insert b l e (some (Node.root l))

/-- The method `(l *list[T]) PushElementFront(e)`: `l.insert(e, &l.root)`. -/
def list.PushElementFront (b : LRUCache T) (l : ListId) (e : Option Node) :
    Option (LRUCache T) :=
  list.insert b l e (some (Node.root l))

/-- The method `(l *list[T]) PushElementBack(e)`: `l.insert(e, l.root.prev)`. -/
def list.PushElementBack (b : LRUCache T) (l : ListId) (e : Option Node) :
    Option (LRUCache T) :=
  list.insert b l e (b.prev (Node.root l))

/-! ## priorityqueue.go -/

/-- The slice access `pq[i]`; an index out of range panics. -/
def priorityQueue.at (b : LRUCache T) (i : Int) : Option Nat :=
  if 0 ≤ i then b.priorityQueue[i.toNat]? else none

/-- The method `(pq priorityQueue[T]) Len()`. -/
def priorityQueue.Len (b : LRUCache T) : Int := b.priorityQueue.length

/-- The method `(pq priorityQueue[T]) Less(i, j)`:
`pq[i].expire.Before(pq[j].expire)`. -/
def priorityQueue.Less (b : LRUCache T) (i j : Int) : Option Bool := do
  let x ← priorityQueue.at b i
  let y ← priorityQueue.at b j
  pure (Time.Before (b.expire x) (b.expire y))

/-- The method `(pq priorityQueue[T]) Swap(i, j)`: exchanges `pq[i]` and
`pq[j]`, then sets `pq[i].index = i` and `pq[j].index = j`. -/
def priorityQueue.Swap (b : LRUCache T) (i j : Int) : Option (LRUCache T) := do
  let x ← priorityQueue.at b i
  let y ← priorityQueue.at b j
  let b := { b with priorityQueue := (b.priorityQueue.set i.toNat y).set j.toNat x }
  let x' ← priorityQueue.at b i
  let b := { b with index := Function.update b.index x' i }
  let y' ← priorityQueue.at b j
  pure { b with index := Function.update b.index y' j }

/-- The method `(pq *priorityQueue[T]) Push(x)`: `x.index = len(*pq)` and
`*pq = append(*pq, x)`. -/
def priorityQueue.Push (b : LRUCache T) (x : Option Nat) : Option (LRUCache T) := do
  let n : Int := b.priorityQueue.length
  let x' ← x
  let b := { b with index := Function.update b.index x' n }
  pure { b with priorityQueue := b.priorityQueue ++ [x'] }

/-- The method `(pq *priorityQueue[T]) Pop()`: takes `item := old[n-1]`, sets
`item.index = -1`, shrinks the slice to `old[0 : n-1]` and returns `item`. -/
def priorityQueue.Pop (b : LRUCache T) : Option (LRUCache T × Nat) := do
  let n : Int := b.priorityQueue.length
  let item ← priorityQueue.at b (n - 1)
  let b := { b with index := Function.update b.index item (-1) }
  pure ({ b with priorityQueue := b.priorityQueue.dropLast }, item)

/-! ## heap.go -/

/-- The loop of `up(h, j)`; `fuel` bounds the number of iterations and `none`
is also the result when it is exhausted.  The parent index `(j - 1) / 2` uses
Go's integer division, which truncates toward zero. -/
def upLoop (fuel : Nat) (b : LRUCache T) (j : Int) : Option (LRUCache T) :=
  match fuel with
  | 0 => none
  | fuel + 1 =>
    let i := Int.tdiv (j - 1) 2
    if i = j then some b
    else do
      let lt ← priorityQueue.Less b j i
      if !lt then some b
      else do
        let b ← priorityQueue.Swap b i j
        upLoop fuel b i

/-- The function `up(h, j)`.  Every iteration that does not stop replaces `j`
by a strictly smaller non-negative index, so `j + 1` iterations are enough. -/
def up (b : LRUCache T) (j : Int) : Option (LRUCache T) :=
  upLoop (j.toNat + 1) b j

/-- The loop of `down(h, i0, n)`, returning the state and the final `i`. -/
def downLoop (fuel : Nat) (b : LRUCache T) (i n : Int) : Option (LRUCache T × Int) :=
  match fuel with
  | 0 => none
  | fuel + 1 =>
    let j1 := 2 * i + 1
    if j1 ≥ n ∨ j1 < 0 then some (b, i)
    else do
      let j2 := j1 + 1
      let r ← (if j2 < n then priorityQueue.Less b j2 j1 else some false)
      let j := if r then j2 else j1
      let lt ← priorityQueue.Less b j i
      if !lt then some (b, i)
      else do
        let b ← priorityQueue.Swap b i j
        downLoop fuel b j n

/-- The function `down(h, i0, n)`: the result is `i > i0`.  Every iteration
that does not stop replaces `i` by a strictly larger index below `n`, so
`n + 1` iterations are enough. -/
def down (b : LRUCache T) (i0 n : Int) : Option (LRUCache T × Bool) := do
  let (b, i) ← downLoop (n.toNat + 1) b i0 n
  pure (b, decide (i > i0))

/-- The loop of `HeapInit`: `for i := n/2 - 1; i >= 0; i--`, with `fuel`
iterations left. -/
def heapInitLoop (fuel : Nat) (b : LRUCache T) (i n : Int) : Option (LRUCache T) :=
  match fuel with
  | 0 => if i ≥ 0 then none else some b
  | fuel + 1 =>
    if i ≥ 0 then do
      let (b, _) ← down b i n
      heapInitLoop fuel b (i - 1) n
    else some b

/-- The function `HeapInit(h)`. -/
def HeapInit (b : LRUCache T) : Option (LRUCache T) :=
  let n := priorityQueue.Len b
  heapInitLoop (Int.tdiv n 2).toNat b (Int.tdiv n 2 - 1) n

/-- The function `HeapPush(h, x)`: `h.Push(x)` then `up(h, h.Len()-1)`. -/
def HeapPush (b : LRUCache T) (x : Option Nat) : Option (LRUCache T) := do
  let b ← priorityQueue.Push b x
  up b (priorityQueue.Len b - 1)

/-- The function `HeapRemove(h, i)`. -/
def HeapRemove (b : LRUCache T) (i : Int) : Option (LRUCache T × Nat) := do
  let n := priorityQueue.Len b - 1
  let b ← (if n ≠ i then do
      let b ← priorityQueue.Swap b i n
      let (b, moved) ← down b i n
      if !moved then up b i else some b
    else some b)
  priorityQueue.Pop b

/-! ## lrucache.go -/

/-- The loop of `init`: for the slots `i, i+1, ..` (`fuel` of them) set
`e.element.Value = e`, `e.index = -1` and push the element at the back of
`freeList`. -/
def initLoop (fuel : Nat) (b : LRUCache T) (i : Nat) : Option (LRUCache T) :=
  match fuel with
  | 0 => some b
  | fuel + 1 => do
    let b := { b with Value := Function.update b.Value (Node.elem i) (some i) }
    let b := { b with index := Function.update b.index i (-1) }
    let b ← list.PushElementBack b ListId.freeList (some (Node.elem i))
    initLoop fuel b (i + 1)

/-- The zero value `LRUCache[T]{}` together with the zeroed arena block
`make([]entry[T], capacity)`: every pointer nil, every number zero, the empty
key, the zero value of `T`.  The map and the slice made by `init` are empty. -/
def zeroCache [Inhabited T] : LRUCache T where
  key := fun _ => ""
  value := fun _ => default
  expire := fun _ => 0
  index := fun _ => 0
  next := fun _ => none
  prev := fun _ => none
  list := fun _ => none
  Value := fun _ => none
  len := fun _ => 0
  table := fun _ => none
  priorityQueue := []
  ExpireGracePeriod := 0

/-- The method `(b *LRUCache[T]) init(capacity)`. -/
def LRUCache.init [Inhabited T] (capacity : Nat) : Option (LRUCache T) := do
  let b : LRUCache T := zeroCache
  let b := list.Init b ListId.lruList
  let b := list.Init b ListId.freeList
  let b ← HeapInit b
  initLoop capacity b 0

/-- The constructor `NewLRUCache(capacity)`. -/
def NewLRUCache [Inhabited T] (capacity : Nat) : Option (LRUCache T) :=
  LRUCache.init capacity

/-- The method `expiredEntry(now)`: the entry with the lowest `expire` if it is
before `now`; a zero `now` is replaced by `time.Now()`, read from `wall`. -/
def LRUCache.expiredEntry (b : LRUCache T) (now wall : Time) : Option (Option Nat) :=
  if priorityQueue.Len b = 0 then some none
  else do
    let now := if Time.IsZero now then wall else now
    let e ← priorityQueue.at b 0
    if Time.Before (b.expire e) now then some (some e) else some none

/-- The method `leastUsedEntry()`: `b.lruList.Back().Value`. -/
def LRUCache.leastUsedEntry (b : LRUCache T) : Option (Option Nat) := do
  let e ← list.Back b ListId.lruList
  pure (b.Value e)

/-- The method `freeSomeEntry(now)`. -/
def LRUCache.freeSomeEntry (b : LRUCache T) (now wall : Time) :
    Option (Option Nat × Bool) :=
  if list.Len b ListId.freeList > 0 then do
    let f ← list.Front b ListId.freeList
    pure (b.Value f, false)
  else do
    let e ← LRUCache.expiredEntry b now wall
    if e ≠ none then pure (e, true)
    else if list.Len b ListId.lruList = 0 then pure (none, false)
    else do
      let e ← LRUCache.leastUsedEntry b
      pure (e, true)

/-- The method `removeEntry(e)`: moves the entry from the used list to the free
list and clears it.  The explicit `panic("list lruList")` is `none`. -/
def LRUCache.removeEntry [Inhabited T] (b : LRUCache T) (e : Option Nat) :
    Option (LRUCache T) := do
  let e' ← e
  if b.list (Node.elem e') ≠ some ListId.lruList then none
  else do
    let b ← (if b.index e' ≠ -1 then do
        let (b, _) ← HeapRemove b (b.index e')
        pure b
      else some b)
    let (b, _) ← list.Remove b ListId.lruList (some (Node.elem e'))
    let b ← list.PushElementFront b ListId.freeList (some (Node.elem e'))
    let b := { b with table := Function.update b.table (b.key e') none }
    let b := { b with key := Function.update b.key e' "" }
    pure { b with value := Function.update b.value e' default }

/-- The method `insertEntry(e)`: moves the entry from the free list to the
front of the used list, into the heap when `expire` is not zero, and into the
table.  The explicit `panic("list freeList")` is `none`. -/
def LRUCache.insertEntry (b : LRUCache T) (e : Option Nat) : Option (LRUCache T) := do
  let e' ← e
  if b.list (Node.elem e') ≠ some ListId.freeList then none
  else do
    let b ← (if !Time.IsZero (b.expire e') then HeapPush b e else some b)
    let (b, _) ← list.Remove b ListId.freeList (some (Node.elem e'))
    let b ← list.PushElementFront b ListId.lruList (some (Node.elem e'))
    pure { b with table := Function.update b.table (b.key e') (some e') }

/-- The method `touchEntry(e)`: `b.lruList.MoveToFront(&e.element)`. -/
def LRUCache.touchEntry (b : LRUCache T) (e : Option Nat) : Option (LRUCache T) := do
  let e' ← e
  list.MoveToFront b ListId.lruList (some (Node.elem e'))

/-- The method `SetNow(key, value, expire, now)`; `wall` is the reading of
`time.Now()` used when `now` is zero. -/
def LRUCache.SetNow [Inhabited T] (b : LRUCache T) (key : String) (value : T)
    (expire now wall : Time) : Option (LRUCache T) := do
  let (e, used) ← (if b.table key ≠ none then some (b.table key, true)
    else LRUCache.freeSomeEntry b now wall)
  match e with
  | none => some b
  | some e' =>
    let b ← (if used then LRUCache.removeEntry b e else some b)
    let b := { b with key := Function.update b.key e' key }
    let b := { b with value := Function.update b.value e' value }
    let b := { b with expire := Function.update b.expire e' expire }
    LRUCache.insertEntry b e

/-- The method `Set(key, value, expire)`: `SetNow` with the zero `now`. -/
def LRUCache.Set [Inhabited T] (b : LRUCache T) (key : String) (value : T)
    (expire wall : Time) : Option (LRUCache T) :=
  LRUCache.SetNow b key value expire 0 wall

/-- The method `Get(key)`. -/
def LRUCache.Get [Inhabited T] (b : LRUCache T) (key : String) :
    Option (LRUCache T × T × Bool) :=
  match b.table key with
  | none => some (b, default, false)
  | some e => do
    let b ← LRUCache.touchEntry b (some e)
    pure (b, b.value e, true)

/-- The method `GetQuiet(key)`. -/
def LRUCache.GetQuiet [Inhabited T] (b : LRUCache T) (key : String) :
    Option (LRUCache T × T × Bool) :=
  match b.table key with
  | none => some (b, default, false)
  | some e => some (b, b.value e, true)

/-- The method `GetNotStaleNow(key, now)`. -/
def LRUCache.GetNotStaleNow [Inhabited T] (b : LRUCache T) (key : String) (now : Time) :
    Option (LRUCache T × T × Bool) :=
  match b.table key with
  | none => some (b, default, false)
  | some e =>
    if Time.Before (b.expire e) now then do
      let b ← (if b.ExpireGracePeriod = 0 ∨
          Time.Sub (b.expire e) now > b.ExpireGracePeriod then
          LRUCache.removeEntry b (some e) else some b)
      pure (b, default, false)
    else do
      let b ← LRUCache.touchEntry b (some e)
      pure (b, b.value e, true)

/-- The method `GetNotStale(key)`: `GetNotStaleNow(key, time.Now())`. -/
def LRUCache.GetNotStale [Inhabited T] (b : LRUCache T) (key : String) (wall : Time) :
    Option (LRUCache T × T × Bool) :=
  LRUCache.GetNotStaleNow b key wall

/-- The method `GetStaleNow(key, now)`, returning the state and
`(value, ok, expired)`. -/
def LRUCache.GetStaleNow [Inhabited T] (b : LRUCache T) (key : String) (now : Time) :
    Option (LRUCache T × T × Bool × Bool) :=
  match b.table key with
  | none => some (b, default, false, false)
  | some e => do
    let b ← LRUCache.touchEntry b (some e)
    pure (b, b.value e, true, Time.Before (b.expire e) now)

/-- The method `GetStale(key)`: `GetStaleNow(key, time.Now())`. -/
def LRUCache.GetStale [Inhabited T] (b : LRUCache T) (key : String) (wall : Time) :
    Option (LRUCache T × T × Bool × Bool) :=
  LRUCache.GetStaleNow b key wall

/-- The method `Del(key)`. -/
def LRUCache.Del [Inhabited T] (b : LRUCache T) (key : String) :
    Option (LRUCache T × T × Bool) :=
  match b.table key with
  | none => some (b, default, false)
  | some e => do
    let value := b.value e
    let b ← LRUCache.removeEntry b (some e)
    pure (b, value, true)

/-- The first loop of `Clear`: `l` times `b.removeEntry(b.priorityQueue[0])`. -/
def clearHeapLoop [Inhabited T] (l : Nat) (b : LRUCache T) : Option (LRUCache T) :=
  match l with
  | 0 => some b
  | l + 1 => do
    let e ← priorityQueue.at b 0
    let b ← LRUCache.removeEntry b (some e)
    clearHeapLoop l b

/-- The second loop of `Clear`: `r` times `b.removeEntry(b.leastUsedEntry())`. -/
def clearListLoop [Inhabited T] (r : Nat) (b : LRUCache T) : Option (LRUCache T) :=
  match r with
  | 0 => some b
  | r + 1 => do
    let e ← LRUCache.leastUsedEntry b
    let b ← LRUCache.removeEntry b e
    clearListLoop r b

/-- The method `Clear()`, returning the state and `l + r`. -/
def LRUCache.Clear [Inhabited T] (b : LRUCache T) : Option (LRUCache T × Int) := do
  let l : Int := b.priorityQueue.length
  let b ← clearHeapLoop l.toNat b
  let r := list.Len b ListId.lruList
  let b ← clearListLoop r.toNat b
  pure (b, l + r)

/-- The loop of `ExpireNow`; `i` counts the evictions so far and also numbers
the readings `clock i` of `time.Now()` (used only when `now` is zero);
`fuel` bounds the number of iterations. -/
def expireLoop [Inhabited T] (fuel : Nat) (b : LRUCache T) (now : Time)
    (clock : Nat → Time) (i : Nat) : Option (LRUCache T × Int) :=
  match fuel with
  | 0 => none
  | fuel + 1 => do
    let e ← LRUCache.expiredEntry b now (clock i)
    match e with
    | none => some (b, (i : Int))
    | some e' => do
      let b ← LRUCache.removeEntry b (some e')
      expireLoop fuel b now clock (i + 1)

/-- The method `ExpireNow(now)`.  Every iteration that does not stop removes
one entry of the heap, so `len(priorityQueue) + 1` iterations are enough. -/
def LRUCache.ExpireNow [Inhabited T] (b : LRUCache T) (now : Time) (clock : Nat → Time) :
    Option (LRUCache T × Int) :=
  expireLoop (b.priorityQueue.length + 1) b now clock 0

/-- The method `Expire()`: `ExpireNow(time.Now())`. -/
def LRUCache.Expire [Inhabited T] (b : LRUCache T) (wall : Time) (clock : Nat → Time) :
    Option (LRUCache T × Int) :=
  LRUCache.ExpireNow b wall clock

/-- The method `Len()`: `b.lruList.Len()`. -/
def LRUCache.Len (b : LRUCache T) : Int := list.Len b ListId.lruList

/-- The method `Capacity()`: `b.lruList.Len() + b.freeList.Len()`. -/
def LRUCache.Capacity (b : LRUCache T) : Int :=
  list.Len b ListId.lruList + list.Len b ListId.freeList


/-- Two neighbours of a ring: `x.next == y` and `y.prev == x`. -/
def Link (b : LRUCache T) (x y : Node) : Prop :=
  b.next x = some y ∧ b.prev y = some x

/-- The ring of list `l` runs from the root through the elements of the slots
`xs`, in this order, and back to the root. -/
def Ring (b : LRUCache T) (l : ListId) (xs : List Nat) : Prop :=
  List.Chain (Link b) (Node.root l) (xs.map Node.elem ++ [Node.root l])

/-- The two rings `l` and `l'` hold the disjoint slot sequences `xs` and `ys`. -/
structure Rings (b : LRUCache T) (l l' : ListId) (xs ys : List Nat) : Prop where
  ne : l ≠ l'
  nodup : (xs ++ ys).Nodup
  ring : Ring b l xs
  ring' : Ring b l' ys
  len : b.len l = xs.length
  len' : b.len l' = ys.length
  mem : ∀ i ∈ xs, b.list (Node.elem i) = some l
  mem' : ∀ i ∈ ys, b.list (Node.elem i) = some l'

/-- The nodes of a ring, from root to root. -/
def ringNodes (l : ListId) (xs : List Nat) : List Node :=
  Node.root l :: (xs.map Node.elem ++ [Node.root l])

/-- The fields that the heap operations never write. -/
def HeapFrame (b b' : LRUCache T) : Prop :=
  b'.key = b.key ∧ b'.value = b.value ∧ b'.expire = b.expire ∧ b'.next = b.next ∧
  b'.prev = b.prev ∧ b'.list = b.list ∧ b'.Value = b.Value ∧ b'.len = b.len ∧
  b'.table = b.table ∧ b'.ExpireGracePeriod = b.ExpireGracePeriod

/-- The entry at position `k` of the priority queue (slot 0 out of range). -/
def entryAt (b : LRUCache T) (k : Nat) : Nat := b.priorityQueue.getD k 0

/-- The `expire` of the entry at position `k` of the priority queue. -/
def expireAt (b : LRUCache T) (k : Nat) : Time := b.expire (entryAt b k)

/-- Every entry of the priority queue records its own position in `index`. -/
def IndexOK (b : LRUCache T) : Prop :=
  ∀ k, k < b.priorityQueue.length → b.index (entryAt b k) = (k : Int)

/-- The heap order between position `k` and its parent `(k - 1) / 2`: the
parent does not expire after the child. -/
def HeapEdge (b : LRUCache T) (k : Nat) : Prop :=
  expireAt b ((k - 1) / 2) ≤ expireAt b k

/-- The min-heap property on the first `n` positions of the priority queue. -/
def HeapOrdered (b : LRUCache T) (n : Nat) : Prop :=
  ∀ k, 0 < k → k < n → HeapEdge b k

/-- The state after exchanging the positions `i` and `j` of the priority queue
and recording the new positions. -/
def swapped (b : LRUCache T) (i j : Nat) : LRUCache T :=
  let pq := (b.priorityQueue.set i (entryAt b j)).set j (entryAt b i)
  { b with
    priorityQueue := pq
    index := Function.update (Function.update b.index (pq.getD i 0) (i : Int))
      (pq.getD j 0) (j : Int) }

/-- A state reached by exchanging entries within the first `n` positions of
the priority queue. -/
structure HeapStep (b b' : LRUCache T) (n : Nat) : Prop where
  frame : HeapFrame b b'
  length : b'.priorityQueue.length = b.priorityQueue.length
  mem : ∀ x, x ∈ b'.priorityQueue ↔ x ∈ b.priorityQueue
  above : ∀ k, n ≤ k → entryAt b' k = entryAt b k
  index : IndexOK b'
  out : ∀ x, x ∉ b.priorityQueue → b'.index x = b.index x

/-- The representation invariant of the cache, for the used slots `used`
(most recently used first) and the free slots `free`:
* `rings`: `lruList` and `freeList` are well-formed rings through `used` and
  `free`, the two are disjoint, `len` and `element.list` agree with them;
* `val`: the `Value` of the element of an arena entry points back to it;
* `table`: the table maps `k` to `i` exactly when `i` is used and has key `k`;
* `index`, `heap`: every heap member records its position, and the heap is
  min-ordered on `expire`;
* `pqMem`: the heap holds exactly the used entries with a non-zero `expire`;
* `out`: an arena entry outside the heap has `index == -1`. -/
structure Inv (b : LRUCache T) (used free : List Nat) : Prop where
  rings : Rings b ListId.lruList ListId.freeList used free
  val : ∀ i, i ∈ used ∨ i ∈ free → b.Value (Node.elem i) = some i
  table : ∀ k i, b.table k = some i ↔ (i ∈ used ∧ b.key i = k)
  index : IndexOK b
  heap : HeapOrdered b b.priorityQueue.length
  pqMem : ∀ i, i ∈ b.priorityQueue ↔ (i ∈ used ∧ b.expire i ≠ 0)
  out : ∀ i, i ∉ b.priorityQueue → (i ∈ used ∨ i ∈ free) → b.index i = -1

/-- Every free entry carries the empty key and the zero value. -/
def Cleared [Inhabited T] (b : LRUCache T) (free : List Nat) : Prop :=
  ∀ i ∈ free, b.key i = "" ∧ b.value i = default

/-- Follows `next` from the pointer `x` for at most `n` steps and collects the
slots of the arena entries met before a root or nil. -/
def walk (b : LRUCache T) : Nat → Option Node → List Nat
  | 0, _ => []
  | n + 1, some (Node.elem i) => i :: walk b n (b.next (Node.elem i))
  | _ + 1, _ => []

/-- The used slots in recency order, most recently used first: the elements
of `lruList` from `Front()` to `Back()`. -/
def LRUCache.order (b : LRUCache T) : List Nat :=
  walk b (b.len ListId.lruList).toNat (b.next (Node.root ListId.lruList))

/-- The free slots, in the order of `freeList`. -/
def LRUCache.freeOrder (b : LRUCache T) : List Nat :=
  walk b (b.len ListId.freeList).toNat (b.next (Node.root ListId.freeList))

/-- The keys of the cache in recency order, most recently used first. -/
def LRUCache.keys (b : LRUCache T) : List String := b.order.map b.key

/-- The state of the loop of `init` after the slots below `i` are pushed. -/
structure InitInv [Inhabited T] (b : LRUCache T) (i : Nat) : Prop where
  rings : Rings b ListId.freeList ListId.lruList (List.range i) []
  val : ∀ j, j < i → b.Value (Node.elem j) = some j ∧ b.index j = -1
  table : b.table = fun _ => none
  pq : b.priorityQueue = []
  key : b.key = fun _ => ""
  value : b.value = fun _ => default
  grace : b.ExpireGracePeriod = 0

/-- The entry `e` of `b'` is rebound to `(k, v, t)`; every other `key`,
`value`, `expire` and the grace period are those of `b`. -/
def Rebound (b b' : LRUCache T) (e : Nat) (k : String) (v : T) (t : Time) : Prop :=
  b'.key = Function.update b.key e k ∧ b'.value = Function.update b.value e v ∧
  b'.expire = Function.update b.expire e t ∧ b'.ExpireGracePeriod = b.ExpireGracePeriod

/-- The `now` that `expiredEntry` compares with: a zero `now` is replaced by
the reading `wall` of `time.Now()`. -/
def effectiveNow (now wall : Time) : Time := if Time.IsZero now then wall else now

/-- The entry that `freeSomeEntry` takes from a full cache with used slots
`used`: the root of the heap when it expires before the effective `now`, else
the back of the used list. -/
def victim (b : LRUCache T) (used : List Nat) (now wall : Time) : Option Nat :=
  if b.priorityQueue ≠ [] ∧ expireAt b 0 < effectiveNow now wall then some (entryAt b 0)
  else used.getLast?

/-- The representation invariant with the slot sequences left implicit, for a
cache of capacity `c`. -/
def Good [Inhabited T] (c : Nat) (b : LRUCache T) : Prop :=
  ∃ used free, Inv b used free ∧ Cleared b free ∧ used.length + free.length = c

/-- A call of a public method of `*LRUCache[T]`, or an assignment to the public
field `ExpireGracePeriod`.  The arguments `wall` and `clock` are the readings
of `time.Now()` made during the call. -/
inductive Call (T : Type) where
  | SetNow (key : String) (value : T) (expire now wall : Time)
  | Set (key : String) (value : T) (expire wall : Time)
  | Get (key : String)
  | GetQuiet (key : String)
  | GetNotStaleNow (key : String) (now : Time)
  | GetNotStale (key : String) (wall : Time)
  | GetStaleNow (key : String) (now : Time)
  | GetStale (key : String) (wall : Time)
  | Del (key : String)
  | Clear
  | ExpireNow (now : Time) (clock : Nat → Time)
  | Expire (wall : Time) (clock : Nat → Time)
  | SetExpireGracePeriod (g : Duration)

/-- The state after a call; `none` when the call panics. -/
def Call.exec [Inhabited T] (b : LRUCache T) : Call T → Option (LRUCache T)
  | Call.SetNow k v t now wall => LRUCache.SetNow b k v t now wall
  | Call.Set k v t wall => LRUCache.Set b k v t wall
  | Call.Get k => (LRUCache.Get b k).map fun r => r.1
  | Call.GetQuiet k => (LRUCache.GetQuiet b k).map fun r => r.1
  | Call.GetNotStaleNow k now => (LRUCache.GetNotStaleNow b k now).map fun r => r.1
  | Call.GetNotStale k wall => (LRUCache.GetNotStale b k wall).map fun r => r.1
  | Call.GetStaleNow k now => (LRUCache.GetStaleNow b k now).map fun r => r.1
  | Call.GetStale k wall => (LRUCache.GetStale b k wall).map fun r => r.1
  | Call.Del k => (LRUCache.Del b k).map fun r => r.1
  | Call.Clear => (LRUCache.Clear b).map fun r => r.1
  | Call.ExpireNow now clock => (LRUCache.ExpireNow b now clock).map fun r => r.1
  | Call.Expire wall clock => (LRUCache.Expire b wall clock).map fun r => r.1
  | Call.SetExpireGracePeriod g => some { b with ExpireGracePeriod := g }

/-- Specification side, in the words of the recency claim: the key that a call
uses, that is the key of a `Set`/`SetNow`, or the key of a
`Get`/`GetNotStale`/`GetStale` lookup that reports a hit.  `GetQuiet` and the
other calls use no key. -/
def Call.used [Inhabited T] (b : LRUCache T) : Call T → Option String
  | Call.SetNow k _ _ _ _ => some k
  | Call.Set k _ _ _ => some k
  | Call.Get k => if (LRUCache.Get b k).map (fun r => r.2.2) = some true then some k else none
  | Call.GetNotStaleNow k now =>
    if (LRUCache.GetNotStaleNow b k now).map (fun r => r.2.2) = some true then some k else none
  | Call.GetNotStale k wall =>
    if (LRUCache.GetNotStale b k wall).map (fun r => r.2.2) = some true then some k else none
  | Call.GetStaleNow k now =>
    if (LRUCache.GetStaleNow b k now).map (fun r => r.2.2.1) = some true then some k else none
  | Call.GetStale k wall =>
    if (LRUCache.GetStale b k wall).map (fun r => r.2.2.1) = some true then some k else none
  | _ => none

/-- The state after a sequence of calls. -/
def run [Inhabited T] (b : LRUCache T) : List (Call T) → Option (LRUCache T)
  | [] => some b
  | call :: calls => (Call.exec b call).bind fun b' => run b' calls

/-- The states of a cache built by `NewLRUCache(c)` and used through its public
methods. -/
def Reachable [Inhabited T] (c : Nat) (b : LRUCache T) : Prop :=
  ∃ b0 calls, NewLRUCache c = some b0 ∧ run b0 calls = some b

/-- The effect of a call on the recency order: either the call uses the key
`k`, whose entry is now at the front, before the entries `rest` left of the
old order; or the new order is what is left of the old one (and is empty if the
call was a use). -/
def OrderStep (b b' : LRUCache T) (used used' : List Nat) (u : Option String) : Prop :=
  (∃ k e rest, u = some k ∧ used' = e :: rest ∧ rest.Sublist used ∧ b'.key e = k ∧
      ∀ j ∈ rest, b'.key j = b.key j ∧ b.key j ≠ k) ∨
    (used'.Sublist used ∧ (∀ j ∈ used', b'.key j = b.key j) ∧ (u ≠ none → used' = []))

/-- The state `b'` after a call on `b` keeps the invariant and the capacity. -/
def StepOK [Inhabited T] (b b' : LRUCache T) (used free : List Nat) (u : Option String) :
    Prop :=
  ∃ used' free', Inv b' used' free' ∧ Cleared b' free' ∧
    used'.length + free'.length = used.length + free.length ∧ OrderStep b b' used used' u

/-- The cache built by `NewLRUCache(c)` with string values after the calls
`calls` (the zero cache if a call panics, which does not happen). -/
def cacheAfter (c : Nat) (calls : List (Call String)) : LRUCache String :=
  ((NewLRUCache c).bind fun b => run b calls).getD zeroCache

/-- The fields that the list operations never write. -/
def ListFrame (b b' : LRUCache T) : Prop :=
  b'.key = b.key ∧ b'.value = b.value ∧ b'.expire = b.expire ∧ b'.index = b.index ∧
  b'.Value = b.Value ∧ b'.table = b.table ∧ b'.priorityQueue = b.priorityQueue ∧
  b'.ExpireGracePeriod = b.ExpireGracePeriod

/-- Specification side, in the words of the recency claim: the use stamps
after the calls `calls` run from `b`.  Every call is numbered
from `n + 1`, and a call that uses a key (see `Call.used`) stamps the key with
its number.  So `useStamps b0 calls 0 (fun _ => 0) k` is the number of the
latest `Set`/`SetNow` or lookup hit of `k`, or 0 if there is none. -/
def useStamps [Inhabited T] (b : LRUCache T) :
    List (Call T) → Nat → (String → Nat) → String → Nat
  | [], _, s => s
  | call :: calls, n, s =>
    match Call.exec b call with
    | none => s
    | some b' =>
      useStamps b' calls (n + 1)
        (match Call.used b call with
          | some k => Function.update s k (n + 1)
          | none => s)

/-- The state `b` of a cache of capacity `c` holds exactly the pairs `L`, most
recently used first, none of them with a TTL. -/
def Filled [Inhabited T] (c : Nat) (b : LRUCache T) (L : List (String × T)) : Prop :=
  ∃ used free, Inv b used free ∧ Cleared b free ∧ used.length + free.length = c ∧
    (∀ i ∈ used, b.expire i = 0) ∧ used.map (fun i => (b.key i, b.value i)) = L

/-- A full cache of capacity 2 without TTL: `a` then `b` were set. -/
def demoFull : LRUCache String :=
  cacheAfter 2 [Call.Set "a" "va" 0 5, Call.Set "b" "vb" 0 5]

/-- A full cache of capacity 2 whose most recently used entry `b` carries the
expire 3. -/
def demoExpired : LRUCache String :=
  cacheAfter 2 [Call.Set "a" "va" 0 5, Call.Set "b" "vb" 3 5]

/-- A cache of capacity 1 that holds `a` without TTL. -/
def demoSentinel : LRUCache String :=
  cacheAfter 1 [Call.Set "a" "va" 0 5]

/-- A cache of capacity 1 with a grace period of 1 that holds `a` with the
expire 10. -/
def demoGrace : LRUCache String :=
  cacheAfter 1 [Call.SetExpireGracePeriod 1, Call.Set "a" "va" 10 5]

/-- A cache of capacity 0 after `SetNow("a", "v1", 3)` and
`SetNow("a", "v2", 5)`. -/
def demoZeroTTL : LRUCache String :=
  cacheAfter 0 [Call.SetNow "a" "v1" 3 0 5, Call.SetNow "a" "v2" 5 0 5]

/-- A cache of capacity 0 after `SetNow("a", "v1", 3)` and
`SetNow("a", "v2", time.Time{})`. -/
def demoZeroNoTTL : LRUCache String :=
  cacheAfter 0 [Call.SetNow "a" "v1" 3 0 5, Call.SetNow "a" "v2" 0 0 5]

/-! ## hash/crc32 -/

/-- The UTF-8 encoding of a character: the bytes that a Go string holds for
it. -/
def utf8Bytes (c : Char) : List Nat :=
  let n := c.toNat
  if n < 0x80 then [n]
  else if n < 0x800 then [0xC0 + n / 0x40, 0x80 + n % 0x40]
  else if n < 0x10000 then [0xE0 + n / 0x1000, 0x80 + n / 0x40 % 0x40, 0x80 + n % 0x40]
  else [0xF0 + n / 0x40000, 0x80 + n / 0x1000 % 0x40, 0x80 + n / 0x40 % 0x40, 0x80 + n % 0x40]

/-- The conversion `[]byte(key)`. -/
def keyBytes (key : String) : List Nat := key.toList.flatMap utf8Bytes

/-- One bit of the CRC-32 division, on the reflected register `c`: shift right
and subtract the reflected IEEE polynomial when the bit shifted out is set. -/
def crc32Bit (c : Nat) : Nat := if c % 2 = 1 then (c / 2) ^^^ 0xEDB88320 else c / 2

/-- The CRC-32 register after the byte `x`. -/
def crc32Byte (c x : Nat) : Nat := crc32Bit^[8] (c ^^^ x)

/-- The standard library function `crc32.ChecksumIEEE`: the CRC-32 checksum of
the data with the IEEE polynomial, the register preset to all ones and
complemented at the end. -/
def ChecksumIEEE (data : List Nat) : Nat := (data.foldl crc32Byte 0xFFFFFFFF) ^^^ 0xFFFFFFFF

/-! ## multilru.go -/

/-- The type `MultiLRUCache[T]`.  The slice `cache` holds pointers to shards
that `init` allocates one by one, so no two of them alias: `cache` is the list
of the states of the shards. -/
structure MultiLRUCache (T : Type) where
  buckets : Nat
  cache : List (LRUCache T)

/-- The loop of `init`: `n` shards built by `NewLRUCache(bucketCapacity)`. -/
def multiInitLoop [Inhabited T] (bucketCapacity : Nat) : Nat → Option (List (LRUCache T))
  | 0 => some []
  | n + 1 => do
    let c ← NewLRUCache bucketCapacity
    let rest ← multiInitLoop bucketCapacity n
    pure (c :: rest)

/-- The method `init(buckets, bucketCapacity)` on a new `MultiLRUCache`. -/
def MultiLRUCache.init [Inhabited T] (buckets bucketCapacity : Nat) :
    Option (MultiLRUCache T) := do
  let cache ← multiInitLoop bucketCapacity buckets
  pure { buckets := buckets, cache := cache }

/-- The constructor `NewMultiLRUCache(buckets, bucketCapacity)`. -/
def NewMultiLRUCache [Inhabited T] (buckets bucketCapacity : Nat) : Option (MultiLRUCache T) :=
  MultiLRUCache.init buckets bucketCapacity

/-- The method `bucketNo(key)`: `uint(crc32.ChecksumIEEE([]byte(key))) % m.buckets`;
the division panics when `m.buckets` is 0. -/
def MultiLRUCache.bucketNo (m : MultiLRUCache T) (key : String) : Option Nat :=
  if m.buckets = 0 then none else some (ChecksumIEEE (keyBytes key) % m.buckets)

/-- The shard `m.cache[m.bucketNo(key)]` with its number; the indexing panics
when the number is out of range. -/
def MultiLRUCache.bucket (m : MultiLRUCache T) (key : String) : Option (Nat × LRUCache T) := do
  let i ← m.bucketNo key
  let c ← m.cache[i]?
  pure (i, c)

/-- The method `SetNow` of `MultiLRUCache`. -/
def MultiLRUCache.SetNow [Inhabited T] (m : MultiLRUCache T) (key : String) (value : T)
    (expire now wall : Time) : Option (MultiLRUCache T) := do
  let (i, c) ← m.bucket key
  let c ← LRUCache.SetNow c key value expire now wall
  pure { m with cache := m.cache.set i c }

/-- The method `Set` of `MultiLRUCache`. -/
def MultiLRUCache.Set [Inhabited T] (m : MultiLRUCache T) (key : String) (value : T)
    (expire wall : Time) : Option (MultiLRUCache T) := do
  let (i, c) ← m.bucket key
  let c ← LRUCache.Set c key value expire wall
  pure { m with cache := m.cache.set i c }

/-- The method `Get` of `MultiLRUCache`. -/
def MultiLRUCache.Get [Inhabited T] (m : MultiLRUCache T) (key : String) :
    Option (MultiLRUCache T × T × Bool) := do
  let (i, c) ← m.bucket key
  let (c, r) ← LRUCache.Get c key
  pure ({ m with cache := m.cache.set i c }, r)

/-- The method `GetQuiet` of `MultiLRUCache`; its body calls `Get` on the
shard, as the source does. -/
def MultiLRUCache.GetQuiet [Inhabited T] (m : MultiLRUCache T) (key : String) :
    Option (MultiLRUCache T × T × Bool) := do
  let (i, c) ← m.bucket key
  let (c, r) ← LRUCache.Get c key
  pure ({ m with cache := m.cache.set i c }, r)

/-- The recency order of every shard, as lists of keys. -/
def MultiLRUCache.keys (m : MultiLRUCache T) : List (List String) := m.cache.map LRUCache.keys

/-- Two shards of capacity 2 after `Set("a")` and `Set("b")`, which both go to
shard 1. -/
def demoMulti : MultiLRUCache String :=
  ((NewMultiLRUCache 2 2).bind fun m =>
    (MultiLRUCache.Set m "a" "va" 0 5).bind fun m => MultiLRUCache.Set m "b" "vb" 0 5).getD
    { buckets := 0, cache := [] }

/-- The method `GetNotStale` of `MultiLRUCache`. -/
def MultiLRUCache.GetNotStale [Inhabited T] (m : MultiLRUCache T) (key : String)
    (wall : Time) : Option (MultiLRUCache T × T × Bool) := do
  let (i, c) ← m.bucket key
  let (c, r) ← LRUCache.GetNotStale c key wall
  pure ({ m with cache := m.cache.set i c }, r)

/-- The method `GetNotStaleNow` of `MultiLRUCache`. -/
def MultiLRUCache.GetNotStaleNow [Inhabited T] (m : MultiLRUCache T) (key : String)
    (now : Time) : Option (MultiLRUCache T × T × Bool) := do
  let (i, c) ← m.bucket key
  let (c, r) ← LRUCache.GetNotStaleNow c key now
  pure ({ m with cache := m.cache.set i c }, r)

/-- The method `GetStale` of `MultiLRUCache`. -/
def MultiLRUCache.GetStale [Inhabited T] (m : MultiLRUCache T) (key : String)
    (wall : Time) : Option (MultiLRUCache T × T × Bool × Bool) := do
  let (i, c) ← m.bucket key
  let (c, r) ← LRUCache.GetStale c key wall
  pure ({ m with cache := m.cache.set i c }, r)

/-- The method `GetStaleNow` of `MultiLRUCache`. -/
def MultiLRUCache.GetStaleNow [Inhabited T] (m : MultiLRUCache T) (key : String)
    (now : Time) : Option (MultiLRUCache T × T × Bool × Bool) := do
  let (i, c) ← m.bucket key
  let (c, r) ← LRUCache.GetStaleNow c key now
  pure ({ m with cache := m.cache.set i c }, r)

/-- The method `Del` of `MultiLRUCache`. -/
def MultiLRUCache.Del [Inhabited T] (m : MultiLRUCache T) (key : String) :
    Option (MultiLRUCache T × T × Bool) := do
  let (i, c) ← m.bucket key
  let (c, r) ← LRUCache.Del c key
  pure ({ m with cache := m.cache.set i c }, r)

/-- The method `SetExpireGracePeriod(p)`: assigns `p` to the grace period of
every shard. -/
def MultiLRUCache.SetExpireGracePeriod (m : MultiLRUCache T) (p : Duration) :
    MultiLRUCache T :=
  { m with cache := m.cache.map fun c => { c with ExpireGracePeriod := p } }

/-- The loop over `range m.cache` with the body `s += f(c)` of the methods that
visit every shard, run on the shards from number `j` on with the sum `s` so
far; `f j` is the method called on shard `j`, which also updates the shard. -/
def sumLoop (f : Nat → LRUCache T → Option (LRUCache T × Int)) :
    List (LRUCache T) → Nat → Int → Option (List (LRUCache T) × Int)
  | [], _, s => some ([], s)
  | c :: rest, j, s => do
    let (c, n) ← f j c
    let (rest, s) ← sumLoop f rest (j + 1) (s + n)
    pure (c :: rest, s)

/-- The method `Clear` of `MultiLRUCache`. -/
def MultiLRUCache.Clear [Inhabited T] (m : MultiLRUCache T) :
    Option (MultiLRUCache T × Int) := do
  let (cache, s) ← sumLoop (fun _ c => LRUCache.Clear c) m.cache 0 0
  pure ({ m with cache := cache }, s)

/-- The method `Len` of `MultiLRUCache`: the sum of `c.Len()` over the
shards. -/
def MultiLRUCache.Len (m : MultiLRUCache T) : Int :=
  m.cache.foldl (fun s c => s + LRUCache.Len c) 0

/-- The method `Capacity` of `MultiLRUCache`: the sum of `c.Capacity()` over
the shards. -/
def MultiLRUCache.Capacity (m : MultiLRUCache T) : Int :=
  m.cache.foldl (fun s c => s + LRUCache.Capacity c) 0

/-- The method `Expire` of `MultiLRUCache`; `wall j` and `clock j` are the
readings of `time.Now()` made by the call on shard `j`. -/
def MultiLRUCache.Expire [Inhabited T] (m : MultiLRUCache T) (wall : Nat → Time)
    (clock : Nat → Nat → Time) : Option (MultiLRUCache T × Int) := do
  let (cache, s) ← sumLoop (fun j c => LRUCache.Expire c (wall j) (clock j)) m.cache 0 0
  pure ({ m with cache := cache }, s)

/-- The method `ExpireNow` of `MultiLRUCache`; `clock j` gives the readings
of `time.Now()` made by the call on shard `j`. -/
def MultiLRUCache.ExpireNow [Inhabited T] (m : MultiLRUCache T) (now : Time)
    (clock : Nat → Nat → Time) : Option (MultiLRUCache T × Int) := do
  let (cache, s) ← sumLoop (fun j c => LRUCache.ExpireNow c now (clock j)) m.cache 0 0
  pure ({ m with cache := cache }, s)

/-- A call of a public method of `*MultiLRUCache[T]`, with the readings of
`time.Now()` made during the call. -/
inductive MultiCall (T : Type) where
  | SetNow (key : String) (value : T) (expire now wall : Time)
  | Set (key : String) (value : T) (expire wall : Time)
  | Get (key : String)
  | GetQuiet (key : String)
  | GetNotStaleNow (key : String) (now : Time)
  | GetNotStale (key : String) (wall : Time)
  | GetStaleNow (key : String) (now : Time)
  | GetStale (key : String) (wall : Time)
  | Del (key : String)
  | Clear
  | ExpireNow (now : Time) (clock : Nat → Nat → Time)
  | Expire (wall : Nat → Time) (clock : Nat → Nat → Time)
  | SetExpireGracePeriod (p : Duration)

/-- The state after a call on a `MultiLRUCache`; `none` when the call
panics. -/
def MultiCall.exec [Inhabited T] (m : MultiLRUCache T) : MultiCall T → Option (MultiLRUCache T)
  | MultiCall.SetNow k v t now wall => MultiLRUCache.SetNow m k v t now wall
  | MultiCall.Set k v t wall => MultiLRUCache.Set m k v t wall
  | MultiCall.Get k => (MultiLRUCache.Get m k).map fun r => r.1
  | MultiCall.GetQuiet k => (MultiLRUCache.GetQuiet m k).map fun r => r.1
  | MultiCall.GetNotStaleNow k now => (MultiLRUCache.GetNotStaleNow m k now).map fun r => r.1
  | MultiCall.GetNotStale k wall => (MultiLRUCache.GetNotStale m k wall).map fun r => r.1
  | MultiCall.GetStaleNow k now => (MultiLRUCache.GetStaleNow m k now).map fun r => r.1
  | MultiCall.GetStale k wall => (MultiLRUCache.GetStale m k wall).map fun r => r.1
  | MultiCall.Del k => (MultiLRUCache.Del m k).map fun r => r.1
  | MultiCall.Clear => (MultiLRUCache.Clear m).map fun r => r.1
  | MultiCall.ExpireNow now clock => (MultiLRUCache.ExpireNow m now clock).map fun r => r.1
  | MultiCall.Expire wall clock => (MultiLRUCache.Expire m wall clock).map fun r => r.1
  | MultiCall.SetExpireGracePeriod p => some (MultiLRUCache.SetExpireGracePeriod m p)

/-- The key of a per-key method of `MultiLRUCache`, with the call of the
shard method that its body makes (for `GetQuiet` that is `Get`, as in the
source); `none` for the methods that visit every shard. -/
def MultiCall.route : MultiCall T → Option (String × Call T)
  | MultiCall.SetNow k v t now wall => some (k, Call.SetNow k v t now wall)
  | MultiCall.Set k v t wall => some (k, Call.Set k v t wall)
  | MultiCall.Get k => some (k, Call.Get k)
  | MultiCall.GetQuiet k => some (k, Call.Get k)
  | MultiCall.GetNotStaleNow k now => some (k, Call.GetNotStaleNow k now)
  | MultiCall.GetNotStale k wall => some (k, Call.GetNotStale k wall)
  | MultiCall.GetStaleNow k now => some (k, Call.GetStaleNow k now)
  | MultiCall.GetStale k wall => some (k, Call.GetStale k wall)
  | MultiCall.Del k => some (k, Call.Del k)
  | _ => none

/-- The state of a `MultiLRUCache` after a sequence of calls. -/
def multiRun [Inhabited T] (m : MultiLRUCache T) : List (MultiCall T) → Option (MultiLRUCache T)
  | [] => some m
  | call :: calls => (MultiCall.exec m call).bind fun m' => multiRun m' calls

/-- The states of a cache built by `NewMultiLRUCache(N, c)` and used through
its public methods. -/
def MultiReachable [Inhabited T] (N c : Nat) (m : MultiLRUCache T) : Prop :=
  ∃ m0 calls, NewMultiLRUCache N c = some m0 ∧ multiRun m0 calls = some m

/-- The invariant of a `MultiLRUCache` of `N` shards of capacity `c`: there
are `N` shards and each satisfies the representation invariant. -/
def MultiGood [Inhabited T] (N c : Nat) (m : MultiLRUCache T) : Prop :=
  m.buckets = N ∧ m.cache.length = N ∧ ∀ s ∈ m.cache, Good c s

/-- The cache built by `NewMultiLRUCache(N, c)` with string values after the
calls `calls` (the empty cache if a call panics). -/
def multiAfter (N c : Nat) (calls : List (MultiCall String)) : MultiLRUCache String :=
  ((NewMultiLRUCache N c).bind fun m => multiRun m calls).getD { buckets := 0, cache := [] }

/-- Two shards of capacity 2 after `Set("a")` with expire 3, `Set("b")` and
`Set("d")`; `a` and `b` go to shard 1 and `d` to shard 0. -/
def demoShards : MultiLRUCache String :=
  multiAfter 2 2 [MultiCall.Set "a" "va" 3 5, MultiCall.Set "b" "vb" 0 5,
    MultiCall.Set "d" "vd" 0 5]

/-- A cache of capacity 3 whose three entries are all in the expiry heap. -/
def demoHeap : LRUCache String :=
  cacheAfter 3 [Call.Set "a" "va" 5 1, Call.Set "b" "vb" 3 1, Call.Set "c" "vc" 7 1]

/-! ## Theorems -/


theorem chain_link_congr {b b' : LRUCache T} : ∀ (L : List Node) (a : Node),
    (∀ x ∈ (a :: L).dropLast, b'.next x = b.next x) →
    (∀ y ∈ L, b'.prev y = b.prev y) →
    List.Chain (Link b) a L → List.Chain (Link b') a L := by
  intro L
  induction L with
  | nil => intro a _ _ _; exact List.Chain.nil
  | cons x L ih =>
    intro a hn hp hc
    rw [List.chain_cons] at hc ⊢
    obtain ⟨⟨h1, h2⟩, hc⟩ := hc
    refine ⟨⟨?_, ?_⟩, ih x ?_ ?_ hc⟩
    · rw [hn a (by simp [List.dropLast]), h1]
    · rw [hp x (by simp), h2]
    · intro y hy
      apply hn
      rw [List.dropLast_cons_of_ne_nil (by simp)]
      exact List.mem_cons_of_mem _ hy
    · intro y hy
      exact hp y (List.mem_cons_of_mem _ hy)

theorem mem_dropLast_of {α : Type} {x : α} {L : List α} (h : x ∈ L.dropLast) : x ∈ L :=
  List.dropLast_subset L h

/-- In a ring the root's `next` is the first element (or the root itself). -/
theorem Ring.ring_next_root {b : LRUCache T} {l : ListId} {xs : List Nat} (h : Ring b l xs) :
    b.next (Node.root l) = some ((xs.map Node.elem ++ [Node.root l]).head (by simp)) := by
  unfold Ring at h
  cases xs with
  | nil => simp at h ⊢; exact h.1
  | cons x xs => simp at h ⊢; exact h.1.1

theorem Ring.nil_iff {b : LRUCache T} {l : ListId} :
    Ring b l [] ↔ b.next (Node.root l) = some (Node.root l) ∧ b.prev (Node.root l) = some (Node.root l) := by
  simp [Ring, Link]

/-- Pushing a fresh element at the front of a ring. -/
theorem Ring.insert_front {b b' : LRUCache T} {l : ListId} {xs : List Nat} {e : Nat} {n : Node}
    (h : Ring b l xs) (hnd : xs.Nodup) (he : e ∉ xs)
    (hn : b.next (Node.root l) = some n)
    (hnext : b'.next = Function.update (Function.update b.next (Node.root l) (some (Node.elem e)))
      (Node.elem e) (some n))
    (hprev : b'.prev = Function.update (Function.update b.prev (Node.elem e) (some (Node.root l)))
      n (some (Node.elem e))) :
    Ring b' l (e :: xs) := by
  have hn' := h.ring_next_root
  rw [hn] at hn'
  simp only [Option.some.injEq] at hn'
  unfold Ring at h ⊢
  simp only [List.map_cons, List.cons_append, List.chain_cons]
  have hne : n ≠ Node.elem e := by
    rw [hn']
    cases xs with
    | nil => simp
    | cons x xs => simp at he ⊢; intro h; exact he.1 h.symm
  refine ⟨⟨?_, ?_⟩, ?_⟩
  · simp [hnext]
  · simp [hprev, hne.symm]
  · cases xs with
    | nil =>
      simp at hn' ⊢
      subst hn'
      constructor
      · simp [hnext]
      · simp [hprev]
    | cons x xs =>
      simp at hn' he hnd ⊢
      subst hn'
      rw [List.map_cons, List.cons_append, List.chain_cons] at h
      refine ⟨⟨by simp [hnext], by simp [hprev]⟩, ?_⟩
      refine chain_link_congr _ _ ?_ ?_ h.2
      · intro y hy
        have hy' : y ∈ (Node.elem x :: List.map Node.elem xs) := by
          have := mem_dropLast_of hy
          simp at this
          rcases this with h1 | h1 | h1
          · simp [h1]
          · simp [h1]
          · exfalso
            subst h1
            rw [← List.cons_append, List.dropLast_concat] at hy
            simp at hy
        simp at hy'
        rw [hnext]
        rcases hy' with rfl | ⟨a, ha, rfl⟩
        · rw [Function.update_noteq, Function.update_noteq] <;> simp
          intro h; exact he.1 h.symm
        · rw [Function.update_noteq, Function.update_noteq] <;> simp
          intro h; subst h; exact he.2 ha
      · intro y hy
        simp at hy
        rw [hprev]
        rcases hy with ⟨a, ha, rfl⟩ | rfl
        · rw [Function.update_noteq, Function.update_noteq] <;> simp
          · intro h; subst h; exact he.2 ha
          · intro h; subst h; exact hnd.1 ha
        · rw [Function.update_noteq, Function.update_noteq] <;> simp
theorem chain'_link_congr {b b' : LRUCache T} (L : List Node)
    (hn : ∀ x ∈ L.dropLast, b'.next x = b.next x)
    (hp : ∀ y ∈ L.tail, b'.prev y = b.prev y)
    (hc : List.Chain' (Link b) L) : List.Chain' (Link b') L := by
  cases L with
  | nil => exact List.chain'_nil
  | cons a L => exact chain_link_congr L a hn hp hc

/-- Linking `e` between the neighbours `a` and `n` of a chain. -/
theorem chain'_insert {b b' : LRUCache T} (s t : List Node) (a e n : Node)
    (hc : List.Chain' (Link b) (s ++ a :: n :: t))
    (hnext : b'.next = Function.update (Function.update b.next a (some e)) e (some n))
    (hprev : b'.prev = Function.update (Function.update b.prev e (some a)) n (some e))
    (h1 : ∀ x ∈ s, x ≠ a ∧ x ≠ e) (h2 : ∀ y ∈ (s ++ [a]).tail, y ≠ n ∧ y ≠ e)
    (h3 : ∀ x ∈ (n :: t).dropLast, x ≠ a ∧ x ≠ e) (h4 : ∀ y ∈ t, y ≠ n ∧ y ≠ e)
    (hae : a ≠ e) (hne : n ≠ e) :
    List.Chain' (Link b') (s ++ a :: e :: n :: t) := by
  rw [List.chain'_split, List.chain'_cons] at hc
  obtain ⟨hs, -, ht⟩ := hc
  rw [List.chain'_split, List.chain'_cons, List.chain'_cons]
  refine ⟨?_, ⟨?_, ?_⟩, ⟨?_, ?_⟩, ?_⟩
  · refine chain'_link_congr _ ?_ ?_ hs
    · intro x hx
      rw [List.dropLast_concat] at hx
      rw [hnext, Function.update_noteq (h1 x hx).2, Function.update_noteq (h1 x hx).1]
    · intro y hy
      rw [hprev, Function.update_noteq (h2 y hy).1, Function.update_noteq (h2 y hy).2]
  · rw [hnext, Function.update_noteq hae, Function.update_same]
  · rw [hprev, Function.update_noteq hne.symm, Function.update_same]
  · rw [hnext, Function.update_same]
  · rw [hprev, Function.update_same]
  · refine chain'_link_congr _ ?_ ?_ ht
    · intro x hx
      rw [hnext, Function.update_noteq (h3 x hx).2, Function.update_noteq (h3 x hx).1]
    · intro y hy
      rw [hprev, Function.update_noteq (h4 y hy).1, Function.update_noteq (h4 y hy).2]

/-- Unlinking `e` from between its neighbours `p` and `n` in a chain. -/
theorem chain'_remove {b b' : LRUCache T} (s t : List Node) (p e n : Node)
    (hc : List.Chain' (Link b) (s ++ p :: e :: n :: t))
    (hnext : b'.next = Function.update (Function.update b.next p (some n)) e none)
    (hprev : b'.prev = Function.update (Function.update b.prev n (some p)) e none)
    (h1 : ∀ x ∈ s, x ≠ p ∧ x ≠ e) (h2 : ∀ y ∈ (s ++ [p]).tail, y ≠ n ∧ y ≠ e)
    (h3 : ∀ x ∈ (n :: t).dropLast, x ≠ p ∧ x ≠ e) (h4 : ∀ y ∈ t, y ≠ n ∧ y ≠ e)
    (hpe : p ≠ e) (hne : n ≠ e) :
    List.Chain' (Link b') (s ++ p :: n :: t) := by
  rw [List.chain'_split, List.chain'_cons, List.chain'_cons] at hc
  obtain ⟨hs, -, -, ht⟩ := hc
  rw [List.chain'_split, List.chain'_cons]
  refine ⟨?_, ⟨?_, ?_⟩, ?_⟩
  · refine chain'_link_congr _ ?_ ?_ hs
    · intro x hx
      rw [List.dropLast_concat] at hx
      rw [hnext, Function.update_noteq (h1 x hx).2, Function.update_noteq (h1 x hx).1]
    · intro y hy
      rw [hprev, Function.update_noteq (h2 y hy).2, Function.update_noteq (h2 y hy).1]
  · rw [hnext, Function.update_noteq hpe, Function.update_same]
  · rw [hprev, Function.update_noteq hne, Function.update_same]
  · refine chain'_link_congr _ ?_ ?_ ht
    · intro x hx
      rw [hnext, Function.update_noteq (h3 x hx).2, Function.update_noteq (h3 x hx).1]
    · intro y hy
      rw [hprev, Function.update_noteq (h4 y hy).2, Function.update_noteq (h4 y hy).1]
theorem Rings.symm {b : LRUCache T} {l l' : ListId} {xs ys : List Nat}
    (h : Rings b l l' xs ys) : Rings b l' l ys xs :=
  ⟨h.ne.symm, by
    have := h.nodup
    rw [List.nodup_append] at this ⊢
    exact ⟨this.2.1, this.1, fun a ha hb => this.2.2 hb ha⟩,
   h.ring', h.ring, h.len', h.len, h.mem', h.mem⟩

theorem ListFrame.lf_refl (b : LRUCache T) : ListFrame b b :=
  ⟨rfl, rfl, rfl, rfl, rfl, rfl, rfl, rfl⟩

theorem ListFrame.lf_trans {b b' b'' : LRUCache T} (h : ListFrame b b') (h' : ListFrame b' b'') :
    ListFrame b b'' := by
  obtain ⟨h1, h2, h3, h4, h5, h6, h7, h8⟩ := h
  obtain ⟨g1, g2, g3, g4, g5, g6, g7, g8⟩ := h'
  exact ⟨g1.trans h1, g2.trans h2, g3.trans h3, g4.trans h4, g5.trans h5, g6.trans h6,
    g7.trans h7, g8.trans h8⟩

/-- A ring is untouched when `next` and `prev` are unchanged on its nodes. -/
theorem Ring.ring_frame {b b' : LRUCache T} {l : ListId} {xs : List Nat} (h : Ring b l xs)
    (hf : ∀ x, (x = Node.root l ∨ x ∈ xs.map Node.elem) →
      b'.next x = b.next x ∧ b'.prev x = b.prev x) : Ring b' l xs := by
  unfold Ring at h ⊢
  refine chain_link_congr _ _ ?_ ?_ h
  · intro x hx
    have := mem_dropLast_of hx
    refine (hf x ?_).1
    simp only [List.mem_cons, List.mem_append, List.mem_singleton] at this
    tauto
  · intro y hy
    refine (hf y ?_).2
    simp only [List.mem_append, List.mem_singleton] at hy
    tauto

theorem ringNodes_dropLast (l : ListId) (xs : List Nat) :
    (ringNodes l xs).dropLast = Node.root l :: xs.map Node.elem := by
  unfold ringNodes
  rw [← List.cons_append, List.dropLast_concat]

theorem ringNodes_dropLast_nodup (l : ListId) {xs : List Nat} (h : xs.Nodup) :
    (ringNodes l xs).dropLast.Nodup := by
  rw [ringNodes_dropLast, List.nodup_cons]
  refine ⟨by simp, ?_⟩
  exact (List.nodup_map_iff (fun a b h => by injection h)).2 h

theorem ringNodes_tail_nodup (l : ListId) {xs : List Nat} (h : xs.Nodup) :
    (ringNodes l xs).tail.Nodup := by
  unfold ringNodes
  rw [List.tail_cons, List.nodup_append]
  refine ⟨(List.nodup_map_iff (fun a b h => by injection h)).2 h, by simp, ?_⟩
  intro a ha hb
  simp at ha hb
  obtain ⟨i, _, rfl⟩ := ha
  cases hb

/-- Unlinking, stated with the two nodup facts of a ring. -/
theorem chain'_remove_nodup {b b' : LRUCache T} (W s t : List Node) (p e n : Node)
    (hW : W = s ++ p :: e :: n :: t)
    (hc : List.Chain' (Link b) W) (N1 : W.dropLast.Nodup) (N2 : W.tail.Nodup)
    (hnext : b'.next = Function.update (Function.update b.next p (some n)) e none)
    (hprev : b'.prev = Function.update (Function.update b.prev n (some p)) e none) :
    List.Chain' (Link b') (s ++ p :: n :: t) := by
  subst hW
  have D : (s ++ p :: e :: n :: t).dropLast = s ++ p :: e :: (n :: t).dropLast := by
    rw [List.dropLast_append_of_ne_nil _ (by simp)]
    rw [List.dropLast_cons_of_ne_nil (by simp), List.dropLast_cons_of_ne_nil (by simp)]
  have E : (s ++ p :: e :: n :: t).tail = (s ++ [p]).tail ++ e :: n :: t := by
    cases s <;> simp
  rw [D] at N1
  rw [E] at N2
  rw [List.nodup_append] at N1 N2
  obtain ⟨-, N1b, N1c⟩ := N1
  obtain ⟨-, N2b, N2c⟩ := N2
  rw [List.nodup_cons, List.nodup_cons] at N1b N2b
  refine chain'_remove s t p e n hc hnext hprev ?_ ?_ ?_ ?_ ?_ ?_
  · intro x hx
    exact ⟨fun h => N1c hx (by simp [h]), fun h => N1c hx (by simp [h])⟩
  · intro y hy
    exact ⟨fun h => N2c hy (by simp [h]), fun h => N2c hy (by simp [h])⟩
  · intro x hx
    refine ⟨fun h => N1b.1 ?_, fun h => N1b.2.1 (h ▸ hx)⟩
    exact List.mem_cons_of_mem _ (h ▸ hx)
  · intro y hy
    refine ⟨fun h => N2b.2.1 (h ▸ hy), fun h => N2b.1 ?_⟩
    exact List.mem_cons_of_mem _ (h ▸ hy)
  · intro h
    exact N1b.1 (by simp [h])
  · intro h
    exact N2b.1 (by simp [h])

/-- Linking, stated with the two nodup facts of a ring. -/
theorem chain'_insert_nodup {b b' : LRUCache T} (W s t : List Node) (a e n : Node)
    (hW : W = s ++ a :: n :: t)
    (hc : List.Chain' (Link b) W) (N1 : W.dropLast.Nodup) (N2 : W.tail.Nodup)
    (he : e ∉ W)
    (hnext : b'.next = Function.update (Function.update b.next a (some e)) e (some n))
    (hprev : b'.prev = Function.update (Function.update b.prev e (some a)) n (some e)) :
    List.Chain' (Link b') (s ++ a :: e :: n :: t) := by
  subst hW
  have D : (s ++ a :: n :: t).dropLast = s ++ a :: (n :: t).dropLast := by
    rw [List.dropLast_append_of_ne_nil _ (by simp)]
    rw [List.dropLast_cons_of_ne_nil (by simp)]
  have E : (s ++ a :: n :: t).tail = (s ++ [a]).tail ++ n :: t := by
    cases s <;> simp
  rw [D] at N1
  rw [E] at N2
  rw [List.nodup_append] at N1 N2
  obtain ⟨-, N1b, N1c⟩ := N1
  obtain ⟨-, N2b, N2c⟩ := N2
  rw [List.nodup_cons] at N1b N2b
  have he' : ∀ x ∈ s ++ a :: n :: t, x ≠ e := fun x hx h => he (h ▸ hx)
  refine chain'_insert s t a e n hc hnext hprev ?_ ?_ ?_ ?_ ?_ ?_
  · intro x hx
    exact ⟨fun h => N1c hx (by simp [h]), he' x (by simp [hx])⟩
  · intro y hy
    refine ⟨fun h => N2c hy (by simp [h]), he' y ?_⟩
    have : y ∈ (s ++ [a]) := List.mem_of_mem_tail hy
    simp at this ⊢
    tauto
  · intro x hx
    refine ⟨fun h => N1b.1 (h ▸ hx), he' x ?_⟩
    have := mem_dropLast_of hx
    simp at this ⊢
    tauto
  · intro y hy
    exact ⟨fun h => N2b.1 (h ▸ hy), he' y (by simp [hy])⟩
  · exact he' a (by simp)
  · exact he' n (by simp)
theorem Ring.chain' {b : LRUCache T} {l : ListId} {xs : List Nat} (h : Ring b l xs) :
    List.Chain' (Link b) (ringNodes l xs) := h

theorem list_remove_eq (b : LRUCache T) (l : ListId) (e p n : Node)
    (hp : b.prev e = some p) (hn : b.next e = some n) (hpe : p ≠ e) :
    list.remove b l (some e) = some { b with
      next := Function.update (Function.update b.next p (some n)) e none
      prev := Function.update (Function.update b.prev n (some p)) e none
      list := Function.update b.list e none
      len := Function.update b.len l (b.len l - 1) } := by
  simp [list.remove, hp, hn, Function.update_noteq hpe.symm]

theorem list_insert_eq (b : LRUCache T) (l : ListId) (e a n : Node)
    (hn : b.next a = some n) :
    list.insert b l (some e) (some a) = some { b with
      next := Function.update (Function.update b.next a (some e)) e (some n)
      prev := Function.update (Function.update b.prev e (some a)) n (some e)
      list := Function.update b.list e (some l)
      len := Function.update b.len l (b.len l + 1) } := by
  simp [list.insert, hn]

theorem list_remove_core {b : LRUCache T} {l : ListId} {xs : List Nat} {e : Nat}
    (hr : Ring b l xs) (hnd : xs.Nodup) (he : e ∈ xs) :
    ∃ b', list.remove b l (some (Node.elem e)) = some b' ∧ Ring b' l (xs.erase e) ∧
      (∀ x, x ∉ ringNodes l xs → b'.next x = b.next x ∧ b'.prev x = b.prev x) ∧
      b'.list = Function.update b.list (Node.elem e) none ∧
      b'.len = Function.update b.len l (b.len l - 1) ∧ ListFrame b b' := by
  obtain ⟨X1, X2, rfl⟩ := List.append_of_mem he
  have heX1 : e ∉ X1 := by
    intro h
    have := List.nodup_append.1 hnd
    exact this.2.2 h (by simp)
  have herase : (X1 ++ e :: X2).erase e = X1 ++ X2 := by
    rw [List.erase_append_right _ heX1, List.erase_cons_head]
  obtain ⟨n, t, hnt⟩ : ∃ n t, X2.map Node.elem ++ [Node.root l] = n :: t := by
    cases X2 with
    | nil => exact ⟨_, _, rfl⟩
    | cons y Y => exact ⟨_, _, rfl⟩
  have hne : (Node.root l :: X1.map Node.elem) ≠ [] := by simp
  set s := (Node.root l :: X1.map Node.elem).dropLast with hs
  set p := (Node.root l :: X1.map Node.elem).getLast hne with hp
  have hsp : Node.root l :: X1.map Node.elem = s ++ [p] :=
    (List.dropLast_append_getLast hne).symm
  have hW : ringNodes l (X1 ++ e :: X2) = s ++ p :: Node.elem e :: n :: t := by
    unfold ringNodes
    rw [List.map_append, List.map_cons, List.append_assoc, List.cons_append, hnt,
      ← List.cons_append, hsp]
    simp
  have hW' : ringNodes l (X1 ++ X2) = s ++ p :: n :: t := by
    unfold ringNodes
    rw [List.map_append, List.append_assoc, hnt, ← List.cons_append, hsp]
    simp
  have hc := hr.chain'
  have hlinks := hc
  rw [hW, List.chain'_split, List.chain'_cons, List.chain'_cons] at hlinks
  obtain ⟨-, ⟨-, hpv⟩, ⟨hnx, -⟩, -⟩ := hlinks
  have N1 := ringNodes_dropLast_nodup l hnd
  have N2 := ringNodes_tail_nodup l hnd
  have hpe : p ≠ Node.elem e := by
    intro h
    rw [hW] at N1
    rw [List.dropLast_append_of_ne_nil _ (by simp),
      List.dropLast_cons_of_ne_nil (by simp), List.dropLast_cons_of_ne_nil (by simp),
      List.nodup_append, List.nodup_cons] at N1
    exact N1.2.1.1 (by simp [h])
  refine ⟨_, list_remove_eq b l _ p n hpv hnx hpe, ?_, ?_, rfl, rfl, ListFrame.lf_refl _⟩
  · rw [herase]
    show List.Chain' _ (ringNodes l (X1 ++ X2))
    rw [hW']
    exact chain'_remove_nodup _ s t p (Node.elem e) n hW hc N1 N2 rfl rfl
  · intro x hx
    rw [hW] at hx
    simp only [List.mem_append, List.mem_cons, not_or] at hx
    obtain ⟨-, h1, h2, h3, -⟩ := hx
    constructor
    · show Function.update (Function.update b.next p (some n)) (Node.elem e) none x = _
      rw [Function.update_noteq h2, Function.update_noteq h1]
    · show Function.update (Function.update b.prev n (some p)) (Node.elem e) none x = _
      rw [Function.update_noteq h2, Function.update_noteq h3]

theorem list_insert_core {b : LRUCache T} {l : ListId} {xs : List Nat} {e : Nat}
    {s t : List Node} {a n : Node}
    (hr : Ring b l xs) (hnd : xs.Nodup) (he : e ∉ xs)
    (hW : ringNodes l xs = s ++ a :: n :: t) :
    ∃ b', list.insert b l (some (Node.elem e)) (some a) = some b' ∧
      List.Chain' (Link b') (s ++ a :: Node.elem e :: n :: t) ∧
      (∀ x, x ∉ ringNodes l xs → x ≠ Node.elem e →
        b'.next x = b.next x ∧ b'.prev x = b.prev x) ∧
      b'.list = Function.update b.list (Node.elem e) (some l) ∧
      b'.len = Function.update b.len l (b.len l + 1) ∧ ListFrame b b' := by
  have hc := hr.chain'
  have hlinks := hc
  rw [hW, List.chain'_split, List.chain'_cons] at hlinks
  obtain ⟨-, ⟨hnx, -⟩, -⟩ := hlinks
  have N1 := ringNodes_dropLast_nodup l hnd
  have N2 := ringNodes_tail_nodup l hnd
  have heW : Node.elem e ∉ ringNodes l xs := by
    unfold ringNodes
    simp [he]
  refine ⟨_, list_insert_eq b l _ a n hnx, ?_, ?_, rfl, rfl, ListFrame.lf_refl _⟩
  · exact chain'_insert_nodup _ s t a (Node.elem e) n hW hc N1 N2 heW rfl rfl
  · intro x hx hxe
    rw [hW] at hx
    simp only [List.mem_append, List.mem_cons, not_or] at hx
    obtain ⟨-, h1, h2, -⟩ := hx
    constructor
    · show Function.update (Function.update b.next a _) (Node.elem e) _ x = _
      rw [Function.update_noteq hxe, Function.update_noteq h1]
    · show Function.update (Function.update b.prev (Node.elem e) _) n _ x = _
      rw [Function.update_noteq h2, Function.update_noteq hxe]
theorem not_mem_ringNodes_of_other {l l' : ListId} {xs ys : List Nat} (hne : l ≠ l')
    (hnd : (xs ++ ys).Nodup) (x : Node)
    (hx : x = Node.root l' ∨ x ∈ ys.map Node.elem) : x ∉ ringNodes l xs := by
  unfold ringNodes
  rcases hx with rfl | hx
  · simp [hne.symm]
  · simp only [List.mem_map] at hx
    obtain ⟨i, hi, rfl⟩ := hx
    have := (List.nodup_append.1 hnd).2.2
    simp only [List.mem_cons, List.mem_append, List.mem_map, List.mem_singleton, not_or]
    refine ⟨by simp, ?_, by simp⟩
    rintro ⟨j, hj, h⟩
    injection h with h
    subst h
    exact this hj hi

theorem Rings.nodup_left {b : LRUCache T} {l l' : ListId} {xs ys : List Nat}
    (h : Rings b l l' xs ys) : xs.Nodup := (List.nodup_append.1 h.nodup).1

theorem Rings.nodup_right {b : LRUCache T} {l l' : ListId} {xs ys : List Nat}
    (h : Rings b l l' xs ys) : ys.Nodup := (List.nodup_append.1 h.nodup).2.1

theorem Rings.disjoint {b : LRUCache T} {l l' : ListId} {xs ys : List Nat}
    (h : Rings b l l' xs ys) {i : Nat} (hx : i ∈ xs) (hy : i ∈ ys) : False :=
  (List.nodup_append.1 h.nodup).2.2 hx hy

/-- The effect of `l.remove(e)` on the two rings. -/
theorem Rings.rings_remove {b : LRUCache T} {l l' : ListId} {xs ys : List Nat} {e : Nat}
    (h : Rings b l l' xs ys) (he : e ∈ xs) :
    ∃ b', list.remove b l (some (Node.elem e)) = some b' ∧
      Rings b' l l' (xs.erase e) ys ∧ b'.list (Node.elem e) = none ∧ ListFrame b b' := by
  obtain ⟨b', h1, h2, h3, h4, h5, h6⟩ := list_remove_core h.ring h.nodup_left he
  refine ⟨b', h1, ⟨h.ne, ?_, h2, ?_, ?_, ?_, ?_, ?_⟩, ?_, h6⟩
  · exact List.Nodup.sublist (List.Sublist.append (List.erase_sublist e xs)
      (List.Sublist.refl ys)) h.nodup
  · exact h.ring'.ring_frame (fun x hx => h3 x (not_mem_ringNodes_of_other h.ne h.nodup x hx))
  · rw [h5, Function.update_same, h.len, List.length_erase_of_mem he]
    have : 0 < xs.length := List.length_pos_of_mem he
    omega
  · rw [h5, Function.update_noteq h.ne.symm, h.len']
  · intro i hi
    have hne : i ≠ e := fun hh => by
      subst hh
      exact (List.Nodup.not_mem_erase h.nodup_left) hi
    rw [h4, Function.update_noteq (by simpa using hne)]
    exact h.mem i (List.mem_of_mem_erase hi)
  · intro i hi
    have hne : i ≠ e := fun hh => by
      subst hh
      exact h.disjoint he hi
    rw [h4, Function.update_noteq (by simpa using hne)]
    exact h.mem' i hi
  · rw [h4, Function.update_same]

/-- The effect of `l.PushElementFront(e)` on the two rings. -/
theorem Rings.pushFront {b : LRUCache T} {l l' : ListId} {xs ys : List Nat} {e : Nat}
    (h : Rings b l l' xs ys) (hx : e ∉ xs) (hy : e ∉ ys) :
    ∃ b', list.PushElementFront b l (some (Node.elem e)) = some b' ∧
      Rings b' l l' (e :: xs) ys ∧ ListFrame b b' := by
  obtain ⟨n, t, hnt⟩ : ∃ n t, xs.map Node.elem ++ [Node.root l] = n :: t := by
    cases xs with
    | nil => exact ⟨_, _, rfl⟩
    | cons y Y => exact ⟨_, _, rfl⟩
  have hW : ringNodes l xs = [] ++ Node.root l :: n :: t := by
    unfold ringNodes
    rw [hnt]
    rfl
  obtain ⟨b', h1, h2, h3, h4, h5, h6⟩ := list_insert_core h.ring h.nodup_left hx hW
  refine ⟨b', h1, ⟨h.ne, ?_, ?_, ?_, ?_, ?_, ?_, ?_⟩, h6⟩
  · rw [List.cons_append, List.nodup_cons]
    exact ⟨by simp [hx, hy], h.nodup⟩
  · show List.Chain' _ (ringNodes l (e :: xs))
    unfold ringNodes
    rw [List.map_cons, List.cons_append, hnt]
    exact h2
  · refine h.ring'.ring_frame (fun x hx' => h3 x (not_mem_ringNodes_of_other h.ne h.nodup x hx') ?_)
    rcases hx' with rfl | hx'
    · simp
    · intro hh
      subst hh
      simp at hx'
      exact hy hx'
  · rw [h5, Function.update_same, h.len]
    simp
  · rw [h5, Function.update_noteq h.ne.symm, h.len']
  · intro i hi
    rw [h4]
    rcases List.mem_cons.1 hi with rfl | hi
    · rw [Function.update_same]
    · have hne : i ≠ e := fun hh => hx (hh ▸ hi)
      rw [Function.update_noteq (by simpa using hne)]
      exact h.mem i hi
  · intro i hi
    have hne : i ≠ e := fun hh => hy (hh ▸ hi)
    rw [h4, Function.update_noteq (by simpa using hne)]
    exact h.mem' i hi

/-- The effect of `l.PushElementBack(e)` on the two rings. -/
theorem Rings.pushBack {b : LRUCache T} {l l' : ListId} {xs ys : List Nat} {e : Nat}
    (h : Rings b l l' xs ys) (hx : e ∉ xs) (hy : e ∉ ys) :
    ∃ b', list.PushElementBack b l (some (Node.elem e)) = some b' ∧
      Rings b' l l' (xs ++ [e]) ys ∧ ListFrame b b' := by
  have hne : (Node.root l :: xs.map Node.elem) ≠ [] := by simp
  set s := (Node.root l :: xs.map Node.elem).dropLast with hs
  set a := (Node.root l :: xs.map Node.elem).getLast hne with ha
  have hsa : Node.root l :: xs.map Node.elem = s ++ [a] :=
    (List.dropLast_append_getLast hne).symm
  have hW : ringNodes l xs = s ++ a :: Node.root l :: [] := by
    unfold ringNodes
    rw [← List.cons_append, hsa]
    simp
  have hprev : b.prev (Node.root l) = some a := by
    have hc := h.ring.chain'
    rw [hW, List.chain'_split, List.chain'_cons] at hc
    exact hc.2.1.2
  obtain ⟨b', h1, h2, h3, h4, h5, h6⟩ := list_insert_core h.ring h.nodup_left hx hW
  refine ⟨b', ?_, ⟨h.ne, ?_, ?_, ?_, ?_, ?_, ?_, ?_⟩, h6⟩
  · unfold list.PushElementBack
    rw [hprev]
    exact h1
  · have := h.nodup
    rw [List.nodup_append] at this ⊢
    refine ⟨?_, this.2.1, ?_⟩
    · rw [List.nodup_append]
      refine ⟨this.1, by simp, ?_⟩
      intro i hi hj
      simp at hj
      exact hx (hj ▸ hi)
    · intro i hi hj
      simp at hi
      rcases hi with hi | rfl
      · exact this.2.2 hi hj
      · exact hy hj
  · show List.Chain' _ (ringNodes l (xs ++ [e]))
    have : ringNodes l (xs ++ [e]) = s ++ a :: Node.elem e :: Node.root l :: [] := by
      unfold ringNodes
      rw [List.map_append, List.append_assoc, ← List.cons_append, hsa]
      simp
    rw [this]
    exact h2
  · refine h.ring'.ring_frame (fun x hx' => h3 x (not_mem_ringNodes_of_other h.ne h.nodup x hx') ?_)
    rcases hx' with rfl | hx'
    · simp
    · intro hh
      subst hh
      simp at hx'
      exact hy hx'
  · rw [h5, Function.update_same, h.len]
    simp
  · rw [h5, Function.update_noteq h.ne.symm, h.len']
  · intro i hi
    rw [h4]
    rcases List.mem_append.1 hi with hi | hi
    · have hne : i ≠ e := fun hh => hx (hh ▸ hi)
      rw [Function.update_noteq (by simpa using hne)]
      exact h.mem i hi
    · simp at hi
      subst hi
      rw [Function.update_same]
  · intro i hi
    have hne : i ≠ e := fun hh => hy (hh ▸ hi)
    rw [h4, Function.update_noteq (by simpa using hne)]
    exact h.mem' i hi
/-- The effect of `l.Remove(e)` for an element of `l`. -/
theorem Rings.Remove {b : LRUCache T} {l l' : ListId} {xs ys : List Nat} {e : Nat}
    (h : Rings b l l' xs ys) (he : e ∈ xs) (hv : b.Value (Node.elem e) = some e) :
    ∃ b', list.Remove b l (some (Node.elem e)) = some (b', b.value e) ∧
      Rings b' l l' (xs.erase e) ys ∧ b'.list (Node.elem e) = none ∧ ListFrame b b' := by
  obtain ⟨b', h1, h2, h3, h4⟩ := h.rings_remove he
  refine ⟨b', ?_, h2, h3, h4⟩
  obtain ⟨g1, g2, g3, g4, g5, g6, g7, g8⟩ := h4
  simp [list.Remove, h.mem e he, h1, g5, hv, g2]

theorem Rings.rings_next_root {b : LRUCache T} {l l' : ListId} {x : Nat} {xs ys : List Nat}
    (h : Rings b l l' (x :: xs) ys) : b.next (Node.root l) = some (Node.elem x) := by
  have := h.ring.ring_next_root
  simpa using this

theorem Rings.Front_cons {b : LRUCache T} {l l' : ListId} {x : Nat} {xs ys : List Nat}
    (h : Rings b l l' (x :: xs) ys) : list.Front b l = some (Node.elem x) := by
  unfold list.Front
  rw [h.len, h.rings_next_root]
  simp
  omega

theorem Rings.Back_concat {b : LRUCache T} {l l' : ListId} {x : Nat} {xs ys : List Nat}
    (h : Rings b l l' (xs ++ [x]) ys) : list.Back b l = some (Node.elem x) := by
  unfold list.Back
  rw [h.len]
  have hc := h.ring.chain'
  have : ringNodes l (xs ++ [x]) =
      (Node.root l :: xs.map Node.elem) ++ Node.elem x :: [Node.root l] := by
    unfold ringNodes
    simp
  rw [this, List.chain'_split, List.chain'_cons] at hc
  rw [hc.2.1.2]
  simp
  omega

/-- The effect of `l.MoveToFront(e)` for an element of `l`. -/
theorem Rings.MoveToFront {b : LRUCache T} {l l' : ListId} {xs ys : List Nat} {e : Nat}
    (h : Rings b l l' xs ys) (he : e ∈ xs) :
    ∃ b', list.MoveToFront b l (some (Node.elem e)) = some b' ∧
      Rings b' l l' (e :: xs.erase e) ys ∧ ListFrame b b' := by
  by_cases hfront : b.next (Node.root l) = some (Node.elem e)
  · refine ⟨b, by simp [list.MoveToFront, hfront], ?_, ListFrame.lf_refl b⟩
    cases xs with
    | nil => cases he
    | cons x xs =>
      rw [h.rings_next_root] at hfront
      simp only [Option.some.injEq, Node.elem.injEq] at hfront
      subst hfront
      simpa using h
  · obtain ⟨b1, h1, h2, h3, h4⟩ := h.rings_remove he
    have hx : e ∉ xs.erase e := List.Nodup.not_mem_erase h.nodup_left
    have hy : e ∉ ys := fun hy => h.disjoint he hy
    obtain ⟨b2, g1, g2, g3⟩ := h2.pushFront hx hy
    refine ⟨b2, ?_, g2, h4.lf_trans g3⟩
    unfold list.PushElementFront at g1
    simp [list.MoveToFront, hfront, h.mem e he, h1, g1]

theorem HeapFrame.hf_refl (b : LRUCache T) : HeapFrame b b :=
  ⟨rfl, rfl, rfl, rfl, rfl, rfl, rfl, rfl, rfl, rfl⟩

theorem HeapFrame.hf_trans {b b' b'' : LRUCache T} (h : HeapFrame b b') (h' : HeapFrame b' b'') :
    HeapFrame b b'' := by
  obtain ⟨h1, h2, h3, h4, h5, h6, h7, h8, h9, h10⟩ := h
  obtain ⟨g1, g2, g3, g4, g5, g6, g7, g8, g9, g10⟩ := h'
  exact ⟨g1.trans h1, g2.trans h2, g3.trans h3, g4.trans h4, g5.trans h5, g6.trans h6,
    g7.trans h7, g8.trans h8, g9.trans h9, g10.trans h10⟩

theorem HeapStep.hs_refl {b : LRUCache T} (h : IndexOK b) (n : Nat) : HeapStep b b n :=
  ⟨HeapFrame.hf_refl b, rfl, fun _ => Iff.rfl, fun _ _ => rfl, h, fun _ _ => rfl⟩

theorem HeapStep.hs_trans {b b' b'' : LRUCache T} {n : Nat} (h : HeapStep b b' n)
    (h' : HeapStep b' b'' n) : HeapStep b b'' n :=
  ⟨h.frame.hf_trans h'.frame, h'.length.trans h.length,
    fun x => (h'.mem x).trans (h.mem x),
    fun k hk => (h'.above k hk).trans (h.above k hk), h'.index,
    fun x hx => (h'.out x (fun hh => hx ((h.mem x).1 hh))).trans (h.out x hx)⟩

theorem at_cast (b : LRUCache T) (k : Nat) :
    priorityQueue.at b (k : Int) = b.priorityQueue[k]? := by
  simp [priorityQueue.at]

theorem at_lt (b : LRUCache T) {k : Nat} (h : k < b.priorityQueue.length) :
    priorityQueue.at b (k : Int) = some (entryAt b k) := by
  rw [at_cast, entryAt, List.getD_eq_getElem?_getD, List.getElem?_eq_getElem h]
  rfl

theorem mem_iff_entryAt (b : LRUCache T) (x : Nat) :
    x ∈ b.priorityQueue ↔ ∃ k, k < b.priorityQueue.length ∧ entryAt b k = x := by
  rw [List.mem_iff_getElem]
  constructor
  · rintro ⟨k, hk, h⟩
    exact ⟨k, hk, by rw [entryAt, List.getD_eq_getElem _ _ hk, h]⟩
  · rintro ⟨k, hk, h⟩
    exact ⟨k, hk, by rw [← h, entryAt, List.getD_eq_getElem _ _ hk]⟩

theorem IndexOK.inj {b : LRUCache T} (h : IndexOK b) {i j : Nat}
    (hi : i < b.priorityQueue.length) (hj : j < b.priorityQueue.length)
    (hij : entryAt b i = entryAt b j) : i = j := by
  have h1 := h i hi
  have h2 := h j hj
  rw [hij, h2] at h1
  exact_mod_cast h1.symm

theorem Less_eq (b : LRUCache T) {i j : Nat} (hi : i < b.priorityQueue.length)
    (hj : j < b.priorityQueue.length) :
    priorityQueue.Less b (i : Int) (j : Int) = some (decide (expireAt b i < expireAt b j)) := by
  simp [priorityQueue.Less, at_lt b hi, at_lt b hj, Time.Before, expireAt]

theorem swapped_length (b : LRUCache T) (i j : Nat) :
    (swapped b i j).priorityQueue.length = b.priorityQueue.length := by
  simp [swapped]

theorem entryAt_swapped (b : LRUCache T) {i j : Nat} (hi : i < b.priorityQueue.length)
    (hj : j < b.priorityQueue.length) (k : Nat) :
    entryAt (swapped b i j) k =
      if k = j then entryAt b i else if k = i then entryAt b j else entryAt b k := by
  unfold entryAt swapped
  simp only [List.getD_eq_getElem?_getD, List.getElem?_set, List.length_set]
  by_cases h1 : k = j
  · subst h1
    simp [hj, entryAt]
  · by_cases h2 : k = i
    · subst h2
      simp [hi, h1, Ne.symm h1, entryAt]
    · simp [h1, h2, Ne.symm h1, Ne.symm h2]

theorem Swap_eq (b : LRUCache T) {i j : Nat} (hi : i < b.priorityQueue.length)
    (hj : j < b.priorityQueue.length) :
    priorityQueue.Swap b (i : Int) (j : Int) = some (swapped b i j) := by
  have e1 : (List.set (List.set b.priorityQueue i (entryAt b j)) j (entryAt b i))[i]? =
      some ((List.set (List.set b.priorityQueue i (entryAt b j)) j (entryAt b i)).getD i 0) := by
    rw [List.getD_eq_getElem?_getD, List.getElem?_eq_getElem (by simpa using hi)]
    rfl
  have e2 : (List.set (List.set b.priorityQueue i (entryAt b j)) j (entryAt b i))[j]? =
      some ((List.set (List.set b.priorityQueue i (entryAt b j)) j (entryAt b i)).getD j 0) := by
    rw [List.getD_eq_getElem?_getD, List.getElem?_eq_getElem (by simpa using hj)]
    rfl
  simp only [priorityQueue.Swap, at_lt b hi, at_lt b hj, Option.bind_eq_bind, Option.some_bind,
    Int.toNat_ofNat, at_cast, e1, e2]
  rfl
theorem expireAt_swapped (b : LRUCache T) {i j : Nat} (hi : i < b.priorityQueue.length)
    (hj : j < b.priorityQueue.length) (k : Nat) :
    expireAt (swapped b i j) k =
      if k = j then expireAt b i else if k = i then expireAt b j else expireAt b k := by
  unfold expireAt
  rw [entryAt_swapped b hi hj k]
  have : (swapped b i j).expire = b.expire := rfl
  rw [this]
  split_ifs <;> rfl

theorem entryAt_swapped_left (b : LRUCache T) {i j : Nat} (hi : i < b.priorityQueue.length)
    (hj : j < b.priorityQueue.length) : entryAt (swapped b i j) i = entryAt b j := by
  rw [entryAt_swapped b hi hj]
  by_cases h : i = j
  · subst h
    simp
  · simp [h]

theorem swapped_step {b : LRUCache T} {i j n : Nat} (hidx : IndexOK b) (hi : i < n)
    (hj : j < n) (hn : n ≤ b.priorityQueue.length) : HeapStep b (swapped b i j) n := by
  have hi' : i < b.priorityQueue.length := by omega
  have hj' : j < b.priorityQueue.length := by omega
  have hidx' : (swapped b i j).index = Function.update (Function.update b.index
      (entryAt (swapped b i j) i) (i : Int)) (entryAt (swapped b i j) j) (j : Int) := rfl
  refine ⟨⟨rfl, rfl, rfl, rfl, rfl, rfl, rfl, rfl, rfl, rfl⟩, swapped_length b i j, ?_, ?_, ?_, ?_⟩
  · intro x
    rw [mem_iff_entryAt, mem_iff_entryAt, swapped_length]
    constructor
    · rintro ⟨k, hk, h⟩
      rw [entryAt_swapped b hi' hj'] at h
      split_ifs at h
      · exact ⟨i, hi', h⟩
      · exact ⟨j, hj', h⟩
      · exact ⟨k, hk, h⟩
    · rintro ⟨k, hk, h⟩
      by_cases h1 : k = i
      · refine ⟨j, hj', ?_⟩
        rw [entryAt_swapped b hi' hj', if_pos rfl, ← h1, h]
      · by_cases h2 : k = j
        · refine ⟨i, hi', ?_⟩
          rw [entryAt_swapped b hi' hj', if_pos rfl, ← h2, h]
          split_ifs with h3
          · rw [h3, h]
          · rfl
        · refine ⟨k, hk, ?_⟩
          rw [entryAt_swapped b hi' hj', if_neg h2, if_neg h1, h]
  · intro k hk
    rw [entryAt_swapped b hi' hj', if_neg (by omega), if_neg (by omega)]
  · intro k hk
    rw [swapped_length] at hk
    rw [hidx']
    by_cases h2 : k = j
    · subst h2
      rw [Function.update_same]
    · have hne : entryAt (swapped b i j) k ≠ entryAt (swapped b i j) j := by
        rw [entryAt_swapped b hi' hj' j, if_pos rfl, entryAt_swapped b hi' hj' k, if_neg h2]
        split_ifs with h1
        · intro h
          exact h2 (h1.trans (hidx.inj hj' hi' h).symm)
        · intro h
          exact h1 (hidx.inj hk hi' h)
      rw [Function.update_noteq hne]
      by_cases h1 : k = i
      · subst h1
        rw [Function.update_same]
      · have hne' : entryAt (swapped b i j) k ≠ entryAt (swapped b i j) i := by
          rw [entryAt_swapped b hi' hj' k, if_neg h2, if_neg h1, entryAt_swapped_left b hi' hj']
          intro h
          exact h2 (hidx.inj hk hj' h)
        rw [Function.update_noteq hne']
        rw [entryAt_swapped b hi' hj' k, if_neg h2, if_neg h1]
        exact hidx k hk
  · intro x hx
    rw [hidx']
    have h1 : x ≠ entryAt (swapped b i j) j := by
      rw [entryAt_swapped b hi' hj' j, if_pos rfl]
      intro h
      exact hx ((mem_iff_entryAt b x).2 ⟨i, hi', h.symm⟩)
    have h2 : x ≠ entryAt (swapped b i j) i := by
      rw [entryAt_swapped_left b hi' hj']
      intro h
      exact hx ((mem_iff_entryAt b x).2 ⟨j, hj', h.symm⟩)
    rw [Function.update_noteq h1, Function.update_noteq h2]

theorem parent_cast (j : Nat) : Int.tdiv ((j : Int) - 1) 2 = (((j - 1) / 2 : Nat) : Int) := by
  cases j with
  | zero => rfl
  | succ j =>
    have : ((j + 1 : Nat) : Int) - 1 = (j : Int) := by push_cast; ring
    rw [this, Int.tdiv_eq_ediv (by omega) (by norm_num)]
    simp

theorem HeapStep.expireAt_above {b b' : LRUCache T} {n : Nat} (h : HeapStep b b' n) {k : Nat}
    (hk : n ≤ k) : expireAt b' k = expireAt b k := by
  unfold expireAt
  rw [h.above k hk, h.frame.2.2.1]

/-- The loop of `up` restores the heap order when only the edge above `j` may
be broken and the children of `j` respect the parent of `j`. -/
theorem upLoop_spec : ∀ (fuel : Nat) (b : LRUCache T) (j n : Nat), j < n →
    n ≤ b.priorityQueue.length → j < fuel → IndexOK b →
    (∀ k, 0 < k → k < n → k ≠ j → HeapEdge b k) →
    (∀ k, 0 < k → k < n → (k - 1) / 2 = j → 0 < j → expireAt b ((j - 1) / 2) ≤ expireAt b k) →
    ∃ b', upLoop fuel b (j : Int) = some b' ∧ HeapStep b b' n ∧ HeapOrdered b' n := by
  intro fuel
  induction fuel with
  | zero => intro b j n _ _ hf; omega
  | succ fuel ih =>
    intro b j n hj hn hf hidx hedges hgrand
    unfold upLoop
    simp only [parent_cast]
    by_cases h0 : (((j - 1) / 2 : Nat) : Int) = (j : Int)
    · rw [if_pos h0]
      have hj0 : j = 0 := by omega
      refine ⟨b, rfl, HeapStep.hs_refl hidx n, ?_⟩
      intro k hk1 hk2
      exact hedges k hk1 hk2 (by omega)
    · rw [if_neg h0]
      have hjpos : 0 < j := by
        rcases Nat.eq_zero_or_pos j with h | h
        · subst h; simp at h0
        · exact h
      have hi : (j - 1) / 2 < j := by omega
      have hjl : j < b.priorityQueue.length := by omega
      have hil : (j - 1) / 2 < b.priorityQueue.length := by omega
      rw [Less_eq b hjl hil]
      simp only [Option.bind_eq_bind, Option.some_bind]
      by_cases hlt : expireAt b j < expireAt b ((j - 1) / 2)
      · simp only [hlt, decide_True, Bool.not_true, Bool.false_eq_true, if_false]
        rw [Swap_eq b hil hjl]
        simp only [Option.some_bind]
        have hstep := swapped_step hidx (show (j - 1) / 2 < n by omega) hj hn
        have hex := expireAt_swapped b hil hjl
        obtain ⟨b', h1, h2, h3⟩ := ih (swapped b ((j - 1) / 2) j) ((j - 1) / 2) n (by omega)
          (by rw [swapped_length]; exact hn) (by omega) hstep.index
          (by
            intro k hk1 hk2 hk3
            unfold HeapEdge
            rw [hex k, hex ((k - 1) / 2)]
            by_cases hkj : k = j
            · subst hkj
              rw [if_pos rfl, if_neg (by omega), if_pos rfl]
              exact le_of_lt hlt
            · rw [if_neg hkj, if_neg hk3]
              by_cases hpj : (k - 1) / 2 = j
              · rw [if_pos hpj]
                have := hgrand k hk1 hk2 hpj hjpos
                exact this
              · rw [if_neg hpj]
                by_cases hpi : (k - 1) / 2 = (j - 1) / 2
                · rw [if_pos hpi]
                  have := hedges k hk1 hk2 hkj
                  unfold HeapEdge at this
                  rw [hpi] at this
                  exact le_trans (le_of_lt hlt) this
                · rw [if_neg hpi]
                  exact hedges k hk1 hk2 hkj)
          (by
            intro k hk1 hk2 hk3 hk4
            rw [hex k, hex (((j - 1) / 2 - 1) / 2)]
            rw [if_neg (show ¬ ((j - 1) / 2 - 1) / 2 = j by omega),
              if_neg (show ¬ ((j - 1) / 2 - 1) / 2 = (j - 1) / 2 by omega)]
            have hpar := hedges ((j - 1) / 2) hk4 (by omega) (by omega)
            unfold HeapEdge at hpar
            by_cases hkj : k = j
            · rw [if_pos hkj]
              exact hpar
            · rw [if_neg hkj, if_neg (by omega)]
              have := hedges k hk1 hk2 hkj
              unfold HeapEdge at this
              rw [hk3] at this
              exact le_trans hpar this)
        exact ⟨b', h1, hstep.hs_trans h2, h3⟩
      · simp only [hlt, decide_False, Bool.not_false, if_true]
        refine ⟨b, rfl, HeapStep.hs_refl hidx n, ?_⟩
        intro k hk1 hk2
        by_cases hkj : k = j
        · subst hkj
          exact not_lt.1 hlt
        · exact hedges k hk1 hk2 hkj
theorem downLoop_unfold (fuel : Nat) (b : LRUCache T) (i n : Nat) :
    downLoop (fuel + 1) b (i : Int) (n : Int) =
      if n ≤ 2 * i + 1 then some (b, (i : Int))
      else
        (if 2 * i + 2 < n then priorityQueue.Less b ((2 * i + 2 : Nat) : Int) ((2 * i + 1 : Nat) : Int)
          else some false).bind fun r =>
        (priorityQueue.Less b (((if r then 2 * i + 2 else 2 * i + 1 : Nat)) : Int) (i : Int)).bind
          fun lt =>
          if !lt then some (b, (i : Int))
          else (priorityQueue.Swap b (i : Int) (((if r then 2 * i + 2 else 2 * i + 1 : Nat)) : Int)).bind
            fun b1 => downLoop fuel b1 (((if r then 2 * i + 2 else 2 * i + 1 : Nat)) : Int) (n : Int) := by
  have e1 : (2 * (i : Int) + 1) = ((2 * i + 1 : Nat) : Int) := by push_cast; ring
  have e2 : ((2 * i + 1 : Nat) : Int) + 1 = ((2 * i + 2 : Nat) : Int) := by push_cast; ring
  rw [downLoop]
  simp only [e1, e2]
  by_cases h : n ≤ 2 * i + 1
  · rw [if_pos h, if_pos]
    left
    exact_mod_cast h
  · rw [if_neg h, if_neg]
    · simp only [Option.bind_eq_bind]
      simp only [Nat.cast_lt]
      congr 1
      funext r
      cases r <;> rfl
    · intro hh
      rcases hh with hh | hh
      · exact h (by exact_mod_cast hh)
      · omega

/-- The loop of `down` restores the heap order below `i` when only the edges
at `i` may be broken and the children of `i` respect the parent of `i`; when
it does not move, the state is unchanged and the children of `i` respect
`i`. -/
theorem downLoop_spec : ∀ (fuel : Nat) (b : LRUCache T) (i n : Nat), i < n →
    n ≤ b.priorityQueue.length → n - i ≤ fuel → IndexOK b →
    (∀ k, 0 < k → k < n → k ≠ i → (k - 1) / 2 ≠ i → HeapEdge b k) →
    (∀ k, 0 < k → k < n → (k - 1) / 2 = i → 0 < i → expireAt b ((i - 1) / 2) ≤ expireAt b k) →
    ∃ (b' : LRUCache T) (i' : Nat),
      downLoop fuel b (i : Int) (n : Int) = some (b', (i' : Int)) ∧ HeapStep b b' n ∧
      i ≤ i' ∧
      (i' = i → b' = b ∧ ∀ k, 0 < k → k < n → (k - 1) / 2 = i → HeapEdge b k) ∧
      (i < i' → HeapOrdered b' n) := by
  intro fuel
  induction fuel with
  | zero => intro b i n hi _ hf; omega
  | succ fuel ih =>
    intro b i n hi hn hf hidx hedges hgrand
    rw [downLoop_unfold]
    by_cases h1 : n ≤ 2 * i + 1
    · rw [if_pos h1]
      refine ⟨b, i, rfl, HeapStep.hs_refl hidx n, le_refl i, fun _ => ⟨rfl, ?_⟩, fun h => by omega⟩
      intro k hk1 hk2 hk3
      omega
    · rw [if_neg h1]
      have hil : i < b.priorityQueue.length := by omega
      have hj1 : 2 * i + 1 < b.priorityQueue.length := by omega
      -- the smaller child
      obtain ⟨j, hjr, hjn, hjp, hjmin⟩ : ∃ j : Nat,
          ((if 2 * i + 2 < n then
              priorityQueue.Less b ((2 * i + 2 : Nat) : Int) ((2 * i + 1 : Nat) : Int)
            else some false) = some (decide (j = 2 * i + 2))) ∧ j < n ∧
          (j = 2 * i + 1 ∨ j = 2 * i + 2) ∧
          (∀ k, k < n → (k - 1) / 2 = i → 0 < k → expireAt b j ≤ expireAt b k) := by
        by_cases h2 : 2 * i + 2 < n
        · rw [if_pos h2, Less_eq b (by omega) hj1]
          by_cases h3 : expireAt b (2 * i + 2) < expireAt b (2 * i + 1)
          · refine ⟨2 * i + 2, by simp [h3], h2, Or.inr rfl, ?_⟩
            intro k hk hp hk0
            have : k = 2 * i + 1 ∨ k = 2 * i + 2 := by omega
            rcases this with rfl | rfl
            · exact le_of_lt h3
            · exact le_refl _
          · refine ⟨2 * i + 1, by simp [h3], by omega, Or.inl rfl, ?_⟩
            intro k hk hp hk0
            have : k = 2 * i + 1 ∨ k = 2 * i + 2 := by omega
            rcases this with rfl | rfl
            · exact le_refl _
            · exact not_lt.1 h3
        · rw [if_neg h2]
          refine ⟨2 * i + 1, by simp, by omega, Or.inl rfl, ?_⟩
          intro k hk hp hk0
          have : k = 2 * i + 1 := by omega
          subst this
          exact le_refl _
      rw [hjr]
      simp only [Option.some_bind]
      have hjsel : (if decide (j = 2 * i + 2) = true then 2 * i + 2 else 2 * i + 1) = j := by
        rcases hjp with rfl | rfl
        · simp
        · simp
      rw [hjsel]
      have hjl : j < b.priorityQueue.length := by omega
      have hpj : (j - 1) / 2 = i := by omega
      have hij : i < j := by omega
      rw [Less_eq b hjl hil]
      simp only [Option.some_bind]
      by_cases hlt : expireAt b j < expireAt b i
      · simp only [hlt, decide_True, Bool.not_true, Bool.false_eq_true, if_false]
        rw [Swap_eq b hil hjl]
        simp only [Option.some_bind]
        have hstep := swapped_step hidx hi hjn hn
        have hex := expireAt_swapped b hil hjl
        have pre1 : ∀ k, 0 < k → k < n → k ≠ j → (k - 1) / 2 ≠ j →
            HeapEdge (swapped b i j) k := by
          intro k hk1 hk2 hk3 hk4
          unfold HeapEdge
          rw [hex k, hex ((k - 1) / 2), if_neg hk3, if_neg hk4]
          by_cases hki : k = i
          · subst hki
            rw [if_pos rfl, if_neg (by omega)]
            exact hgrand j (by omega) hjn hpj hk1
          · rw [if_neg hki]
            by_cases hpi : (k - 1) / 2 = i
            · rw [if_pos hpi]
              exact hjmin k hk2 hpi hk1
            · rw [if_neg hpi]
              exact hedges k hk1 hk2 hki hpi
        have pre2 : ∀ k, 0 < k → k < n → (k - 1) / 2 = j → 0 < j →
            expireAt (swapped b i j) ((j - 1) / 2) ≤ expireAt (swapped b i j) k := by
          intro k hk1 hk2 hk3 _
          rw [hex k, hex ((j - 1) / 2), hpj, if_neg (by omega), if_pos rfl,
            if_neg (by omega), if_neg (by omega)]
          have := hedges k hk1 hk2 (by omega) (by omega)
          unfold HeapEdge at this
          rw [hk3] at this
          exact this
        obtain ⟨b', i', g1, g2, g3, g4, g5⟩ := ih (swapped b i j) j n hjn
          (by rw [swapped_length]; exact hn) (by omega) hstep.index pre1 pre2
        refine ⟨b', i', g1, hstep.hs_trans g2, by omega, fun h => by omega, fun _ => ?_⟩
        rcases Nat.lt_or_ge j i' with h | h
        · exact g5 h
        · have hi'j : i' = j := by omega
          obtain ⟨hb, hch⟩ := g4 hi'j
          subst hb
          intro k hk1 hk2
          by_cases hkj : k = j
          · subst hkj
            unfold HeapEdge
            rw [hex k, hex ((k - 1) / 2), hpj, if_pos rfl, if_neg (by omega), if_pos rfl]
            exact le_of_lt hlt
          · by_cases hkp : (k - 1) / 2 = j
            · exact hch k hk1 hk2 hkp
            · exact pre1 k hk1 hk2 hkj hkp
      · simp only [hlt, decide_False, Bool.not_false, if_true]
        refine ⟨b, i, rfl, HeapStep.hs_refl hidx n, le_refl i, fun _ => ⟨rfl, ?_⟩, fun h => by omega⟩
        intro k hk1 hk2 hk3
        unfold HeapEdge
        rw [hk3]
        exact le_trans (not_lt.1 hlt) (hjmin k hk2 hk3 hk1)
theorem HeapStep.mono {b b' : LRUCache T} {n m : Nat} (h : HeapStep b b' n) (hnm : n ≤ m) :
    HeapStep b b' m :=
  ⟨h.frame, h.length, h.mem, fun k hk => h.above k (le_trans hnm hk), h.index, h.out⟩

theorem down_spec (b : LRUCache T) (i n : Nat) (hi : i < n)
    (hn : n ≤ b.priorityQueue.length) (hidx : IndexOK b)
    (hedges : ∀ k, 0 < k → k < n → k ≠ i → (k - 1) / 2 ≠ i → HeapEdge b k)
    (hgrand : ∀ k, 0 < k → k < n → (k - 1) / 2 = i → 0 < i →
      expireAt b ((i - 1) / 2) ≤ expireAt b k) :
    ∃ (b' : LRUCache T) (moved : Bool), down b (i : Int) (n : Int) = some (b', moved) ∧
      HeapStep b b' n ∧
      (moved = false → b' = b ∧ ∀ k, 0 < k → k < n → (k - 1) / 2 = i → HeapEdge b k) ∧
      (moved = true → HeapOrdered b' n) := by
  obtain ⟨b', i', h1, h2, h3, h4, h5⟩ :=
    downLoop_spec (n + 1) b i n hi hn (by omega) hidx hedges hgrand
  refine ⟨b', decide ((i' : Int) > (i : Int)), ?_, h2, ?_, ?_⟩
  · simp [down, h1]
  · intro hm
    simp only [gt_iff_lt, Nat.cast_lt, decide_eq_false_iff_not, not_lt] at hm
    exact h4 (by omega)
  · intro hm
    simp only [gt_iff_lt, Nat.cast_lt, decide_eq_true_eq] at hm
    exact h5 hm

theorem up_spec (b : LRUCache T) (j n : Nat) (hj : j < n)
    (hn : n ≤ b.priorityQueue.length) (hidx : IndexOK b)
    (hedges : ∀ k, 0 < k → k < n → k ≠ j → HeapEdge b k)
    (hgrand : ∀ k, 0 < k → k < n → (k - 1) / 2 = j → 0 < j →
      expireAt b ((j - 1) / 2) ≤ expireAt b k) :
    ∃ b', up b (j : Int) = some b' ∧ HeapStep b b' n ∧ HeapOrdered b' n := by
  unfold up
  rw [Int.toNat_ofNat]
  exact upLoop_spec (j + 1) b j n hj hn (by omega) hidx hedges hgrand

theorem Push_eq (b : LRUCache T) (x : Nat) :
    priorityQueue.Push b (some x) = some { b with
      index := Function.update b.index x (b.priorityQueue.length : Int)
      priorityQueue := b.priorityQueue ++ [x] } := rfl

theorem Pop_eq (b : LRUCache T) (n : Nat) (h : b.priorityQueue.length = n + 1) :
    priorityQueue.Pop b = some ({ b with
      index := Function.update b.index (entryAt b n) (-1)
      priorityQueue := b.priorityQueue.dropLast }, entryAt b n) := by
  have e : ((b.priorityQueue.length : Int) - 1) = (n : Int) := by rw [h]; push_cast; ring
  simp only [priorityQueue.Pop, e, at_lt b (show n < b.priorityQueue.length by omega),
    Option.bind_eq_bind, Option.some_bind]
  rfl

/-- The specification of `HeapPush`. -/
theorem HeapPush_spec (b : LRUCache T) (x : Nat) (hidx : IndexOK b)
    (hord : HeapOrdered b b.priorityQueue.length) (hx : x ∉ b.priorityQueue) :
    ∃ b', HeapPush b (some x) = some b' ∧ HeapFrame b b' ∧ IndexOK b' ∧
      HeapOrdered b' b'.priorityQueue.length ∧
      (∀ y, y ∈ b'.priorityQueue ↔ y ∈ b.priorityQueue ∨ y = x) ∧
      (∀ y, y ∉ b.priorityQueue → y ≠ x → b'.index y = b.index y) := by
  set n := b.priorityQueue.length with hn
  set b1 : LRUCache T := { b with
      index := Function.update b.index x (b.priorityQueue.length : Int)
      priorityQueue := b.priorityQueue ++ [x] } with hb1
  have hlen1 : b1.priorityQueue.length = n + 1 := by simp [hb1, hn]
  have hent : ∀ k, k < n → entryAt b1 k = entryAt b k := by
    intro k hk
    simp only [entryAt, hb1, List.getD_eq_getElem?_getD]
    rw [List.getElem?_append_left (by omega)]
  have hentn : entryAt b1 n = x := by
    simp only [entryAt, hb1, List.getD_eq_getElem?_getD]
    rw [List.getElem?_append_right (by omega)]
    simp [hn]
  have hexp : ∀ k, k < n → expireAt b1 k = expireAt b k := by
    intro k hk
    unfold expireAt
    rw [hent k hk]
  have hidx1 : IndexOK b1 := by
    intro k hk
    rw [hlen1] at hk
    rcases Nat.lt_or_ge k n with h | h
    · rw [hent k h]
      show Function.update b.index x _ _ = _
      rw [Function.update_noteq]
      · exact hidx k h
      · intro hh
        exact hx ((mem_iff_entryAt b x).2 ⟨k, h, hh⟩)
    · have : k = n := by omega
      subst this
      rw [hentn]
      show Function.update b.index x _ _ = _
      rw [Function.update_same]
  obtain ⟨b', h1, h2, h3⟩ := up_spec b1 n (n + 1) (by omega) (by omega) hidx1
    (by
      intro k hk1 hk2 hk3
      unfold HeapEdge
      rw [hexp k (by omega), hexp _ (by omega)]
      exact hord k hk1 (by omega))
    (by
      intro k hk1 hk2 hk3 hk4
      omega)
  refine ⟨b', ?_, h2.frame, h2.index, ?_, ?_, ?_⟩
  · unfold HeapPush
    rw [Push_eq]
    simp only [Option.bind_eq_bind, Option.some_bind]
    have : priorityQueue.Len b1 - 1 = (n : Int) := by
      unfold priorityQueue.Len
      rw [hlen1]
      push_cast
      ring
    rw [← hb1, this]
    exact h1
  · rw [h2.length, hlen1]
    exact h3
  · intro y
    rw [h2.mem y]
    simp [hb1]
  · intro y hy hyx
    rw [h2.out y (by simp [hb1, hy, hyx])]
    show Function.update b.index x _ _ = _
    rw [Function.update_noteq hyx]

/-- The part of `HeapRemove` before the final `Pop`: the entry at `i` is moved
to the last position `n` and the first `n` positions are made a heap again. -/
theorem HeapRemove_fix (b : LRUCache T) (i n : Nat) (hlen : b.priorityQueue.length = n + 1)
    (hi : i < n) (hidx : IndexOK b) (hord : HeapOrdered b (n + 1)) :
    ∃ b3, ((priorityQueue.Swap b (i : Int) (n : Int)).bind fun b1 =>
        (down b1 (i : Int) (n : Int)).bind fun r =>
          if !r.2 then up r.1 (i : Int) else some r.1) = some b3 ∧
      HeapStep b b3 (n + 1) ∧ entryAt b3 n = entryAt b i ∧ HeapOrdered b3 n := by
  have hil : i < b.priorityQueue.length := by omega
  have hnl : n < b.priorityQueue.length := by omega
  rw [Swap_eq b hil hnl]
  simp only [Option.some_bind]
  have hstep1 : HeapStep b (swapped b i n) (n + 1) :=
    swapped_step hidx (by omega) (by omega) (by omega)
  have hex := expireAt_swapped b hil hnl
  have hsame : ∀ k, k < n → k ≠ i → expireAt (swapped b i n) k = expireAt b k := by
    intro k hk1 hk2
    rw [hex k, if_neg (by omega), if_neg hk2]
  have hedges : ∀ k, 0 < k → k < n → k ≠ i → (k - 1) / 2 ≠ i → HeapEdge (swapped b i n) k := by
    intro k hk1 hk2 hk3 hk4
    unfold HeapEdge
    rw [hsame k hk2 hk3, hsame _ (by omega) hk4]
    exact hord k hk1 (by omega)
  have hgrand : ∀ k, 0 < k → k < n → (k - 1) / 2 = i → 0 < i →
      expireAt (swapped b i n) ((i - 1) / 2) ≤ expireAt (swapped b i n) k := by
    intro k hk1 hk2 hk3 hk4
    rw [hsame k hk2 (by omega), hsame _ (by omega) (by omega)]
    have h1 := hord i hk4 (by omega)
    have h2 := hord k hk1 (by omega)
    unfold HeapEdge at h1 h2
    rw [hk3] at h2
    exact le_trans h1 h2
  have hn1 : n ≤ (swapped b i n).priorityQueue.length := by
    rw [swapped_length]
    omega
  obtain ⟨b2, moved, g1, g2, g3, g4⟩ :=
    down_spec (swapped b i n) i n hi hn1 hstep1.index hedges hgrand
  rw [g1]
  simp only [Option.some_bind]
  have hlast : entryAt (swapped b i n) n = entryAt b i := by
    rw [entryAt_swapped b hil hnl, if_pos rfl]
  cases moved with
  | true =>
    simp only [Bool.not_true, Bool.false_eq_true, if_false]
    refine ⟨b2, rfl, hstep1.hs_trans (g2.mono (by omega)), ?_, g4 rfl⟩
    rw [g2.above n (le_refl n), hlast]
  | false =>
    simp only [Bool.not_false, if_true]
    obtain ⟨hb, hch⟩ := g3 rfl
    subst hb
    obtain ⟨b3, f1, f2, f3⟩ := up_spec (swapped b i n) i n hi hn1 hstep1.index
      (by
        intro k hk1 hk2 hk3
        by_cases hp : (k - 1) / 2 = i
        · exact hch k hk1 hk2 hp
        · exact hedges k hk1 hk2 hk3 hp)
      hgrand
    refine ⟨b3, f1, hstep1.hs_trans (f2.mono (by omega)), ?_, f3⟩
    rw [f2.above n (le_refl n), hlast]

theorem entryAt_dropLast (b : LRUCache T) (idx : Nat → Int) (k n : Nat)
    (hlen : b.priorityQueue.length = n + 1) (hk : k < n) :
    entryAt { b with index := idx, priorityQueue := b.priorityQueue.dropLast } k =
      entryAt b k := by
  simp only [entryAt, List.getD_eq_getElem?_getD, List.getElem?_dropLast, hlen]
  rw [if_pos (by omega)]

/-- The final `Pop` of `HeapRemove`. -/
theorem Pop_spec (b : LRUCache T) (n : Nat) (hlen : b.priorityQueue.length = n + 1)
    (hidx : IndexOK b) (hord : HeapOrdered b n) :
    ∃ b', priorityQueue.Pop b = some (b', entryAt b n) ∧ HeapFrame b b' ∧ IndexOK b' ∧
      b'.priorityQueue.length = n ∧ HeapOrdered b' n ∧
      (∀ y, y ∈ b'.priorityQueue ↔ y ∈ b.priorityQueue ∧ y ≠ entryAt b n) ∧
      b'.index (entryAt b n) = -1 ∧
      (∀ y, y ≠ entryAt b n → b'.index y = b.index y) := by
  have hnl : n < b.priorityQueue.length := by omega
  refine ⟨_, Pop_eq b n hlen, ⟨rfl, rfl, rfl, rfl, rfl, rfl, rfl, rfl, rfl, rfl⟩, ?_, ?_, ?_, ?_,
    ?_, ?_⟩
  · intro k hk
    simp only [List.length_dropLast, hlen, Nat.add_sub_cancel] at hk
    rw [entryAt_dropLast b _ k n hlen hk]
    show Function.update b.index _ _ _ = _
    rw [Function.update_noteq]
    · exact hidx k (by omega)
    · intro h
      have := hidx.inj (by omega) hnl h
      omega
  · simp [hlen]
  · intro k hk1 hk2
    unfold HeapEdge expireAt
    rw [entryAt_dropLast b _ k n hlen hk2, entryAt_dropLast b _ _ n hlen (by omega)]
    exact hord k hk1 hk2
  · intro y
    rw [mem_iff_entryAt, mem_iff_entryAt]
    simp only [List.length_dropLast, hlen, Nat.add_sub_cancel]
    constructor
    · rintro ⟨k, hk, h⟩
      rw [entryAt_dropLast b _ k n hlen hk] at h
      refine ⟨⟨k, by omega, h⟩, ?_⟩
      intro hy
      have := hidx.inj (show k < b.priorityQueue.length by omega) hnl (h.trans hy)
      omega
    · rintro ⟨⟨k, hk, h⟩, hy⟩
      have hkn : k ≠ n := by
        intro hh
        subst hh
        exact hy h.symm
      exact ⟨k, by omega, by rw [entryAt_dropLast b _ k n hlen (by omega)]; exact h⟩
  · show Function.update b.index _ _ _ = _
    rw [Function.update_same]
  · intro y hy
    show Function.update b.index _ _ _ = _
    rw [Function.update_noteq hy]

/-- The specification of `HeapRemove`. -/
theorem HeapRemove_spec (b : LRUCache T) (i : Nat) (hi : i < b.priorityQueue.length)
    (hidx : IndexOK b) (hord : HeapOrdered b b.priorityQueue.length) :
    ∃ b', HeapRemove b (i : Int) = some (b', entryAt b i) ∧ HeapFrame b b' ∧ IndexOK b' ∧
      HeapOrdered b' b'.priorityQueue.length ∧
      (∀ y, y ∈ b'.priorityQueue ↔ y ∈ b.priorityQueue ∧ y ≠ entryAt b i) ∧
      b'.index (entryAt b i) = -1 ∧
      (∀ y, y ∉ b.priorityQueue → b'.index y = b.index y) ∧
      b'.priorityQueue.length + 1 = b.priorityQueue.length := by
  obtain ⟨n, hlen⟩ : ∃ n, b.priorityQueue.length = n + 1 := ⟨b.priorityQueue.length - 1, by omega⟩
  have hLen : priorityQueue.Len b - 1 = (n : Int) := by
    unfold priorityQueue.Len
    rw [hlen]
    push_cast
    ring
  unfold HeapRemove
  simp only [hLen, Option.bind_eq_bind]
  by_cases hin : i = n
  · subst hin
    rw [if_neg (by simp)]
    simp only [Option.some_bind]
    obtain ⟨b', h1, h2, h3, h4, h5, h6, h7, h8⟩ := Pop_spec b i hlen hidx
      (fun k hk1 hk2 => hord k hk1 (by omega))
    refine ⟨b', h1, h2, h3, by rw [h4]; exact h5, h6, h7, ?_, by omega⟩
    intro y hy
    refine h8 y ?_
    intro hh
    exact hy ((mem_iff_entryAt b y).2 ⟨i, hi, hh.symm⟩)
  · have hin' : i < n := by omega
    rw [if_pos (by intro h; exact hin (by exact_mod_cast h.symm))]
    obtain ⟨b3, g1, g2, g3, g4⟩ := HeapRemove_fix b i n hlen hin' hidx (by rw [← hlen]; exact hord)
    rw [g1]
    simp only [Option.some_bind]
    have hlen3 : b3.priorityQueue.length = n + 1 := by rw [g2.length, hlen]
    obtain ⟨b', h1, h2, h3, h4, h5, h6, h7, h8⟩ := Pop_spec b3 n hlen3 g2.index g4
    rw [g3] at h1 h6 h7 h8
    refine ⟨b', h1, g2.frame.hf_trans h2, h3, by rw [h4]; exact h5, ?_, h7, ?_, by omega⟩
    · intro y
      rw [h6 y, g2.mem y]
    · intro y hy
      rw [h8 y ?_, g2.out y hy]
      intro hh
      exact hy ((mem_iff_entryAt b y).2 ⟨i, hi, hh.symm⟩)

theorem Inv.key_inj {b : LRUCache T} {used free : List Nat} (h : Inv b used free) {i j : Nat}
    (hi : i ∈ used) (hj : j ∈ used) (hk : b.key i = b.key j) : i = j := by
  have h1 := (h.table (b.key j) i).2 ⟨hi, hk⟩
  have h2 := (h.table (b.key j) j).2 ⟨hj, rfl⟩
  rw [h1] at h2
  exact Option.some.inj h2

theorem Inv.index_of_mem {b : LRUCache T} {used free : List Nat} (h : Inv b used free) {e : Nat}
    (he : e ∈ b.priorityQueue) :
    ∃ i, i < b.priorityQueue.length ∧ entryAt b i = e ∧ b.index e = (i : Int) := by
  obtain ⟨i, hi, hie⟩ := (mem_iff_entryAt b e).1 he
  exact ⟨i, hi, hie, by rw [← hie]; exact h.index i hi⟩

/-- The specification of `removeEntry` for a used entry. -/
theorem removeEntry_spec [Inhabited T] {b : LRUCache T} {used free : List Nat} {e : Nat}
    (h : Inv b used free) (he : e ∈ used) :
    ∃ b', LRUCache.removeEntry b (some e) = some b' ∧ Inv b' (used.erase e) (e :: free) ∧
      b'.key = Function.update b.key e "" ∧ b'.value = Function.update b.value e default ∧
      b'.expire = b.expire ∧ b'.ExpireGracePeriod = b.ExpireGracePeriod ∧
      b'.table = Function.update b.table (b.key e) none ∧
      (Cleared b free → Cleared b' (e :: free)) := by
  have hlist : b.list (Node.elem e) = some ListId.lruList := h.rings.mem e he
  -- the heap part
  obtain ⟨b1, hb1, hf1, hidx1, hord1, hmem1, hout1⟩ : ∃ b1,
      (if b.index e ≠ -1 then (HeapRemove b (b.index e)).bind fun r => some r.1 else some b)
        = some b1 ∧ HeapFrame b b1 ∧ IndexOK b1 ∧ HeapOrdered b1 b1.priorityQueue.length ∧
      (∀ y, y ∈ b1.priorityQueue ↔ y ∈ b.priorityQueue ∧ y ≠ e) ∧
      (∀ y, y ∉ b1.priorityQueue → (y ∈ used ∨ y ∈ free) → b1.index y = -1) := by
    by_cases hpq : e ∈ b.priorityQueue
    · obtain ⟨i, hi, hie, hidx⟩ := h.index_of_mem hpq
      obtain ⟨b1, g1, g2, g3, g4, g5, g6, g7, g8⟩ := HeapRemove_spec b i hi h.index h.heap
      rw [hie] at g1 g5 g6
      refine ⟨b1, ?_, g2, g3, g4, g5, ?_⟩
      · rw [if_pos (by rw [hidx]; omega), hidx, g1]
        rfl
      · intro y hy hy'
        by_cases hye : y = e
        · rw [hye]
          exact g6
        · have : y ∉ b.priorityQueue := fun hh => hy ((g5 y).2 ⟨hh, hye⟩)
          rw [g7 y this]
          exact h.out y this hy'
    · have hidx := h.out e hpq (Or.inl he)
      refine ⟨b, by rw [if_neg (by simp [hidx])], HeapFrame.hf_refl b, h.index, h.heap, ?_, ?_⟩
      · intro y
        constructor
        · intro hy
          exact ⟨hy, fun hh => hpq (hh ▸ hy)⟩
        · exact fun hy => hy.1
      · intro y hy hy'
        exact h.out y hy hy'
  obtain ⟨f1, f2, f3, f4, f5, f6, f7, f8, f9, f10⟩ := hf1
  have hrings1 : Rings b1 ListId.lruList ListId.freeList used free := by
    obtain ⟨r1, r2, r3, r4, r5, r6, r7, r8⟩ := h.rings
    refine ⟨r1, r2, ?_, ?_, by rw [f8]; exact r5, by rw [f8]; exact r6, ?_, ?_⟩
    · exact r3.ring_frame (fun x _ => by rw [f4, f5]; exact ⟨rfl, rfl⟩)
    · exact r4.ring_frame (fun x _ => by rw [f4, f5]; exact ⟨rfl, rfl⟩)
    · intro i hi
      rw [f6]
      exact r7 i hi
    · intro i hi
      rw [f6]
      exact r8 i hi
  -- the list part
  obtain ⟨b2, hb2, hrings2, -, hf2⟩ := hrings1.Remove he (by rw [f7]; exact h.val e (Or.inl he))
  have hefree : e ∉ free := fun hh => h.rings.disjoint he hh
  obtain ⟨b3, hb3, hrings3, hf3⟩ := hrings2.symm.pushFront hefree
    (List.Nodup.not_mem_erase h.rings.nodup_left)
  obtain ⟨g1, g2, g3, g4, g5, g6, g7, g8⟩ := hf2.lf_trans hf3
  have hkey3 : b3.key = b.key := g1.trans f1
  have hval3 : b3.value = b.value := g2.trans f2
  have hexp3 : b3.expire = b.expire := g3.trans f3
  have htab3 : b3.table = b.table := g6.trans f9
  refine ⟨{ b3 with
      table := Function.update b3.table (b3.key e) none
      key := Function.update b3.key e ""
      value := Function.update b3.value e default }, ?_, ?_, ?_, ?_, hexp3, g8.trans f10, ?_, ?_⟩
  · unfold LRUCache.removeEntry
    simp only [Option.bind_eq_bind, Option.some_bind, hlist, ne_eq, not_true_eq_false, if_false]
    have hb1' : (if ¬b.index e = -1 then (HeapRemove b (b.index e)).bind fun r => some r.1
        else some b) = some b1 := hb1
    have : (if ¬b.index e = -1 then
          (HeapRemove b (b.index e)).bind fun __discr =>
            match __discr with
            | (b, snd) => pure b
        else some b) = some b1 := by
      rw [← hb1']
      rfl
    rw [this]
    simp only [Option.some_bind, hb2, hb3]
    rfl
  · refine ⟨?_, ?_, ?_, ?_, ?_, ?_, ?_⟩
    · obtain ⟨r1, r2, r3, r4, r5, r6, r7, r8⟩ := hrings3.symm
      exact ⟨r1, r2, r3.ring_frame (fun _ _ => ⟨rfl, rfl⟩), r4.ring_frame (fun _ _ => ⟨rfl, rfl⟩),
        r5, r6, r7, r8⟩
    · intro i hi
      show b3.Value _ = _
      rw [g5, f7]
      refine h.val i ?_
      rcases hi with hi | hi
      · exact Or.inl (List.mem_of_mem_erase hi)
      · rcases List.mem_cons.1 hi with rfl | hi
        · exact Or.inl he
        · exact Or.inr hi
    · intro k i
      show Function.update b3.table (b3.key e) none k = some i ↔
        (i ∈ used.erase e ∧ Function.update b3.key e "" i = k)
      rw [htab3, hkey3]
      by_cases hk : k = b.key e
      · subst hk
        rw [Function.update_same]
        constructor
        · intro hh
          cases hh
        · rintro ⟨hi, hik⟩
          have hie : i ≠ e := fun hh => List.Nodup.not_mem_erase h.rings.nodup_left (hh ▸ hi)
          rw [Function.update_noteq hie] at hik
          exact absurd (h.key_inj (List.mem_of_mem_erase hi) he hik) hie
      · rw [Function.update_noteq hk, h.table k i]
        constructor
        · rintro ⟨hi, hik⟩
          have hie : i ≠ e := fun hh => hk (by rw [← hik, hh])
          exact ⟨(List.mem_erase_of_ne hie).2 hi, by rw [Function.update_noteq hie]; exact hik⟩
        · rintro ⟨hi, hik⟩
          have hie : i ≠ e := fun hh => List.Nodup.not_mem_erase h.rings.nodup_left (hh ▸ hi)
          rw [Function.update_noteq hie] at hik
          exact ⟨List.mem_of_mem_erase hi, hik⟩
    · intro k hk
      have e1 : ∀ k, entryAt ({ b3 with
          table := Function.update b3.table (b3.key e) none
          key := Function.update b3.key e ""
          value := Function.update b3.value e default } : LRUCache T) k = entryAt b1 k := by
        intro k
        show b3.priorityQueue.getD k 0 = _
        rw [g7]
        rfl
      rw [e1]
      show b3.index _ = _
      rw [g4]
      exact hidx1 k (by
        have : b3.priorityQueue = b1.priorityQueue := g7
        rw [← this]
        exact hk)
    · have e0 : b3.priorityQueue = b1.priorityQueue := g7
      intro k hk1 hk2
      have := hord1 k hk1 (by rw [← e0]; exact hk2)
      unfold HeapEdge expireAt entryAt at this ⊢
      show b3.expire (b3.priorityQueue.getD _ 0) ≤ b3.expire (b3.priorityQueue.getD _ 0)
      rw [g3, e0]
      exact this
    · intro i
      show i ∈ b3.priorityQueue ↔ (i ∈ used.erase e ∧ b3.expire i ≠ 0)
      rw [g7, hmem1 i, h.pqMem i, hexp3]
      constructor
      · rintro ⟨⟨h1, h2⟩, h3⟩
        exact ⟨(List.mem_erase_of_ne h3).2 h1, h2⟩
      · rintro ⟨h1, h2⟩
        exact ⟨⟨List.mem_of_mem_erase h1, h2⟩,
          fun hh => List.Nodup.not_mem_erase h.rings.nodup_left (hh ▸ h1)⟩
    · intro i hi hi'
      show b3.index i = -1
      rw [g4]
      refine hout1 i (by rw [← g7]; exact hi) ?_
      rcases hi' with hi' | hi'
      · exact Or.inl (List.mem_of_mem_erase hi')
      · rcases List.mem_cons.1 hi' with rfl | hi'
        · exact Or.inl he
        · exact Or.inr hi'
  · show Function.update b3.key e "" = _
    rw [hkey3]
  · show Function.update b3.value e default = _
    rw [hval3]
  · show Function.update b3.table (b3.key e) none = _
    rw [htab3, hkey3]
  · intro hcl i hi
    show Function.update b3.key e "" i = "" ∧ Function.update b3.value e default i = default
    rcases List.mem_cons.1 hi with rfl | hi
    · simp
    · have hie : i ≠ e := fun hh => hefree (hh ▸ hi)
      rw [Function.update_noteq hie, Function.update_noteq hie, hkey3, hval3]
      exact hcl i hi
theorem Inv.entryAt_mem {b : LRUCache T} {used free : List Nat} (h : Inv b used free) {k : Nat}
    (hk : k < b.priorityQueue.length) : entryAt b k ∈ used ∧ b.expire (entryAt b k) ≠ 0 :=
  (h.pqMem _).1 ((mem_iff_entryAt b _).2 ⟨k, hk, rfl⟩)

/-- Writing `key`, `value` and `expire` of a free entry keeps the invariant. -/
theorem Inv.set_free {b : LRUCache T} {used free : List Nat} (h : Inv b used free) {e : Nat}
    (he : e ∈ free) (k : String) (v : T) (t : Time) :
    Inv { b with
      key := Function.update b.key e k
      value := Function.update b.value e v
      expire := Function.update b.expire e t } used free := by
  have hne : ∀ i, i ∈ used → i ≠ e := fun i hi hh => h.rings.disjoint hi (hh ▸ he)
  have hexp : ∀ j, j < b.priorityQueue.length →
      Function.update b.expire e t (entryAt b j) = b.expire (entryAt b j) := by
    intro j hj
    rw [Function.update_noteq (hne _ (h.entryAt_mem hj).1)]
  refine ⟨?_, h.val, ?_, h.index, ?_, ?_, h.out⟩
  · obtain ⟨r1, r2, r3, r4, r5, r6, r7, r8⟩ := h.rings
    exact ⟨r1, r2, r3.ring_frame (fun _ _ => ⟨rfl, rfl⟩), r4.ring_frame (fun _ _ => ⟨rfl, rfl⟩),
      r5, r6, r7, r8⟩
  · intro k' i
    show b.table k' = some i ↔ (i ∈ used ∧ Function.update b.key e k i = k')
    rw [h.table k' i]
    constructor
    · rintro ⟨h1, h2⟩
      exact ⟨h1, by rw [Function.update_noteq (hne i h1)]; exact h2⟩
    · rintro ⟨h1, h2⟩
      rw [Function.update_noteq (hne i h1)] at h2
      exact ⟨h1, h2⟩
  · intro j hj1 hj2
    have := h.heap j hj1 hj2
    unfold HeapEdge expireAt at this ⊢
    show Function.update b.expire e t (entryAt b _) ≤ Function.update b.expire e t (entryAt b _)
    have hj2' : j < b.priorityQueue.length := hj2
    rw [hexp j hj2', hexp _ (by omega)]
    exact this
  · intro i
    show i ∈ b.priorityQueue ↔ (i ∈ used ∧ Function.update b.expire e t i ≠ 0)
    rw [h.pqMem i]
    constructor
    · rintro ⟨h1, h2⟩
      exact ⟨h1, by rw [Function.update_noteq (hne i h1)]; exact h2⟩
    · rintro ⟨h1, h2⟩
      rw [Function.update_noteq (hne i h1)] at h2
      exact ⟨h1, h2⟩

/-- The specification of `insertEntry` for a free entry whose key is not in
the table. -/
theorem insertEntry_spec {b : LRUCache T} {used free : List Nat} {e : Nat}
    (h : Inv b used free) (he : e ∈ free) (hk : b.table (b.key e) = none) :
    ∃ b', LRUCache.insertEntry b (some e) = some b' ∧ Inv b' (e :: used) (free.erase e) ∧
      b'.key = b.key ∧ b'.value = b.value ∧ b'.expire = b.expire ∧
      b'.ExpireGracePeriod = b.ExpireGracePeriod ∧
      b'.table = Function.update b.table (b.key e) (some e) := by
  have hlist : b.list (Node.elem e) = some ListId.freeList := h.rings.mem' e he
  have heused : e ∉ used := fun hh => h.rings.disjoint hh he
  have hepq : e ∉ b.priorityQueue := fun hh => heused ((h.pqMem e).1 hh).1
  -- the heap part
  obtain ⟨b1, hb1, hf1, hidx1, hord1, hmem1, hout1⟩ : ∃ b1,
      (if (!Time.IsZero (b.expire e)) = true then HeapPush b (some e) else some b) = some b1 ∧
      HeapFrame b b1 ∧ IndexOK b1 ∧ HeapOrdered b1 b1.priorityQueue.length ∧
      (∀ y, y ∈ b1.priorityQueue ↔ (y ∈ e :: used ∧ b.expire y ≠ 0)) ∧
      (∀ y, y ∉ b1.priorityQueue → (y ∈ used ∨ y ∈ free) → b1.index y = -1) := by
    by_cases hz : b.expire e = 0
    · refine ⟨b, by simp [Time.IsZero, hz], HeapFrame.hf_refl b, h.index, h.heap, ?_, h.out⟩
      intro y
      rw [h.pqMem y]
      constructor
      · rintro ⟨h1, h2⟩
        exact ⟨List.mem_cons_of_mem _ h1, h2⟩
      · rintro ⟨h1, h2⟩
        rcases List.mem_cons.1 h1 with rfl | h1
        · exact absurd hz h2
        · exact ⟨h1, h2⟩
    · obtain ⟨b1, g1, g2, g3, g4, g5, g6⟩ := HeapPush_spec b e h.index h.heap hepq
      refine ⟨b1, by simp [Time.IsZero, hz, g1], g2, g3, g4, ?_, ?_⟩
      · intro y
        rw [g5 y, h.pqMem y]
        constructor
        · rintro (⟨h1, h2⟩ | rfl)
          · exact ⟨List.mem_cons_of_mem _ h1, h2⟩
          · exact ⟨List.mem_cons_self _ _, hz⟩
        · rintro ⟨h1, h2⟩
          rcases List.mem_cons.1 h1 with rfl | h1
          · exact Or.inr rfl
          · exact Or.inl ⟨h1, h2⟩
      · intro y hy hy'
        have hye : y ≠ e := fun hh => hy ((g5 y).2 (Or.inr hh))
        have hyb : y ∉ b.priorityQueue := fun hh => hy ((g5 y).2 (Or.inl hh))
        rw [g6 y hyb hye]
        exact h.out y hyb hy'
  obtain ⟨f1, f2, f3, f4, f5, f6, f7, f8, f9, f10⟩ := hf1
  have hrings1 : Rings b1 ListId.lruList ListId.freeList used free := by
    obtain ⟨r1, r2, r3, r4, r5, r6, r7, r8⟩ := h.rings
    refine ⟨r1, r2, ?_, ?_, by rw [f8]; exact r5, by rw [f8]; exact r6, ?_, ?_⟩
    · exact r3.ring_frame (fun x _ => by rw [f4, f5]; exact ⟨rfl, rfl⟩)
    · exact r4.ring_frame (fun x _ => by rw [f4, f5]; exact ⟨rfl, rfl⟩)
    · intro i hi
      rw [f6]
      exact r7 i hi
    · intro i hi
      rw [f6]
      exact r8 i hi
  -- the list part
  obtain ⟨b2, hb2, hrings2, -, hf2⟩ :=
    hrings1.symm.Remove he (by rw [f7]; exact h.val e (Or.inr he))
  obtain ⟨b3, hb3, hrings3, hf3⟩ := hrings2.symm.pushFront heused
    (List.Nodup.not_mem_erase h.rings.nodup_right)
  obtain ⟨g1, g2, g3, g4, g5, g6, g7, g8⟩ := hf2.lf_trans hf3
  have hkey3 : b3.key = b.key := g1.trans f1
  have hval3 : b3.value = b.value := g2.trans f2
  have hexp3 : b3.expire = b.expire := g3.trans f3
  have htab3 : b3.table = b.table := g6.trans f9
  have hpq3 : b3.priorityQueue = b1.priorityQueue := g7
  refine ⟨{ b3 with table := Function.update b3.table (b3.key e) (some e) }, ?_, ?_, hkey3, hval3,
    hexp3, g8.trans f10, ?_⟩
  · unfold LRUCache.insertEntry
    simp only [Option.bind_eq_bind, Option.some_bind, hlist, ne_eq, not_true_eq_false, if_false]
    rw [hb1]
    simp only [Option.some_bind, hb2, hb3]
    rfl
  · refine ⟨?_, ?_, ?_, ?_, ?_, ?_, ?_⟩
    · obtain ⟨r1, r2, r3, r4, r5, r6, r7, r8⟩ := hrings3
      exact ⟨r1, r2, r3.ring_frame (fun _ _ => ⟨rfl, rfl⟩), r4.ring_frame (fun _ _ => ⟨rfl, rfl⟩),
        r5, r6, r7, r8⟩
    · intro i hi
      show b3.Value _ = _
      rw [g5, f7]
      refine h.val i ?_
      rcases hi with hi | hi
      · rcases List.mem_cons.1 hi with rfl | hi
        · exact Or.inr he
        · exact Or.inl hi
      · exact Or.inr (List.mem_of_mem_erase hi)
    · intro k i
      show Function.update b3.table (b3.key e) (some e) k = some i ↔ (i ∈ e :: used ∧ b3.key i = k)
      rw [htab3, hkey3]
      by_cases hke : k = b.key e
      · subst hke
        rw [Function.update_same]
        constructor
        · intro hh
          injection hh with hh
          subst hh
          exact ⟨List.mem_cons_self _ _, rfl⟩
        · rintro ⟨hi, hik⟩
          rcases List.mem_cons.1 hi with rfl | hi
          · rfl
          · have := (h.table (b.key e) i).2 ⟨hi, hik⟩
            rw [hk] at this
            cases this
      · rw [Function.update_noteq hke, h.table k i]
        constructor
        · rintro ⟨hi, hik⟩
          exact ⟨List.mem_cons_of_mem _ hi, hik⟩
        · rintro ⟨hi, hik⟩
          rcases List.mem_cons.1 hi with rfl | hi
          · exact absurd hik.symm hke
          · exact ⟨hi, hik⟩
    · intro k hk'
      have e1 : entryAt ({ b3 with table := Function.update b3.table (b3.key e) (some e) } :
          LRUCache T) k = entryAt b1 k := by
        show b3.priorityQueue.getD k 0 = _
        rw [hpq3]
        rfl
      rw [e1]
      show b3.index _ = _
      rw [g4]
      exact hidx1 k (by rw [← hpq3]; exact hk')
    · intro k hk1 hk2
      have := hord1 k hk1 (by rw [← hpq3]; exact hk2)
      unfold HeapEdge expireAt entryAt at this ⊢
      show b3.expire (b3.priorityQueue.getD _ 0) ≤ b3.expire (b3.priorityQueue.getD _ 0)
      rw [g3, hpq3]
      exact this
    · intro i
      show i ∈ b3.priorityQueue ↔ (i ∈ e :: used ∧ b3.expire i ≠ 0)
      rw [hpq3, hmem1 i, hexp3]
    · intro i hi hi'
      show b3.index i = -1
      rw [g4]
      refine hout1 i (by rw [← hpq3]; exact hi) ?_
      rcases hi' with hi' | hi'
      · rcases List.mem_cons.1 hi' with rfl | hi'
        · exact Or.inr he
        · exact Or.inl hi'
      · exact Or.inr (List.mem_of_mem_erase hi')
  · show Function.update b3.table (b3.key e) (some e) = _
    rw [htab3, hkey3]

/-- The specification of `touchEntry` for a used entry. -/
theorem touchEntry_spec {b : LRUCache T} {used free : List Nat} {e : Nat}
    (h : Inv b used free) (he : e ∈ used) :
    ∃ b', LRUCache.touchEntry b (some e) = some b' ∧ Inv b' (e :: used.erase e) free ∧
      ListFrame b b' := by
  obtain ⟨b', h1, h2, h3⟩ := h.rings.MoveToFront he
  have h3' := h3
  obtain ⟨g1, g2, g3, g4, g5, g6, g7, g8⟩ := h3'
  have hmem : ∀ i, i ∈ e :: used.erase e ↔ i ∈ used := by
    intro i
    constructor
    · intro hi
      rcases List.mem_cons.1 hi with rfl | hi
      · exact he
      · exact List.mem_of_mem_erase hi
    · intro hi
      by_cases hie : i = e
      · exact hie ▸ List.mem_cons_self _ _
      · exact List.mem_cons_of_mem _ ((List.mem_erase_of_ne hie).2 hi)
  refine ⟨b', by simpa [LRUCache.touchEntry] using h1, ⟨h2, ?_, ?_, ?_, ?_, ?_, ?_⟩, h3⟩
  · intro i hi
    rw [g5]
    exact h.val i (hi.imp (hmem i).1 id)
  · intro k i
    rw [g6, g1, hmem i]
    exact h.table k i
  · intro k hk
    have : entryAt b' k = entryAt b k := by unfold entryAt; rw [g7]
    rw [this, g4]
    exact h.index k (by rw [← g7]; exact hk)
  · intro k hk1 hk2
    have := h.heap k hk1 (by rw [← g7]; exact hk2)
    unfold HeapEdge expireAt entryAt at this ⊢
    rw [g3, g7]
    exact this
  · intro i
    rw [g7, g3, hmem i]
    exact h.pqMem i
  · intro i hi hi'
    rw [g4]
    exact h.out i (by rw [← g7]; exact hi) (hi'.imp (hmem i).1 id)

theorem walk_chain (b : LRUCache T) (l : ListId) : ∀ (xs : List Nat) (a : Node),
    List.Chain (Link b) a (xs.map Node.elem ++ [Node.root l]) →
    walk b xs.length (b.next a) = xs := by
  intro xs
  induction xs with
  | nil => intro a _; rfl
  | cons x xs ih =>
    intro a h
    rw [List.map_cons, List.cons_append, List.chain_cons] at h
    rw [h.1.1]
    show x :: walk b xs.length (b.next (Node.elem x)) = x :: xs
    rw [ih _ h.2]

theorem Inv.order_eq {b : LRUCache T} {used free : List Nat} (h : Inv b used free) :
    b.order = used := by
  unfold LRUCache.order
  rw [h.rings.len, Int.toNat_ofNat]
  exact walk_chain b _ used _ h.rings.ring

theorem Inv.freeOrder_eq {b : LRUCache T} {used free : List Nat} (h : Inv b used free) :
    b.freeOrder = free := by
  unfold LRUCache.freeOrder
  rw [h.rings.len', Int.toNat_ofNat]
  exact walk_chain b _ free _ h.rings.ring'

theorem Inv.Len_eq {b : LRUCache T} {used free : List Nat} (h : Inv b used free) :
    LRUCache.Len b = (used.length : Int) := h.rings.len

theorem Inv.Capacity_eq {b : LRUCache T} {used free : List Nat} (h : Inv b used free) :
    LRUCache.Capacity b = ((used.length + free.length : Nat) : Int) := by
  unfold LRUCache.Capacity list.Len
  rw [h.rings.len, h.rings.len']
  push_cast
  rfl

theorem initLoop_spec [Inhabited T] : ∀ (fuel : Nat) (b : LRUCache T) (i : Nat), InitInv b i →
    ∃ b', initLoop fuel b i = some b' ∧ InitInv b' (i + fuel) := by
  intro fuel
  induction fuel with
  | zero => intro b i h; exact ⟨b, rfl, h⟩
  | succ fuel ih =>
    intro b i h
    have hr : Rings ({ b with
        Value := Function.update b.Value (Node.elem i) (some i)
        index := Function.update b.index i (-1) } : LRUCache T)
        ListId.freeList ListId.lruList (List.range i) [] := by
      obtain ⟨r1, r2, r3, r4, r5, r6, r7, r8⟩ := h.rings
      exact ⟨r1, r2, r3.ring_frame (fun _ _ => ⟨rfl, rfl⟩), r4.ring_frame (fun _ _ => ⟨rfl, rfl⟩),
        r5, r6, r7, r8⟩
    obtain ⟨b1, h1, h2, h3⟩ := hr.pushBack (e := i) (by simp) (by simp)
    obtain ⟨g1, g2, g3, g4, g5, g6, g7, g8⟩ := h3
    have hinv1 : InitInv b1 (i + 1) := by
      refine ⟨by rw [List.range_succ]; exact h2, ?_, by rw [g6]; exact h.table,
        by rw [g7]; exact h.pq, by rw [g1]; exact h.key, by rw [g2]; exact h.value,
        by rw [g8]; exact h.grace⟩
      intro j hj
      rw [g5, g4]
      by_cases hji : j = i
      · subst hji
        exact ⟨Function.update_same _ _ _, Function.update_same _ _ _⟩
      · have hne : Node.elem j ≠ Node.elem i := by simpa using hji
        show Function.update b.Value _ _ _ = _ ∧ Function.update b.index _ _ _ = _
        rw [Function.update_noteq hne, Function.update_noteq hji]
        exact h.val j (by omega)
    obtain ⟨b', f1, f2⟩ := ih b1 (i + 1) hinv1
    refine ⟨b', ?_, by rw [show i + (fuel + 1) = i + 1 + fuel by omega]; exact f2⟩
    rw [initLoop]
    simp only [Option.bind_eq_bind]
    rw [h1]
    exact f1

/-- The constructor returns a cache in which every slot is free. -/
theorem NewLRUCache_spec [Inhabited T] (c : Nat) :
    ∃ b : LRUCache T, NewLRUCache c = some b ∧ Inv b [] (List.range c) ∧
      Cleared b (List.range c) ∧ b.ExpireGracePeriod = 0 := by
  have h0 : InitInv (list.Init (list.Init (zeroCache : LRUCache T) ListId.lruList)
      ListId.freeList) 0 := by
    refine ⟨⟨by decide, by simp, ?_, ?_, rfl, rfl, by simp, by simp⟩, by intro j hj; omega,
      rfl, rfl, rfl, rfl, rfl⟩
    · rw [List.range_zero, Ring.nil_iff]
      exact ⟨by simp [list.Init], by simp [list.Init]⟩
    · rw [Ring.nil_iff]
      exact ⟨by simp [list.Init], by simp [list.Init]⟩
  obtain ⟨b, h1, h2⟩ := initLoop_spec c _ 0 h0
  rw [Nat.zero_add] at h2
  refine ⟨b, ?_, ⟨h2.rings.symm, ?_, ?_, ?_, ?_, ?_, ?_⟩, ?_, h2.grace⟩
  · unfold NewLRUCache LRUCache.init
    have : HeapInit (list.Init (list.Init (zeroCache : LRUCache T) ListId.lruList)
        ListId.freeList) = some (list.Init (list.Init (zeroCache : LRUCache T) ListId.lruList)
        ListId.freeList) := by
      have hpq : (list.Init (list.Init (zeroCache : LRUCache T) ListId.lruList)
          ListId.freeList).priorityQueue = [] := rfl
      unfold HeapInit priorityQueue.Len
      rw [hpq]
      simp [heapInitLoop]
    simp only [Option.bind_eq_bind, this, Option.some_bind]
    exact h1
  · intro i hi
    rcases hi with hi | hi
    · cases hi
    · exact (h2.val i (List.mem_range.1 hi)).1
  · intro k i
    rw [h2.table]
    simp
  · intro k hk
    rw [h2.pq] at hk
    cases hk
  · intro k _ hk
    rw [h2.pq] at hk
    cases hk
  · intro i
    rw [h2.pq]
    simp
  · intro i _ hi
    rcases hi with hi | hi
    · cases hi
    · exact (h2.val i (List.mem_range.1 hi)).2
  · intro i _
    rw [h2.key, h2.value]
    exact ⟨rfl, rfl⟩

theorem Cleared.of_eq [Inhabited T] {b b' : LRUCache T} {free : List Nat} (h : Cleared b free)
    (hk : ∀ i ∈ free, b'.key i = b.key i) (hv : ∀ i ∈ free, b'.value i = b.value i) :
    Cleared b' free := by
  intro i hi
  rw [hk i hi, hv i hi]
  exact h i hi

/-- The method `SetNow`, tail of the path that reuses a used entry `e`: `removeEntry`, the
three assignments and `insertEntry`. -/
theorem rebind_used [Inhabited T] {b : LRUCache T} {used free : List Nat} {e : Nat}
    (h : Inv b used free) (hc : Cleared b free) (he : e ∈ used) (k : String) (v : T) (t : Time)
    (hk : ∀ i ∈ used, i ≠ e → b.key i ≠ k) :
    ∃ b', ((LRUCache.removeEntry b (some e)).bind fun b1 =>
        LRUCache.insertEntry { b1 with
          key := Function.update b1.key e k
          value := Function.update b1.value e v
          expire := Function.update b1.expire e t } (some e)) = some b' ∧
      Inv b' (e :: used.erase e) free ∧ Cleared b' free ∧ Rebound b b' e k v t ∧
      b'.table = Function.update (Function.update b.table (b.key e) none) k (some e) := by
  obtain ⟨b1, h1, h2, h3, h4, h5, h6, h7, h8⟩ := removeEntry_spec h he
  have hefree : e ∉ free := fun hh => h.rings.disjoint he hh
  have h2' := h2.set_free (List.mem_cons_self e free) k v t
  have hk' : b1.table k = none := by
    rw [h7]
    by_cases hke : k = b.key e
    · rw [hke, Function.update_same]
    · rw [Function.update_noteq hke]
      cases hb : b.table k with
      | none => rfl
      | some i =>
        obtain ⟨hi1, hi2⟩ := (h.table k i).1 hb
        by_cases hie : i = e
        · exact absurd (by rw [← hi2, hie]) hke
        · exact absurd hi2 (hk i hi1 hie)
  obtain ⟨b', g1, g2, g3, g4, g5, g6, g7⟩ := insertEntry_spec h2' (List.mem_cons_self e free)
    (by
      show b1.table (Function.update b1.key e k e) = none
      rw [Function.update_same]
      exact hk')
  refine ⟨b', ?_, ?_, ?_, ⟨?_, ?_, ?_, ?_⟩, ?_⟩
  · rw [h1]
    exact g1
  · simpa using g2
  · intro i hi
    have hie : i ≠ e := fun hh => hefree (hh ▸ hi)
    rw [g3, g4]
    show Function.update b1.key e k i = "" ∧ Function.update b1.value e v i = default
    rw [Function.update_noteq hie, Function.update_noteq hie]
    exact h8 hc i (List.mem_cons_of_mem _ hi)
  · rw [g3]
    show Function.update b1.key e k = _
    rw [h3, Function.update_idem]
  · rw [g4]
    show Function.update b1.value e v = _
    rw [h4, Function.update_idem]
  · rw [g5]
    show Function.update b1.expire e t = _
    rw [h5]
  · rw [g6]
    exact h6
  · rw [g7]
    show Function.update b1.table (Function.update b1.key e k e) (some e) = _
    rw [Function.update_same, h7]

/-- The method `SetNow`, tail of the path that takes the free entry `f`: the three
assignments and `insertEntry`. -/
theorem rebind_free [Inhabited T] {b : LRUCache T} {used rest : List Nat} {f : Nat}
    (h : Inv b used (f :: rest)) (hc : Cleared b (f :: rest)) (k : String) (v : T) (t : Time)
    (hk : b.table k = none) :
    ∃ b', LRUCache.insertEntry { b with
          key := Function.update b.key f k
          value := Function.update b.value f v
          expire := Function.update b.expire f t } (some f) = some b' ∧
      Inv b' (f :: used) rest ∧ Cleared b' rest ∧ Rebound b b' f k v t ∧
      b'.table = Function.update b.table k (some f) := by
  have h' := h.set_free (List.mem_cons_self f rest) k v t
  obtain ⟨b', g1, g2, g3, g4, g5, g6, g7⟩ := insertEntry_spec h' (List.mem_cons_self f rest)
    (by
      show b.table (Function.update b.key f k f) = none
      rw [Function.update_same]
      exact hk)
  have hfrest : f ∉ rest := by
    have := h.rings.nodup_right
    rw [List.nodup_cons] at this
    exact this.1
  refine ⟨b', g1, by simpa using g2, ?_, ⟨g3, g4, g5, g6⟩, ?_⟩
  · intro i hi
    have hif : i ≠ f := fun hh => hfrest (hh ▸ hi)
    rw [g3, g4]
    show Function.update b.key f k i = "" ∧ Function.update b.value f v i = default
    rw [Function.update_noteq hif, Function.update_noteq hif]
    exact hc i (List.mem_cons_of_mem _ hi)
  · rw [g7]
    show Function.update b.table (Function.update b.key f k f) (some f) = _
    rw [Function.update_same]

/-- The method `freeSomeEntry` takes the front of a non-empty free list. -/
theorem freeSomeEntry_free {b : LRUCache T} {used rest : List Nat} {f : Nat}
    (h : Inv b used (f :: rest)) (now wall : Time) :
    LRUCache.freeSomeEntry b now wall = some (some f, false) := by
  have hlen : list.Len b ListId.freeList = ((f :: rest).length : Int) := h.rings.len'
  have hfront := h.rings.symm.Front_cons
  have hval := h.val f (Or.inr (List.mem_cons_self f rest))
  unfold LRUCache.freeSomeEntry
  rw [if_pos (by rw [hlen]; simp), hfront]
  simp [hval]

theorem expiredEntry_eq {b : LRUCache T} (now wall : Time) :
    LRUCache.expiredEntry b now wall =
      some (if b.priorityQueue ≠ [] ∧ expireAt b 0 < effectiveNow now wall
        then some (entryAt b 0) else none) := by
  unfold LRUCache.expiredEntry priorityQueue.Len
  by_cases hpq : b.priorityQueue = []
  · simp [hpq]
  · have hlen : 0 < b.priorityQueue.length := List.length_pos.2 hpq
    have hne : ((b.priorityQueue.length : Int) = 0) = False := by
      simp only [eq_iff_iff, iff_false]
      omega
    have hat := at_lt b hlen
    simp only [Nat.cast_zero] at hat
    simp only [hne, if_false, hat, Option.bind_eq_bind, Option.some_bind, Time.Before,
      decide_eq_true_eq]
    unfold expireAt effectiveNow
    by_cases hlt : b.expire (entryAt b 0) < if Time.IsZero now = true then wall else now
    · simp [hlt, hpq]
    · simp [hlt, hpq]

/-- The method `freeSomeEntry` on a full cache: the victim, or nil when the capacity is
zero. -/
theorem freeSomeEntry_full {b : LRUCache T} {used : List Nat}
    (h : Inv b used []) (now wall : Time) :
    LRUCache.freeSomeEntry b now wall = some (victim b used now wall, decide (used ≠ [])) := by
  have hlen : list.Len b ListId.freeList = 0 := h.rings.len'
  have hlenU : list.Len b ListId.lruList = (used.length : Int) := h.rings.len
  unfold LRUCache.freeSomeEntry victim
  rw [if_neg (by rw [hlen]; simp), expiredEntry_eq]
  simp only [Option.bind_eq_bind, Option.some_bind]
  by_cases hexp : b.priorityQueue ≠ [] ∧ expireAt b 0 < effectiveNow now wall
  · rw [if_pos hexp, if_pos hexp]
    have hmem : entryAt b 0 ∈ used := (h.entryAt_mem (List.length_pos.2 hexp.1)).1
    have : used ≠ [] := List.ne_nil_of_mem hmem
    simp [this]
  · rw [if_neg hexp, if_neg hexp]
    simp only [ne_eq, not_true_eq_false, if_false]
    rcases List.eq_nil_or_concat used with hu | ⟨xs, x, hu⟩
    · subst hu
      simp [hlenU]
    · rw [List.concat_eq_append] at hu
      subst hu
      have hback := h.rings.Back_concat
      have hval := h.val x (Or.inl (by simp))
      have hl : list.Len b ListId.lruList ≠ 0 := by
        rw [hlenU]
        simp only [List.length_append, List.length_singleton]
        omega
      simp [hl, LRUCache.leastUsedEntry, hback, hval]
theorem victim_mem {b : LRUCache T} {used free : List Nat} (h : Inv b used free)
    {now wall : Time} {e : Nat} (hv : victim b used now wall = some e) : e ∈ used := by
  unfold victim at hv
  split_ifs at hv with hexp
  · injection hv with hv
    rw [← hv]
    exact (h.entryAt_mem (List.length_pos.2 hexp.1)).1
  · exact List.mem_of_getLast?_eq_some hv

theorem victim_isSome {b : LRUCache T} {used : List Nat} (now wall : Time) (hu : used ≠ []) :
    ∃ e, victim b used now wall = some e := by
  unfold victim
  split_ifs
  · exact ⟨_, rfl⟩
  · exact ⟨used.getLast hu, List.getLast?_eq_getLast _ hu⟩

/-- The method `SetNow` of a key that is in the table: its entry is reused. -/
theorem SetNow_hit [Inhabited T] {b : LRUCache T} {used free : List Nat} {e : Nat}
    (h : Inv b used free) (hc : Cleared b free) (k : String) (v : T) (t now wall : Time)
    (hk : b.table k = some e) :
    ∃ b', LRUCache.SetNow b k v t now wall = some b' ∧
      Inv b' (e :: used.erase e) free ∧ Cleared b' free ∧ Rebound b b' e k v t := by
  obtain ⟨he, hke⟩ := (h.table k e).1 hk
  obtain ⟨b', h1, h2, h3, h4, -⟩ := rebind_used h hc he k v t
    (fun i hi hie hik => hie (h.key_inj hi he (hik.trans hke.symm)))
  refine ⟨b', ?_, h2, h3, h4⟩
  unfold LRUCache.SetNow
  simp only [hk, ne_eq, not_false_eq_true, if_true, Option.bind_eq_bind, Option.some_bind,
    reduceCtorEq]
  exact h1

/-- The method `SetNow` of a new key while a free entry is left: the front of the free
list is taken. -/
theorem SetNow_free [Inhabited T] {b : LRUCache T} {used rest : List Nat} {f : Nat}
    (h : Inv b used (f :: rest)) (hc : Cleared b (f :: rest)) (k : String) (v : T)
    (t now wall : Time) (hk : b.table k = none) :
    ∃ b', LRUCache.SetNow b k v t now wall = some b' ∧
      Inv b' (f :: used) rest ∧ Cleared b' rest ∧ Rebound b b' f k v t := by
  obtain ⟨b', h1, h2, h3, h4, -⟩ := rebind_free h hc k v t hk
  refine ⟨b', ?_, h2, h3, h4⟩
  unfold LRUCache.SetNow
  simp only [hk, ne_eq, not_true_eq_false, if_false, freeSomeEntry_free h, Option.bind_eq_bind,
    Option.some_bind, Bool.false_eq_true]
  exact h1

/-- The method `SetNow` of a new key into a full cache: the victim is evicted and its
entry is reused. -/
theorem SetNow_evict [Inhabited T] {b : LRUCache T} {used : List Nat} {e : Nat}
    (h : Inv b used []) (k : String) (v : T) (t now wall : Time) (hk : b.table k = none)
    (hv : victim b used now wall = some e) :
    ∃ b', LRUCache.SetNow b k v t now wall = some b' ∧
      Inv b' (e :: used.erase e) [] ∧ Rebound b b' e k v t := by
  have he := victim_mem h hv
  have hc : Cleared b [] := fun i hi => by cases hi
  obtain ⟨b', h1, h2, h3, h4, -⟩ := rebind_used h hc he k v t
    (fun i hi _ hik => by
      have := (h.table k i).2 ⟨hi, hik⟩
      rw [hk] at this
      cases this)
  refine ⟨b', ?_, h2, h4⟩
  have hu : used ≠ [] := List.ne_nil_of_mem he
  unfold LRUCache.SetNow
  simp only [hk, ne_eq, not_true_eq_false, if_false, freeSomeEntry_full h, hv, hu,
    Option.bind_eq_bind, Option.some_bind, not_false_eq_true, decide_True, if_true]
  exact h1

/-- The method `SetNow` on a cache of capacity zero does nothing. -/
theorem SetNow_zero [Inhabited T] {b : LRUCache T} (h : Inv b [] []) (k : String) (v : T)
    (t now wall : Time) : LRUCache.SetNow b k v t now wall = some b := by
  have hk : b.table k = none := by
    cases hb : b.table k with
    | none => rfl
    | some i =>
      have := ((h.table k i).1 hb).1
      cases this
  have hv : victim b [] now wall = none := by
    unfold victim
    have : b.priorityQueue = [] := by
      cases hpq : b.priorityQueue with
      | nil => rfl
      | cons x xs =>
        have := ((h.pqMem x).1 (by rw [hpq]; exact List.mem_cons_self _ _)).1
        cases this
    simp [this]
  unfold LRUCache.SetNow
  simp [hk, freeSomeEntry_full h, hv]

theorem SetNow_good [Inhabited T] {c : Nat} {b : LRUCache T} (h : Good c b) (k : String)
    (v : T) (t now wall : Time) :
    ∃ b', LRUCache.SetNow b k v t now wall = some b' ∧ Good c b' ∧
      (0 < c → ∃ e, b'.table k = some e ∧ b'.value e = v ∧ b'.expire e = t) := by
  obtain ⟨used, free, hinv, hcl, hlen⟩ := h
  have hpres : ∀ {b' : LRUCache T} {used' free' : List Nat} {e : Nat},
      Inv b' (e :: used') free' → Rebound b b' e k v t →
      ∃ e, b'.table k = some e ∧ b'.value e = v ∧ b'.expire e = t := by
    intro b' used' free' e hi hr
    refine ⟨e, (hi.table k e).2 ⟨List.mem_cons_self _ _, ?_⟩, ?_, ?_⟩
    · rw [hr.1, Function.update_same]
    · rw [hr.2.1, Function.update_same]
    · rw [hr.2.2.1, Function.update_same]
  cases hk : b.table k with
  | some e =>
    obtain ⟨b', h1, h2, h3, h4⟩ := SetNow_hit hinv hcl k v t now wall hk
    have he := ((hinv.table k e).1 hk).1
    refine ⟨b', h1, ⟨_, _, h2, h3, ?_⟩, fun _ => hpres h2 h4⟩
    rw [List.length_cons, List.length_erase_of_mem he]
    have := List.length_pos_of_mem he
    omega
  | none =>
    cases free with
    | cons f rest =>
      obtain ⟨b', h1, h2, h3, h4⟩ := SetNow_free hinv hcl k v t now wall hk
      refine ⟨b', h1, ⟨_, _, h2, h3, ?_⟩, fun _ => hpres h2 h4⟩
      simp only [List.length_cons] at hlen ⊢
      omega
    | nil =>
      rcases List.eq_nil_or_concat used with hu | ⟨xs, x, hu⟩
      · subst hu
        refine ⟨b, SetNow_zero hinv k v t now wall, ⟨_, _, hinv, hcl, hlen⟩, ?_⟩
        intro hc
        simp at hlen
        omega
      · have hne : used ≠ [] := by
          rw [hu]
          simp
        obtain ⟨e, hv⟩ := victim_isSome (b := b) now wall hne
        obtain ⟨b', h1, h2, h4⟩ := SetNow_evict hinv k v t now wall hk hv
        have he := victim_mem hinv hv
        have hcl' : Cleared b' [] := by
          intro i hi
          cases hi
        refine ⟨b', h1, ⟨_, _, h2, hcl', ?_⟩, fun _ => hpres h2 h4⟩
        rw [List.length_cons, List.length_erase_of_mem he]
        have := List.length_pos_of_mem he
        omega

theorem Cleared.cleared_frame [Inhabited T] {b b' : LRUCache T} {free : List Nat} (h : Cleared b free)
    (hf : ListFrame b b') : Cleared b' free := by
  intro i hi
  rw [hf.1, hf.2.1]
  exact h i hi

theorem Get_miss [Inhabited T] {b : LRUCache T} {k : String} (hk : b.table k = none) :
    LRUCache.Get b k = some (b, default, false) := by
  simp [LRUCache.Get, hk]

/-- The method `Get` of a key of the table: the entry moves to the front of the used
list and its value is returned. -/
theorem Get_hit [Inhabited T] {b : LRUCache T} {used free : List Nat} {e : Nat}
    (h : Inv b used free) {k : String} (hk : b.table k = some e) :
    ∃ b', LRUCache.Get b k = some (b', b.value e, true) ∧
      Inv b' (e :: used.erase e) free ∧ ListFrame b b' := by
  obtain ⟨b', h1, h2, h3⟩ := touchEntry_spec h ((h.table k e).1 hk).1
  refine ⟨b', ?_, h2, h3⟩
  simp [LRUCache.Get, hk, h1, h3.2.1]

theorem GetQuiet_miss [Inhabited T] {b : LRUCache T} {k : String} (hk : b.table k = none) :
    LRUCache.GetQuiet b k = some (b, default, false) := by
  simp [LRUCache.GetQuiet, hk]

theorem GetQuiet_hit [Inhabited T] {b : LRUCache T} {k : String} {e : Nat}
    (hk : b.table k = some e) : LRUCache.GetQuiet b k = some (b, b.value e, true) := by
  simp [LRUCache.GetQuiet, hk]

theorem GetStaleNow_miss [Inhabited T] {b : LRUCache T} {k : String} (now : Time)
    (hk : b.table k = none) : LRUCache.GetStaleNow b k now = some (b, default, false, false) := by
  simp [LRUCache.GetStaleNow, hk]

/-- The method `GetStaleNow` of a key of the table. -/
theorem GetStaleNow_hit [Inhabited T] {b : LRUCache T} {used free : List Nat} {e : Nat}
    (h : Inv b used free) {k : String} (now : Time) (hk : b.table k = some e) :
    ∃ b', LRUCache.GetStaleNow b k now =
        some (b', b.value e, true, decide (b.expire e < now)) ∧
      Inv b' (e :: used.erase e) free ∧ ListFrame b b' := by
  obtain ⟨b', h1, h2, h3⟩ := touchEntry_spec h ((h.table k e).1 hk).1
  refine ⟨b', ?_, h2, h3⟩
  simp [LRUCache.GetStaleNow, hk, h1, h3.2.1, h3.2.2.1, Time.Before]

theorem GetNotStaleNow_miss [Inhabited T] {b : LRUCache T} {k : String} (now : Time)
    (hk : b.table k = none) : LRUCache.GetNotStaleNow b k now = some (b, default, false) := by
  simp [LRUCache.GetNotStaleNow, hk]

/-- The method `GetNotStaleNow` of a key whose `expire` is not before `now`. -/
theorem GetNotStaleNow_fresh [Inhabited T] {b : LRUCache T} {used free : List Nat} {e : Nat}
    (h : Inv b used free) {k : String} {now : Time} (hk : b.table k = some e)
    (hnow : ¬ b.expire e < now) :
    ∃ b', LRUCache.GetNotStaleNow b k now = some (b', b.value e, true) ∧
      Inv b' (e :: used.erase e) free ∧ ListFrame b b' := by
  obtain ⟨b', h1, h2, h3⟩ := touchEntry_spec h ((h.table k e).1 hk).1
  refine ⟨b', ?_, h2, h3⟩
  simp [LRUCache.GetNotStaleNow, hk, h1, h3.2.1, Time.Before, hnow]

/-- The method `GetNotStaleNow` of a key whose `expire` is before `now`, when the removal
condition of the source holds: the entry is removed. -/
theorem GetNotStaleNow_purge [Inhabited T] {b : LRUCache T} {used free : List Nat} {e : Nat}
    (h : Inv b used free) {k : String} {now : Time} (hk : b.table k = some e)
    (hnow : b.expire e < now)
    (hg : b.ExpireGracePeriod = 0 ∨ Time.Sub (b.expire e) now > b.ExpireGracePeriod) :
    ∃ b', LRUCache.GetNotStaleNow b k now = some (b', default, false) ∧
      LRUCache.removeEntry b (some e) = some b' := by
  obtain ⟨b', h1, -⟩ := removeEntry_spec h ((h.table k e).1 hk).1
  refine ⟨b', ?_, h1⟩
  simp [LRUCache.GetNotStaleNow, hk, h1, Time.Before, hnow, hg]

/-- The method `GetNotStaleNow` of a key whose `expire` is before `now`, when the removal
condition of the source fails: a miss that leaves the state as it is. -/
theorem GetNotStaleNow_keep [Inhabited T] {b : LRUCache T} {k : String} {e : Nat} {now : Time}
    (hk : b.table k = some e) (hnow : b.expire e < now)
    (hg : ¬ (b.ExpireGracePeriod = 0 ∨ Time.Sub (b.expire e) now > b.ExpireGracePeriod)) :
    LRUCache.GetNotStaleNow b k now = some (b, default, false) := by
  simp [LRUCache.GetNotStaleNow, hk, Time.Before, hnow, hg]

theorem Del_miss [Inhabited T] {b : LRUCache T} {k : String} (hk : b.table k = none) :
    LRUCache.Del b k = some (b, default, false) := by
  simp [LRUCache.Del, hk]

/-- The method `Del` of a key of the table: `removeEntry` of its entry. -/
theorem Del_hit [Inhabited T] {b : LRUCache T} {used free : List Nat} {e : Nat}
    (h : Inv b used free) {k : String} (hk : b.table k = some e) :
    ∃ b', LRUCache.Del b k = some (b', b.value e, true) ∧
      LRUCache.removeEntry b (some e) = some b' := by
  obtain ⟨b', h1, -⟩ := removeEntry_spec h ((h.table k e).1 hk).1
  refine ⟨b', ?_, h1⟩
  simp [LRUCache.Del, hk, h1]

theorem Good.of_remove [Inhabited T] {c : Nat} {b b' : LRUCache T} {used free : List Nat}
    {e : Nat} (h : Inv b used free) (hc : Cleared b free) (hlen : used.length + free.length = c)
    (he : e ∈ used) (hr : LRUCache.removeEntry b (some e) = some b') : Good c b' := by
  obtain ⟨b1, h1, h2, h3, h4, h5, h6, h7, h8⟩ := removeEntry_spec h he
  rw [hr] at h1
  injection h1 with h1
  subst h1
  refine ⟨_, _, h2, h8 hc, ?_⟩
  rw [List.length_cons, List.length_erase_of_mem he]
  have := List.length_pos_of_mem he
  omega

theorem Good.of_touch [Inhabited T] {c : Nat} {b b' : LRUCache T} {used free : List Nat}
    {e : Nat} (hc : Cleared b free) (hlen : used.length + free.length = c)
    (he : e ∈ used) (hi : Inv b' (e :: used.erase e) free) (hf : ListFrame b b') :
    Good c b' := by
  refine ⟨_, _, hi, hc.cleared_frame hf, ?_⟩
  rw [List.length_cons, List.length_erase_of_mem he]
  have := List.length_pos_of_mem he
  omega
theorem IndexOK.nodup {b : LRUCache T} (h : IndexOK b) : b.priorityQueue.Nodup := by
  rw [List.nodup_iff_injective_get]
  intro i j hij
  apply Fin.ext
  refine h.inj i.2 j.2 ?_
  unfold entryAt
  rw [List.getD_eq_getElem _ _ i.2, List.getD_eq_getElem _ _ j.2]
  exact hij

theorem length_filter_erase (p : Nat → Bool) : ∀ (xs : List Nat) (e : Nat), e ∈ xs →
    ((xs.erase e).filter p).length + (if p e then 1 else 0) = (xs.filter p).length := by
  intro xs
  induction xs with
  | nil => intro e he; cases he
  | cons x xs ih =>
    intro e he
    by_cases hxe : x = e
    · subst hxe
      rw [List.erase_cons_head, List.filter_cons]
      split_ifs
      · simp
      · rfl
    · have he' : e ∈ xs := by
        rcases List.mem_cons.1 he with h | h
        · exact absurd h.symm hxe
        · exact h
      rw [List.erase_cons_tail (by simpa using hxe), List.filter_cons, List.filter_cons]
      have := ih e he'
      split_ifs at this ⊢ <;> (try simp only [List.length_cons] at this ⊢) <;> omega

/-- The heap holds as many entries as there are used entries with a non-zero
`expire`. -/
theorem Inv.pq_length {b : LRUCache T} {used free : List Nat} (h : Inv b used free) :
    b.priorityQueue.length = (used.filter (fun i => decide (b.expire i ≠ 0))).length := by
  apply List.Perm.length_eq
  rw [List.perm_ext_iff_of_nodup h.index.nodup (h.rings.nodup_left.filter _)]
  intro a
  rw [h.pqMem a, List.mem_filter]
  simp

/-- The root of a min-heap holds a least `expire`. -/
theorem HeapOrdered.heap_root_le {b : LRUCache T} {n : Nat} (h : HeapOrdered b n) :
    ∀ k, k < n → expireAt b 0 ≤ expireAt b k := by
  intro k
  induction k using Nat.strong_induction_on with
  | _ k ih =>
    intro hk
    rcases Nat.eq_zero_or_pos k with h0 | h0
    · subst h0
      exact le_refl _
    · have h1 := h k h0 hk
      have h2 := ih ((k - 1) / 2) (by omega) (by omega)
      exact le_trans h2 h1

/-- The root of the heap expires no later than any used entry with a
non-zero `expire`. -/
theorem Inv.inv_root_le {b : LRUCache T} {used free : List Nat} (h : Inv b used free) {i : Nat}
    (hi : i ∈ used) (hexp : b.expire i ≠ 0) : expireAt b 0 ≤ b.expire i := by
  obtain ⟨k, hk, hki⟩ := (mem_iff_entryAt b i).1 ((h.pqMem i).2 ⟨hi, hexp⟩)
  have := h.heap.heap_root_le k hk
  unfold expireAt at this ⊢
  rw [hki] at this
  exact this

/-- One `removeEntry`, with the lengths of the lists and of the heap. -/
theorem removeEntry_count [Inhabited T] {b : LRUCache T} {used free : List Nat} {e : Nat}
    (h : Inv b used free) (hc : Cleared b free) (he : e ∈ used) :
    ∃ b', LRUCache.removeEntry b (some e) = some b' ∧ Inv b' (used.erase e) (e :: free) ∧
      Cleared b' (e :: free) ∧ (used.erase e).length + 1 = used.length ∧
      b'.priorityQueue.length + (if b.expire e ≠ 0 then 1 else 0) = b.priorityQueue.length ∧
      b'.ExpireGracePeriod = b.ExpireGracePeriod ∧ b'.expire = b.expire ∧
      (∀ i, i ≠ e → b'.key i = b.key i ∧ b'.value i = b.value i) := by
  obtain ⟨b', h1, h2, h3, h4, h5, h6, h7, h8⟩ := removeEntry_spec h he
  refine ⟨b', h1, h2, h8 hc, ?_, ?_, h6, h5, ?_⟩
  · rw [List.length_erase_of_mem he]
    have := List.length_pos_of_mem he
    omega
  · rw [h2.pq_length, h.pq_length, h5]
    have := length_filter_erase (fun i => decide (b.expire i ≠ 0)) used e he
    simp only [decide_eq_true_eq] at this
    exact this
  · intro i hi
    rw [h3, h4, Function.update_noteq hi, Function.update_noteq hi]
    exact ⟨rfl, rfl⟩

theorem clearHeapLoop_spec [Inhabited T] : ∀ (l : Nat) (b : LRUCache T) (used free : List Nat),
    Inv b used free → Cleared b free → l ≤ b.priorityQueue.length →
    ∃ b' used' free', clearHeapLoop l b = some b' ∧ Inv b' used' free' ∧ Cleared b' free' ∧
      used'.length + l = used.length ∧ free'.length = free.length + l ∧
      b'.priorityQueue.length + l = b.priorityQueue.length ∧
      b'.ExpireGracePeriod = b.ExpireGracePeriod := by
  intro l
  induction l with
  | zero =>
    intro b used free h hc _
    exact ⟨b, used, free, rfl, h, hc, rfl, rfl, rfl, rfl⟩
  | succ l ih =>
    intro b used free h hc hl
    have h0 : 0 < b.priorityQueue.length := by omega
    obtain ⟨he, hexp⟩ := h.entryAt_mem h0
    obtain ⟨b1, g1, g2, g3, g4, g5, g6, -, -⟩ := removeEntry_count h hc he
    rw [if_pos hexp] at g5
    obtain ⟨b', used', free', f1, f2, f3, f4, f5, f6, f7⟩ := ih b1 _ _ g2 g3 (by omega)
    refine ⟨b', used', free', ?_, f2, f3, by omega, ?_, by omega, f7.trans g6⟩
    · have hat := at_lt b h0
      simp only [Nat.cast_zero] at hat
      rw [clearHeapLoop]
      simp only [Option.bind_eq_bind, hat, Option.some_bind, g1]
      exact f1
    · rw [f5, List.length_cons]
      omega

theorem leastUsedEntry_eq {b : LRUCache T} {xs free : List Nat} {x : Nat}
    (h : Inv b (xs ++ [x]) free) : LRUCache.leastUsedEntry b = some (some x) := by
  have hback := h.rings.Back_concat
  have hval := h.val x (Or.inl (by simp))
  simp [LRUCache.leastUsedEntry, hback, hval]

theorem clearListLoop_spec [Inhabited T] : ∀ (r : Nat) (b : LRUCache T) (used free : List Nat),
    Inv b used free → Cleared b free → r ≤ used.length →
    ∃ b' used' free', clearListLoop r b = some b' ∧ Inv b' used' free' ∧ Cleared b' free' ∧
      used'.length + r = used.length ∧ free'.length = free.length + r ∧
      b'.ExpireGracePeriod = b.ExpireGracePeriod := by
  intro r
  induction r with
  | zero =>
    intro b used free h hc _
    exact ⟨b, used, free, rfl, h, hc, rfl, rfl, rfl⟩
  | succ r ih =>
    intro b used free h hc hr
    rcases List.eq_nil_or_concat used with hu | ⟨xs, x, hu⟩
    · subst hu
      simp at hr
    · rw [List.concat_eq_append] at hu
      subst hu
      have he : x ∈ xs ++ [x] := by simp
      obtain ⟨b1, g1, g2, g3, g4, g5, g6, -, -⟩ := removeEntry_count h hc he
      obtain ⟨b', used', free', f1, f2, f3, f4, f5, f7⟩ := ih b1 _ _ g2 g3 (by omega)
      refine ⟨b', used', free', ?_, f2, f3, by omega, ?_, f7.trans g6⟩
      · rw [clearListLoop]
        simp only [Option.bind_eq_bind, leastUsedEntry_eq h, Option.some_bind, g1]
        exact f1
      · rw [f5, List.length_cons]
        omega

/-- The specification of `Clear`: it returns the number of used entries and
leaves every slot free. -/
theorem Clear_spec [Inhabited T] {b : LRUCache T} {used free : List Nat}
    (h : Inv b used free) (hc : Cleared b free) :
    ∃ b' free', LRUCache.Clear b = some (b', (used.length : Int)) ∧ Inv b' [] free' ∧
      Cleared b' free' ∧ free'.length = used.length + free.length ∧
      b'.ExpireGracePeriod = b.ExpireGracePeriod := by
  obtain ⟨b1, used1, free1, g1, g2, g3, g4, g5, g6, g7⟩ :=
    clearHeapLoop_spec b.priorityQueue.length b used free h hc (le_refl _)
  obtain ⟨b2, used2, free2, f1, f2, f3, f4, f5, f7⟩ :=
    clearListLoop_spec used1.length b1 used1 free1 g2 g3 (le_refl _)
  have hu2 : used2 = [] := List.length_eq_zero.1 (by omega)
  subst hu2
  refine ⟨b2, free2, ?_, f2, f3, by omega, f7.trans g7⟩
  have hlen1 : list.Len b1 ListId.lruList = (used1.length : Int) := g2.rings.len
  unfold LRUCache.Clear
  simp only [Option.bind_eq_bind, Int.toNat_ofNat, g1, Option.some_bind, hlen1, f1, Option.pure_def]
  congr 2
  rw [← g4]
  push_cast
  ring
theorem effectiveNow_of_ne {now : Time} (wall : Time) (h : now ≠ 0) :
    effectiveNow now wall = now := by
  simp [effectiveNow, Time.IsZero, h]

/-- The loop of `ExpireNow`: it removes used entries until the root of the
heap does not expire before `now`; with a non-zero `now` the entries left are
exactly those that do not expire before `now`. -/
theorem expireLoop_spec [Inhabited T] (now : Time) (clock : Nat → Time) :
    ∀ (fuel : Nat) (b : LRUCache T) (used free : List Nat) (i : Nat),
    Inv b used free → Cleared b free → b.priorityQueue.length < fuel →
    ∃ b' used' free',
      expireLoop fuel b now clock i =
        some (b', ((i + (used.length - used'.length) : Nat) : Int)) ∧
      Inv b' used' free' ∧ Cleared b' free' ∧
      used'.length + free'.length = used.length + free.length ∧ used'.Sublist used ∧
      b'.expire = b.expire ∧ b'.ExpireGracePeriod = b.ExpireGracePeriod ∧
      (∀ x ∈ used', b'.key x = b.key x ∧ b'.value x = b.value x) ∧
      (now ≠ 0 → ∀ x ∈ used, (x ∈ used' ↔ ¬ (b.expire x ≠ 0 ∧ b.expire x < now))) := by
  intro fuel
  induction fuel with
  | zero => intro b used free i _ _ hf; omega
  | succ fuel ih =>
    intro b used free i h hc hf
    rw [expireLoop]
    simp only [Option.bind_eq_bind, expiredEntry_eq, Option.some_bind]
    by_cases hexp : b.priorityQueue ≠ [] ∧ expireAt b 0 < effectiveNow now (clock i)
    · rw [if_pos hexp]
      have h0 : 0 < b.priorityQueue.length := List.length_pos.2 hexp.1
      obtain ⟨he, hne⟩ := h.entryAt_mem h0
      obtain ⟨b1, g1, g2, g3, g4, g5, g6, g7, g8⟩ := removeEntry_count h hc he
      rw [if_pos hne] at g5
      obtain ⟨b', used', free', f1, f2, f3, f4, f5, f6, f7, f8, f9⟩ :=
        ih b1 _ _ (i + 1) g2 g3 (by omega)
      have hsub : used'.Sublist used := f5.trans (List.erase_sublist _ _)
      have hle : used'.length ≤ (used.erase (entryAt b 0)).length := f5.length_le
      have hnotin : entryAt b 0 ∉ used' := fun hh =>
        List.Nodup.not_mem_erase h.rings.nodup_left (f5.subset hh)
      refine ⟨b', used', free', ?_, f2, f3, ?_, hsub, f6.trans g7, f7.trans g6, ?_, ?_⟩
      · simp only [g1, Option.some_bind]
        rw [f1]
        congr 3
        omega
      · rw [f4, List.length_cons]
        omega
      · intro x hx
        have hxe : x ≠ entryAt b 0 := fun hh => hnotin (hh ▸ hx)
        rw [(f8 x hx).1, (f8 x hx).2]
        exact g8 x hxe
      · intro hnow x hx
        by_cases hxe : x = entryAt b 0
        · subst hxe
          rw [effectiveNow_of_ne _ hnow] at hexp
          constructor
          · intro hh
            exact absurd hh hnotin
          · intro hh
            exact absurd ⟨hne, hexp.2⟩ hh
        · rw [f9 hnow x ((List.mem_erase_of_ne hxe).2 hx), g7]
    · rw [if_neg hexp]
      refine ⟨b, used, free, ?_, h, hc, rfl, List.Sublist.refl _, rfl, rfl,
        fun _ _ => ⟨rfl, rfl⟩, ?_⟩
      · simp
      · intro hnow x hx
        rw [effectiveNow_of_ne _ hnow] at hexp
        constructor
        · rintro - ⟨hx1, hx2⟩
          have hpq : x ∈ b.priorityQueue := (h.pqMem x).2 ⟨hx, hx1⟩
          exact hexp ⟨List.ne_nil_of_mem hpq, lt_of_le_of_lt (h.inv_root_le hx hx1) hx2⟩
        · intro _
          exact hx

/-- The specification of `ExpireNow`. -/
theorem ExpireNow_spec [Inhabited T] {b : LRUCache T} {used free : List Nat}
    (h : Inv b used free) (hc : Cleared b free) (now : Time) (clock : Nat → Time) :
    ∃ b' used' free',
      LRUCache.ExpireNow b now clock = some (b', ((used.length - used'.length : Nat) : Int)) ∧
      Inv b' used' free' ∧ Cleared b' free' ∧
      used'.length + free'.length = used.length + free.length ∧ used'.Sublist used ∧
      b'.expire = b.expire ∧ b'.ExpireGracePeriod = b.ExpireGracePeriod ∧
      (∀ x ∈ used', b'.key x = b.key x ∧ b'.value x = b.value x) ∧
      (now ≠ 0 → ∀ x ∈ used, (x ∈ used' ↔ ¬ (b.expire x ≠ 0 ∧ b.expire x < now))) := by
  obtain ⟨b', used', free', h1, h2⟩ :=
    expireLoop_spec now clock (b.priorityQueue.length + 1) b used free 0 h hc (by omega)
  refine ⟨b', used', free', ?_, h2⟩
  unfold LRUCache.ExpireNow
  rw [h1, Nat.zero_add]

theorem StepOK.ok_refl [Inhabited T] {b : LRUCache T} {used free : List Nat} (h : Inv b used free)
    (hc : Cleared b free) : StepOK b b used free none :=
  ⟨used, free, h, hc, rfl, Or.inr ⟨List.Sublist.refl _, fun _ _ => rfl, fun hh => absurd rfl hh⟩⟩

theorem length_cons_erase {xs : List Nat} {e : Nat} (he : e ∈ xs) :
    (e :: xs.erase e).length = xs.length := by
  rw [List.length_cons, List.length_erase_of_mem he]
  have := List.length_pos_of_mem he
  omega

theorem StepOK.touch [Inhabited T] {b b' : LRUCache T} {used free : List Nat} {e : Nat}
    {k : String} (h : Inv b used free) (hc : Cleared b free) (hk : b.table k = some e)
    (hi : Inv b' (e :: used.erase e) free) (hf : ListFrame b b') :
    StepOK b b' used free (some k) := by
  obtain ⟨he, hke⟩ := (h.table k e).1 hk
  refine ⟨_, _, hi, hc.cleared_frame hf, by rw [length_cons_erase he], Or.inl ⟨k, e, _, rfl, rfl,
    List.erase_sublist _ _, by rw [hf.1]; exact hke, ?_⟩⟩
  intro j hj
  refine ⟨by rw [hf.1], fun hjk => ?_⟩
  have := h.key_inj (List.mem_of_mem_erase hj) he (hjk.trans hke.symm)
  subst this
  exact List.Nodup.not_mem_erase h.rings.nodup_left hj

theorem StepOK.ok_remove [Inhabited T] {b b' : LRUCache T} {used free : List Nat} {e : Nat}
    (h : Inv b used free) (hc : Cleared b free) (he : e ∈ used)
    (hr : LRUCache.removeEntry b (some e) = some b') : StepOK b b' used free none := by
  obtain ⟨b1, h1, h2, h3, h4, h5, h6, h7, h8⟩ := removeEntry_count h hc he
  rw [hr] at h1
  injection h1 with h1
  subst h1
  refine ⟨_, _, h2, h3, by rw [List.length_cons]; omega, Or.inr ⟨List.erase_sublist _ _, ?_,
    fun hh => absurd rfl hh⟩⟩
  intro j hj
  have hje : j ≠ e := fun hh => List.Nodup.not_mem_erase h.rings.nodup_left (hh ▸ hj)
  exact (h8 j hje).1

theorem SetNow_step [Inhabited T] {b : LRUCache T} {used free : List Nat}
    (h : Inv b used free) (hc : Cleared b free) (k : String) (v : T) (t now wall : Time) :
    ∃ b', LRUCache.SetNow b k v t now wall = some b' ∧ StepOK b b' used free (some k) := by
  have hupd : ∀ {b' : LRUCache T} {e : Nat}, Rebound b b' e k v t → b'.key e = k ∧
      ∀ j, j ≠ e → b'.key j = b.key j := by
    intro b' e hr
    rw [hr.1]
    exact ⟨Function.update_same _ _ _, fun j hj => Function.update_noteq hj _ _⟩
  have hnone : b.table k = none → ∀ j ∈ used, b.key j ≠ k := by
    intro hk j hj hjk
    have := (h.table k j).2 ⟨hj, hjk⟩
    rw [hk] at this
    cases this
  cases hk : b.table k with
  | some e =>
    obtain ⟨b', h1, h2, h3, h4⟩ := SetNow_hit h hc k v t now wall hk
    obtain ⟨he, hke⟩ := (h.table k e).1 hk
    refine ⟨b', h1, _, _, h2, h3, by rw [length_cons_erase he], Or.inl ⟨k, e, _, rfl, rfl,
      List.erase_sublist _ _, (hupd h4).1, ?_⟩⟩
    intro j hj
    have hje : j ≠ e := fun hh => List.Nodup.not_mem_erase h.rings.nodup_left (hh ▸ hj)
    refine ⟨(hupd h4).2 j hje, fun hjk => hje ?_⟩
    exact h.key_inj (List.mem_of_mem_erase hj) he (hjk.trans hke.symm)
  | none =>
    cases free with
    | cons f rest =>
      obtain ⟨b', h1, h2, h3, h4⟩ := SetNow_free h hc k v t now wall hk
      refine ⟨b', h1, _, _, h2, h3, by simp only [List.length_cons]; omega, Or.inl ⟨k, f, _,
        rfl, rfl, List.Sublist.refl _, (hupd h4).1, ?_⟩⟩
      intro j hj
      have hjf : j ≠ f := fun hh =>
        h.rings.disjoint hj (hh ▸ List.mem_cons_self f rest)
      exact ⟨(hupd h4).2 j hjf, hnone hk j hj⟩
    | nil =>
      rcases List.eq_nil_or_concat used with hu | ⟨xs, x, hu⟩
      · subst hu
        refine ⟨b, SetNow_zero h k v t now wall, _, _, h, hc, rfl, Or.inr ⟨List.Sublist.refl _,
          fun _ _ => rfl, fun _ => rfl⟩⟩
      · have hne : used ≠ [] := by
          rw [hu]
          simp
        obtain ⟨e, hv⟩ := victim_isSome (b := b) now wall hne
        obtain ⟨b', h1, h2, h4⟩ := SetNow_evict h k v t now wall hk hv
        have he := victim_mem h hv
        have hcl' : Cleared b' [] := by
          intro i hi
          cases hi
        refine ⟨b', h1, _, _, h2, hcl', by rw [length_cons_erase he], Or.inl ⟨k, e, _, rfl, rfl,
          List.erase_sublist _ _, (hupd h4).1, ?_⟩⟩
        intro j hj
        have hje : j ≠ e := fun hh => List.Nodup.not_mem_erase h.rings.nodup_left (hh ▸ hj)
        exact ⟨(hupd h4).2 j hje, hnone hk j (List.mem_of_mem_erase hj)⟩
theorem Inv.setGrace {b : LRUCache T} {used free : List Nat} (h : Inv b used free)
    (g : Duration) : Inv { b with ExpireGracePeriod := g } used free := by
  obtain ⟨r1, r2, r3, r4, r5, r6, r7, r8⟩ := h.rings
  exact ⟨⟨r1, r2, r3.ring_frame (fun _ _ => ⟨rfl, rfl⟩), r4.ring_frame (fun _ _ => ⟨rfl, rfl⟩), r5, r6,
    r7, r8⟩, h.val, h.table, h.index, h.heap, h.pqMem, h.out⟩

/-- Every call succeeds on a state that satisfies the invariant, and the state
after it satisfies the invariant again. -/
theorem exec_step [Inhabited T] {b : LRUCache T} {used free : List Nat}
    (h : Inv b used free) (hc : Cleared b free) (call : Call T) :
    ∃ b', Call.exec b call = some b' ∧ StepOK b b' used free (Call.used b call) := by
  have hGet : ∀ k, ∃ b', (LRUCache.Get b k).map (fun r => r.1) = some b' ∧
      StepOK b b' used free
        (if (LRUCache.Get b k).map (fun r => r.2.2) = some true then some k else none) := by
    intro k
    cases hk : b.table k with
    | none =>
      rw [Get_miss hk]
      exact ⟨b, rfl, by simpa using StepOK.ok_refl h hc⟩
    | some e =>
      obtain ⟨b', h1, h2, h3⟩ := Get_hit h hk
      rw [h1]
      exact ⟨b', rfl, by simpa using StepOK.touch h hc hk h2 h3⟩
  have hStale : ∀ k now, ∃ b', (LRUCache.GetStaleNow b k now).map (fun r => r.1) = some b' ∧
      StepOK b b' used free
        (if (LRUCache.GetStaleNow b k now).map (fun r => r.2.2.1) = some true then some k
          else none) := by
    intro k now
    cases hk : b.table k with
    | none =>
      rw [GetStaleNow_miss now hk]
      exact ⟨b, rfl, by simpa using StepOK.ok_refl h hc⟩
    | some e =>
      obtain ⟨b', h1, h2, h3⟩ := GetStaleNow_hit h now hk
      rw [h1]
      exact ⟨b', rfl, by simpa using StepOK.touch h hc hk h2 h3⟩
  have hNotStale : ∀ k now, ∃ b',
      (LRUCache.GetNotStaleNow b k now).map (fun r => r.1) = some b' ∧
      StepOK b b' used free
        (if (LRUCache.GetNotStaleNow b k now).map (fun r => r.2.2) = some true then some k
          else none) := by
    intro k now
    cases hk : b.table k with
    | none =>
      rw [GetNotStaleNow_miss now hk]
      exact ⟨b, rfl, by simpa using StepOK.ok_refl h hc⟩
    | some e =>
      by_cases hnow : b.expire e < now
      · by_cases hg : b.ExpireGracePeriod = 0 ∨
            Time.Sub (b.expire e) now > b.ExpireGracePeriod
        · obtain ⟨b', h1, h2⟩ := GetNotStaleNow_purge h hk hnow hg
          rw [h1]
          exact ⟨b', rfl, by simpa using StepOK.ok_remove h hc ((h.table k e).1 hk).1 h2⟩
        · rw [GetNotStaleNow_keep hk hnow hg]
          exact ⟨b, rfl, by simpa using StepOK.ok_refl h hc⟩
      · obtain ⟨b', h1, h2, h3⟩ := GetNotStaleNow_fresh h hk hnow
        rw [h1]
        exact ⟨b', rfl, by simpa using StepOK.touch h hc hk h2 h3⟩
  have hExpire : ∀ now clock, ∃ b',
      (LRUCache.ExpireNow b now clock).map (fun r => r.1) = some b' ∧
      StepOK b b' used free none := by
    intro now clock
    obtain ⟨b', used', free', h1, h2, h3, h4, h5, h6, h7, h8, -⟩ := ExpireNow_spec h hc now clock
    rw [h1]
    exact ⟨b', rfl, used', free', h2, h3, h4, Or.inr ⟨h5, fun j hj => (h8 j hj).1,
      fun hh => absurd rfl hh⟩⟩
  cases call with
  | SetNow k v t now wall => exact SetNow_step h hc k v t now wall
  | Set k v t wall => exact SetNow_step h hc k v t 0 wall
  | Get k => exact hGet k
  | GetQuiet k =>
    cases hk : b.table k with
    | none =>
      refine ⟨b, ?_, StepOK.ok_refl h hc⟩
      show (LRUCache.GetQuiet b k).map (fun r => r.1) = some b
      rw [GetQuiet_miss hk]
      rfl
    | some e =>
      refine ⟨b, ?_, StepOK.ok_refl h hc⟩
      show (LRUCache.GetQuiet b k).map (fun r => r.1) = some b
      rw [GetQuiet_hit hk]
      rfl
  | GetNotStaleNow k now => exact hNotStale k now
  | GetNotStale k wall => exact hNotStale k wall
  | GetStaleNow k now => exact hStale k now
  | GetStale k wall => exact hStale k wall
  | Del k =>
    show ∃ b', (LRUCache.Del b k).map (fun r => r.1) = some b' ∧ StepOK b b' used free none
    cases hk : b.table k with
    | none =>
      rw [Del_miss hk]
      exact ⟨b, rfl, StepOK.ok_refl h hc⟩
    | some e =>
      obtain ⟨b', h1, h2⟩ := Del_hit h hk
      rw [h1]
      exact ⟨b', rfl, StepOK.ok_remove h hc ((h.table k e).1 hk).1 h2⟩
  | Clear =>
    show ∃ b', (LRUCache.Clear b).map (fun r => r.1) = some b' ∧ StepOK b b' used free none
    obtain ⟨b', free', h1, h2, h3, h4, h5⟩ := Clear_spec h hc
    rw [h1]
    exact ⟨b', rfl, [], free', h2, h3, by simpa using h4, Or.inr ⟨List.nil_sublist _,
      fun j hj => (by cases hj), fun _ => rfl⟩⟩
  | ExpireNow now clock => exact hExpire now clock
  | Expire wall clock => exact hExpire wall clock
  | SetExpireGracePeriod g =>
    exact ⟨_, rfl, used, free, h.setGrace g, hc, rfl, Or.inr ⟨List.Sublist.refl _,
      fun _ _ => rfl, fun hh => absurd rfl hh⟩⟩

theorem exec_good [Inhabited T] {c : Nat} {b : LRUCache T} (h : Good c b) (call : Call T) :
    ∃ b', Call.exec b call = some b' ∧ Good c b' := by
  obtain ⟨used, free, hinv, hcl, hlen⟩ := h
  obtain ⟨b', h1, used', free', h2, h3, h4, -⟩ := exec_step hinv hcl call
  exact ⟨b', h1, used', free', h2, h3, by omega⟩

theorem run_good [Inhabited T] {c : Nat} : ∀ (calls : List (Call T)) (b : LRUCache T),
    Good c b → ∃ b', run b calls = some b' ∧ Good c b' := by
  intro calls
  induction calls with
  | nil => intro b h; exact ⟨b, rfl, h⟩
  | cons call calls ih =>
    intro b h
    obtain ⟨b1, h1, h2⟩ := exec_good h call
    obtain ⟨b', g1, g2⟩ := ih b1 h2
    refine ⟨b', ?_, g2⟩
    rw [run, h1]
    exact g1

theorem NewLRUCache_good [Inhabited T] (c : Nat) :
    ∃ b : LRUCache T, NewLRUCache c = some b ∧ Good c b := by
  obtain ⟨b, h1, h2, h3, -⟩ := NewLRUCache_spec (T := T) c
  exact ⟨b, h1, [], List.range c, h2, h3, by simp⟩

/-- Every reachable state satisfies the representation invariant. -/
theorem Reachable.good [Inhabited T] {c : Nat} {b : LRUCache T} (h : Reachable c b) :
    Good c b := by
  obtain ⟨b0, calls, h1, h2⟩ := h
  obtain ⟨b0', g1, g2⟩ := NewLRUCache_good (T := T) c
  rw [h1] at g1
  injection g1 with g1
  subst g1
  obtain ⟨b', f1, f2⟩ := run_good calls b0 g2
  rw [h2] at f1
  injection f1 with f1
  subst f1
  exact f2

theorem Good.inv [Inhabited T] {c : Nat} {b : LRUCache T} (h : Good c b) :
    Inv b b.order b.freeOrder ∧ Cleared b b.freeOrder ∧
      b.order.length + b.freeOrder.length = c := by
  obtain ⟨used, free, hinv, hcl, hlen⟩ := h
  rw [hinv.order_eq, hinv.freeOrder_eq]
  exact ⟨hinv, hcl, hlen⟩

theorem cacheAfter_reachable (c : Nat) (calls : List (Call String)) :
    Reachable c (cacheAfter c calls) := by
  obtain ⟨b0, h1, h2⟩ := NewLRUCache_good (T := String) c
  obtain ⟨b, g1, -⟩ := run_good calls b0 h2
  refine ⟨b0, calls, h1, ?_⟩
  unfold cacheAfter
  rw [h1, Option.some_bind, g1]
  rfl

theorem Inv.Get_of_table [Inhabited T] {b : LRUCache T} {used free : List Nat}
    (h : Inv b used free) {k : String} {e : Nat} (hk : b.table k = some e) :
    ∃ b', LRUCache.Get b k = some (b', b.value e, true) := by
  obtain ⟨b', h1, -, -⟩ := Get_hit h hk
  exact ⟨b', h1⟩

theorem Good.full [Inhabited T] {c : Nat} {b : LRUCache T} (h : Good c b)
    (hfull : LRUCache.Len b = LRUCache.Capacity b) :
    Inv b b.order [] ∧ b.order.length = c := by
  obtain ⟨hinv, -, hlen⟩ := h.inv
  have h1 := hinv.Len_eq
  have h2 := hinv.Capacity_eq
  rw [hfull, h2] at h1
  have h3 : b.freeOrder.length = 0 := by
    have : b.order.length + b.freeOrder.length = b.order.length := by exact_mod_cast h1
    omega
  have h4 : b.freeOrder = [] := List.length_eq_zero.1 h3
  rw [h4] at hinv
  exact ⟨hinv, by omega⟩

/-- The method `SetNow` of a new key into a full cache of capacity at least one: the
entry of the victim is rebound to the new key and moved to the front. -/
theorem SetNow_full [Inhabited T] {c : Nat} {b : LRUCache T} (h : Good c b) (hc : 1 ≤ c)
    (hfull : LRUCache.Len b = LRUCache.Capacity b) (k : String) (v : T) (t now wall : Time)
    (hk : b.table k = none) :
    ∃ b' e, victim b b.order now wall = some e ∧ e ∈ b.order ∧
      LRUCache.SetNow b k v t now wall = some b' ∧ Inv b b.order [] ∧
      Inv b' (e :: b.order.erase e) [] ∧ Rebound b b' e k v t := by
  obtain ⟨hinv, hlen⟩ := h.full hfull
  have hne : b.order ≠ [] := by
    intro hh
    rw [hh] at hlen
    simp at hlen
    omega
  obtain ⟨e, hv⟩ := victim_isSome (b := b) now wall hne
  obtain ⟨b', h1, h2, h3⟩ := SetNow_evict hinv k v t now wall hk hv
  exact ⟨b', e, hv, victim_mem hinv hv, h1, hinv, h2, h3⟩

/-- What an eviction does to the table, the values and the length. -/
theorem evict_effects [Inhabited T] {b b' : LRUCache T} {used : List Nat} {e : Nat}
    {k : String} {v : T} {t : Time} (h : Inv b used []) (h' : Inv b' (e :: used.erase e) [])
    (hr : Rebound b b' e k v t) (he : e ∈ used) (hk : b.table k = none) :
    b.table (b.key e) = some e ∧ b'.table (b.key e) = none ∧
    (∀ k' e', b.table k' = some e' → k' ≠ b.key e →
      b'.table k' = some e' ∧ b'.value e' = b.value e' ∧ b'.expire e' = b.expire e') ∧
    b'.table k = some e ∧ b'.value e = v ∧ b'.expire e = t ∧
    LRUCache.Len b' = LRUCache.Len b := by
  obtain ⟨r1, r2, r3, r4⟩ := hr
  have hkey : ∀ j, j ≠ e → b'.key j = b.key j := fun j hj => by
    rw [r1, Function.update_noteq hj]
  have hkeye : b'.key e = k := by rw [r1, Function.update_same]
  have hold : b.table (b.key e) = some e := (h.table _ e).2 ⟨he, rfl⟩
  have hkne : k ≠ b.key e := by
    intro hh
    rw [hh, hold] at hk
    cases hk
  refine ⟨hold, ?_, ?_, ?_, ?_, ?_, ?_⟩
  · cases hb : b'.table (b.key e) with
    | none => rfl
    | some i =>
      exfalso
      obtain ⟨hi, hik⟩ := (h'.table _ i).1 hb
      rcases List.mem_cons.1 hi with rfl | hi
      · exact hkne (hkeye.symm.trans hik)
      · have hie : i ≠ e := fun hh => List.Nodup.not_mem_erase h.rings.nodup_left (hh ▸ hi)
        rw [hkey i hie] at hik
        exact hie (h.key_inj (List.mem_of_mem_erase hi) he hik)
  · intro k' e' hk' hne
    obtain ⟨he', hke'⟩ := (h.table k' e').1 hk'
    have hee : e' ≠ e := fun hh => hne (by rw [← hke', hh])
    refine ⟨(h'.table k' e').2 ⟨List.mem_cons_of_mem _ ((List.mem_erase_of_ne hee).2 he'), ?_⟩,
      ?_, ?_⟩
    · rw [hkey e' hee]
      exact hke'
    · rw [r2, Function.update_noteq hee]
    · rw [r3, Function.update_noteq hee]
  · exact (h'.table k e).2 ⟨List.mem_cons_self _ _, hkeye⟩
  · rw [r2, Function.update_same]
  · rw [r3, Function.update_same]
  · rw [h'.Len_eq, h.Len_eq, length_cons_erase he]

theorem victim_back {b : LRUCache T} {used free : List Nat} (h : Inv b used free)
    {now wall : Time} (hnow : now ≠ 0)
    (hfresh : ∀ i ∈ used, b.expire i ≠ 0 → ¬ b.expire i < now) :
    victim b used now wall = used.getLast? := by
  unfold victim
  rw [if_neg]
  rintro ⟨hpq, hlt⟩
  rw [effectiveNow_of_ne _ hnow] at hlt
  obtain ⟨h1, h2⟩ := h.entryAt_mem (List.length_pos.2 hpq)
  exact hfresh _ h1 h2 hlt

theorem victim_expired {b : LRUCache T} {used free : List Nat} {now : Time}
    (wall : Time) (h : Inv b used free) (hnow : now ≠ 0) {i : Nat} (hi : i ∈ used) (hexp : b.expire i ≠ 0)
    (hlt : b.expire i < now) :
    victim b used now wall = some (entryAt b 0) ∧ entryAt b 0 ∈ used ∧
      b.expire (entryAt b 0) ≠ 0 ∧ b.expire (entryAt b 0) < now ∧
      ∀ j ∈ used, b.expire j ≠ 0 → b.expire (entryAt b 0) ≤ b.expire j := by
  have hpq : b.priorityQueue ≠ [] := List.ne_nil_of_mem ((h.pqMem i).2 ⟨hi, hexp⟩)
  have hroot : expireAt b 0 < now := lt_of_le_of_lt (h.inv_root_le hi hexp) hlt
  obtain ⟨h1, h2⟩ := h.entryAt_mem (List.length_pos.2 hpq)
  refine ⟨?_, h1, h2, hroot, fun j hj hj' => h.inv_root_le hj hj'⟩
  unfold victim
  rw [if_pos ⟨hpq, by rw [effectiveNow_of_ne _ hnow]; exact hroot⟩]
/-- The recency order is the order of the latest uses: along the used list the
stamps strictly decrease. -/
theorem order_by_stamp [Inhabited T] : ∀ (calls : List (Call T)) (b b' : LRUCache T)
    (used free : List Nat) (n : Nat) (s : String → Nat),
    Inv b used free → Cleared b free → (∀ j ∈ used, s (b.key j) ≤ n) →
    List.Pairwise (fun i j => s (b.key j) < s (b.key i)) used →
    run b calls = some b' →
    List.Pairwise (fun i j => useStamps b calls n s (b'.key j) < useStamps b calls n s (b'.key i))
      b'.order := by
  intro calls
  induction calls with
  | nil =>
    intro b b' used free n s h _ _ hp hrun
    injection hrun with hrun
    subst hrun
    rw [h.order_eq]
    exact hp
  | cons call calls ih =>
    intro b b' used free n s h hc hb hp hrun
    obtain ⟨b1, h1, used1, free1, g1, g2, -, g4⟩ := exec_step h hc call
    rw [run, h1, Option.some_bind] at hrun
    rw [useStamps, h1]
    refine ih b1 b' used1 free1 (n + 1) _ g1 g2 ?_ ?_ hrun
    · rcases g4 with ⟨k, e, rest, hu, rfl, hsub, hke, hrest⟩ | ⟨hsub, hkeys, hu⟩
      · rw [hu]
        dsimp only
        intro j hj
        rcases List.mem_cons.1 hj with rfl | hj
        · rw [hke, Function.update_same]
        · rw [(hrest j hj).1, Function.update_noteq (hrest j hj).2]
          exact Nat.le_succ_of_le (hb j (hsub.subset hj))
      · intro j hj
        have hne : used1 ≠ [] := List.ne_nil_of_mem hj
        have hu' : Call.used b call = none := by
          by_contra hh
          exact hne (hu hh)
        rw [hu']
        dsimp only
        rw [hkeys j hj]
        exact Nat.le_succ_of_le (hb j (hsub.subset hj))
    · rcases g4 with ⟨k, e, rest, hu, rfl, hsub, hke, hrest⟩ | ⟨hsub, hkeys, hu⟩
      · rw [hu]
        dsimp only
        rw [List.pairwise_cons]
        constructor
        · intro j hj
          rw [hke, Function.update_same, (hrest j hj).1, Function.update_noteq (hrest j hj).2]
          exact Nat.lt_succ_of_le (hb j (hsub.subset hj))
        · refine (hp.sublist hsub).imp_of_mem ?_
          intro i j hi hj hij
          rw [(hrest i hi).1, (hrest j hj).1, Function.update_noteq (hrest i hi).2,
            Function.update_noteq (hrest j hj).2]
          exact hij
      · rcases List.eq_nil_or_concat used1 with hnil | ⟨xs, x, hx⟩
        · rw [hnil]
          exact List.Pairwise.nil
        · have hne : used1 ≠ [] := by
            rw [hx]
            simp
          have hu' : Call.used b call = none := by
            by_contra hh
            exact hne (hu hh)
          rw [hu']
          dsimp only
          refine (hp.sublist hsub).imp_of_mem ?_
          intro i j hi hj hij
          rw [hkeys i hi, hkeys j hj]
          exact hij

/-- In a list ordered by strictly decreasing stamps the last element has the
least stamp. -/
theorem last_least {α : Type} (f : α → Nat) : ∀ (xs : List α) (x : α),
    List.Pairwise (fun i j => f j < f i) xs → xs.getLast? = some x →
    ∀ y ∈ xs, y ≠ x → f x < f y := by
  intro xs x hp hlast y hy hyx
  obtain ⟨ys, rfl⟩ := List.getLast?_eq_some_iff.1 hlast
  rw [List.pairwise_append] at hp
  rcases List.mem_append.1 hy with hy | hy
  · exact hp.2.2 y hy x (by simp)
  · simp at hy
    exact absurd hy hyx

/-- The keys of a reachable cache, most recently used first, are in the order
of their latest uses. -/
theorem keys_by_stamp [Inhabited T] (c : Nat) (calls : List (Call T)) (b0 b : LRUCache T)
    (h0 : NewLRUCache c = some b0) (hrun : run b0 calls = some b) :
    List.Pairwise (fun k1 k2 => useStamps b0 calls 0 (fun _ => 0) k2 <
      useStamps b0 calls 0 (fun _ => 0) k1) b.keys := by
  obtain ⟨b0', g1, g2, g3, -⟩ := NewLRUCache_spec (T := T) c
  rw [h0] at g1
  injection g1 with g1
  subst g1
  have := order_by_stamp calls b0 b [] _ 0 (fun _ => 0) g2 g3 (by intro j hj; cases hj)
    List.Pairwise.nil hrun
  unfold LRUCache.keys
  rw [List.pairwise_map]
  exact this
theorem map_rebound {b b' : LRUCache T} {e : Nat} {k : String} {v : T} {t : Time}
    (hr : Rebound b b' e k v t) (xs : List Nat) (he : e ∉ xs) :
    xs.map (fun i => (b'.key i, b'.value i)) = xs.map (fun i => (b.key i, b.value i)) := by
  apply List.map_congr_left
  intro i hi
  have hie : i ≠ e := fun hh => he (hh ▸ hi)
  rw [hr.1, hr.2.1, Function.update_noteq hie, Function.update_noteq hie]

/-- Storing a new key without TTL in a cache that holds `L`. -/
theorem Filled.set [Inhabited T] {c : Nat} {b : LRUCache T} {L : List (String × T)}
    (h : Filled c b L) (k : String) (v : T) (now wall : Time)
    (hk : k ∉ L.map Prod.fst) :
    ∃ b', LRUCache.SetNow b k v 0 now wall = some b' ∧ Filled c b' (((k, v) :: L).take c) := by
  obtain ⟨used, free, hinv, hcl, hlen, hexp, hL⟩ := h
  have hLlen : L.length = used.length := by rw [← hL, List.length_map]
  have htab : b.table k = none := by
    cases hb : b.table k with
    | none => rfl
    | some i =>
      exfalso
      obtain ⟨hi, hik⟩ := (hinv.table k i).1 hb
      apply hk
      rw [← hL, List.map_map]
      exact List.mem_map.2 ⟨i, hi, hik⟩
  have hexp' : ∀ {b' : LRUCache T} {e : Nat} {xs : List Nat}, Rebound b b' e k v 0 →
      (∀ i ∈ xs, i ∈ used) → ∀ i ∈ e :: xs, b'.expire i = 0 := by
    intro b' e xs hr hxs i hi
    rw [hr.2.2.1]
    rcases List.mem_cons.1 hi with rfl | hi
    · rw [Function.update_same]
    · by_cases hie : i = e
      · rw [hie, Function.update_same]
      · rw [Function.update_noteq hie]
        exact hexp i (hxs i hi)
  have hhead : ∀ {b' : LRUCache T} {e : Nat}, Rebound b b' e k v 0 →
      (b'.key e, b'.value e) = (k, v) := by
    intro b' e hr
    rw [hr.1, hr.2.1, Function.update_same, Function.update_same]
  cases free with
  | cons f rest =>
    obtain ⟨b', h1, h2, h3, h4⟩ := SetNow_free hinv hcl k v 0 now wall htab
    have hfu : f ∉ used := fun hh => hinv.rings.disjoint hh (List.mem_cons_self f rest)
    refine ⟨b', h1, f :: used, rest, h2, h3, by simp only [List.length_cons] at hlen ⊢; omega,
      hexp' h4 (fun i hi => hi), ?_⟩
    rw [List.map_cons, hhead h4, map_rebound h4 used hfu, hL, List.take_of_length_le]
    simp only [List.length_cons] at hlen ⊢
    omega
  | nil =>
    simp only [List.length_nil, Nat.add_zero] at hlen
    rcases List.eq_nil_or_concat used with hu | ⟨xs, x, hu⟩
    · subst hu
      have hc0 : c = 0 := by
        simp at hlen
        omega
      have hL0 : L = [] := by
        rw [← hL]
        rfl
      refine ⟨b, SetNow_zero hinv k v 0 now wall, [], [], hinv, hcl, by simp [hc0], hexp, ?_⟩
      rw [hc0, List.take_zero]
      rfl
    · rw [List.concat_eq_append] at hu
      subst hu
      have hv : victim b (xs ++ [x]) now wall = some x := by
        unfold victim
        rw [if_neg]
        · simp
        · rintro ⟨hpq, -⟩
          obtain ⟨y, hy⟩ := List.exists_mem_of_ne_nil _ hpq
          obtain ⟨hy1, hy2⟩ := (hinv.pqMem y).1 hy
          exact hy2 (hexp y hy1)
      obtain ⟨b', h1, h2, h4⟩ := SetNow_evict hinv k v 0 now wall htab hv
      have hx : x ∉ xs := by
        have := hinv.rings.nodup_left
        rw [List.nodup_append] at this
        exact fun hh => this.2.2 hh (by simp)
      have herase : (xs ++ [x]).erase x = xs := by
        rw [List.erase_append_right _ hx]
        simp
      rw [herase] at h2
      have hcl' : Cleared b' [] := by
        intro i hi
        cases hi
      have hc : 1 ≤ c := by
        rw [← hlen, List.length_append, List.length_singleton]
        omega
      refine ⟨b', h1, x :: xs, [], h2, hcl', by simpa using hlen,
        hexp' h4 (fun i hi => by simp [hi]), ?_⟩
      rw [List.map_cons, hhead h4, map_rebound h4 xs hx, ← hL, List.map_append, List.take_cons
        (by omega)]
      congr 1
      rw [List.take_append_of_le_length (by simp; simp at hlen; omega), List.take_of_length_le]
      simp
      simp at hlen
      omega

theorem take_append_take {α : Type} (c : Nat) (A B : List α) :
    (A ++ B.take c).take c = (A ++ B).take c := by
  rw [List.take_append_eq_append_take, List.take_append_eq_append_take, List.take_take]
  congr 2
  omega

/-- Storing a sequence of new distinct keys without TTL. -/
theorem Filled.run [Inhabited T] {c : Nat} (now wall : String → Time) :
    ∀ (kvs : List (String × T)) (b : LRUCache T) (L : List (String × T)), Filled c b L →
    (kvs.map Prod.fst).Nodup → (∀ k ∈ kvs.map Prod.fst, k ∉ L.map Prod.fst) →
    ∃ b', run b (kvs.map fun kv => Call.SetNow kv.1 kv.2 0 (now kv.1) (wall kv.1)) = some b' ∧
      Filled c b' ((kvs.reverse ++ L).take c) := by
  intro kvs
  induction kvs with
  | nil =>
    intro b L h _ _
    refine ⟨b, rfl, ?_⟩
    obtain ⟨used, free, hinv, hcl, hlen, hexp, hL⟩ := h
    have : L.length ≤ c := by
      rw [← hL, List.length_map]
      omega
    rw [List.reverse_nil, List.nil_append, List.take_of_length_le this]
    exact ⟨used, free, hinv, hcl, hlen, hexp, hL⟩
  | cons kv kvs ih =>
    intro b L h hnd hdis
    rw [List.map_cons, List.nodup_cons] at hnd
    obtain ⟨b1, h1, h2⟩ := h.set kv.1 kv.2 (now kv.1) (wall kv.1)
      (hdis kv.1 (by simp))
    obtain ⟨b', g1, g2⟩ := ih b1 _ h2 hnd.2 (by
      intro k hk hk'
      have hk'' : k ∈ ((kv.1, kv.2) :: L).map Prod.fst :=
        List.map_subset _ (List.take_subset _ _) hk'
      rw [List.map_cons, List.mem_cons] at hk''
      rcases hk'' with rfl | hk''
      · exact hnd.1 hk
      · exact hdis k (by simp only [List.map_cons, List.mem_cons]; exact Or.inr hk) hk'')
    refine ⟨b', ?_, ?_⟩
    · rw [List.map_cons, lrucache.run]
      show (LRUCache.SetNow b kv.1 kv.2 0 (now kv.1) (wall kv.1)).bind _ = _
      rw [h1]
      exact g1
    · rw [take_append_take] at g2
      rw [List.reverse_cons, List.append_assoc]
      exact g2
theorem Filled.lookup [Inhabited T] {c : Nat} {b : LRUCache T} {L : List (String × T)}
    (h : Filled c b L) :
    (∀ kv ∈ L, ∃ b', LRUCache.Get b kv.1 = some (b', kv.2, true)) ∧
    (∀ k, k ∉ L.map Prod.fst → LRUCache.Get b k = some (b, default, false)) := by
  obtain ⟨used, free, hinv, -, -, -, hL⟩ := h
  constructor
  · intro kv hkv
    rw [← hL] at hkv
    obtain ⟨i, hi, hikv⟩ := List.mem_map.1 hkv
    have htab : b.table kv.1 = some i := (hinv.table _ i).2 ⟨hi, by rw [← hikv]⟩
    obtain ⟨b', h1⟩ := hinv.Get_of_table htab
    refine ⟨b', ?_⟩
    rw [h1, ← hikv]
  · intro k hk
    apply Get_miss
    cases hb : b.table k with
    | none => rfl
    | some i =>
      exfalso
      obtain ⟨hi, hik⟩ := (hinv.table k i).1 hb
      apply hk
      rw [← hL, List.map_map]
      exact List.mem_map.2 ⟨i, hi, hik⟩

/-- Setting `c + 1` distinct keys without TTL into a fresh cache of capacity
`c` leaves exactly the first key missing. -/
theorem fill_overflow [Inhabited T] (c : Nat) (now wall : String → Time)
    (q : String × T) (rest : List (String × T)) (hlen : rest.length = c)
    (hnd : ((q :: rest).map Prod.fst).Nodup) :
    ∃ b0 b : LRUCache T, NewLRUCache c = some b0 ∧
      run b0 ((q :: rest).map fun kv => Call.SetNow kv.1 kv.2 0 (now kv.1) (wall kv.1))
        = some b ∧
      LRUCache.Get b q.1 = some (b, default, false) ∧
      ∀ kv ∈ rest, ∃ b', LRUCache.Get b kv.1 = some (b', kv.2, true) := by
  obtain ⟨b0, h1, h2, h3, -⟩ := NewLRUCache_spec (T := T) c
  have hfill : Filled c b0 [] :=
    ⟨[], List.range c, h2, h3, by simp, (by intro i hi; cases hi), rfl⟩
  obtain ⟨b, g1, g2⟩ := Filled.run now wall (q :: rest) b0 [] hfill hnd (by simp)
  have hcontent : ((q :: rest).reverse ++ []).take c = rest.reverse := by
    rw [List.append_nil, List.reverse_cons, List.take_append_of_le_length (by simp [hlen]),
      List.take_of_length_le (by simp [hlen])]
  rw [hcontent] at g2
  obtain ⟨f1, f2⟩ := g2.lookup
  refine ⟨b0, b, h1, g1, f2 q.1 ?_, fun kv hkv => f1 kv (List.mem_reverse.2 hkv)⟩
  rw [List.map_cons, List.nodup_cons] at hnd
  rw [List.map_reverse, List.mem_reverse]
  exact hnd.1

theorem demoFull_reachable : Reachable 2 demoFull := cacheAfter_reachable _ _

theorem demoExpired_reachable : Reachable 2 demoExpired := cacheAfter_reachable _ _

theorem demoSentinel_reachable : Reachable 1 demoSentinel := cacheAfter_reachable _ _

theorem demoGrace_reachable : Reachable 1 demoGrace := cacheAfter_reachable _ _

/-- What an overwrite does to the table, the values and the length. -/
theorem hit_effects [Inhabited T] {b b' : LRUCache T} {used free : List Nat} {e : Nat}
    {k : String} {v : T} {t : Time} (h : Inv b used free) (h' : Inv b' (e :: used.erase e) free)
    (hr : Rebound b b' e k v t) (hk : b.table k = some e) :
    (∀ k' e', b.table k' = some e' → k' ≠ k →
      b'.table k' = some e' ∧ b'.value e' = b.value e' ∧ b'.expire e' = b.expire e') ∧
    b'.table k = some e ∧ b'.value e = v ∧ b'.expire e = t ∧
    LRUCache.Len b' = LRUCache.Len b := by
  obtain ⟨r1, r2, r3, r4⟩ := hr
  obtain ⟨he, hke⟩ := (h.table k e).1 hk
  have hkeye : b'.key e = k := by rw [r1, Function.update_same]
  refine ⟨?_, ?_, ?_, ?_, ?_⟩
  · intro k' e' hk' hne
    obtain ⟨he', hke'⟩ := (h.table k' e').1 hk'
    have hee : e' ≠ e := fun hh => hne (by rw [← hke', hh, hke])
    refine ⟨(h'.table k' e').2 ⟨List.mem_cons_of_mem _ ((List.mem_erase_of_ne hee).2 he'), ?_⟩,
      ?_, ?_⟩
    · rw [r1, Function.update_noteq hee]
      exact hke'
    · rw [r2, Function.update_noteq hee]
    · rw [r3, Function.update_noteq hee]
  · exact (h'.table k e).2 ⟨List.mem_cons_self _ _, hkeye⟩
  · rw [r2, Function.update_same]
  · rw [r3, Function.update_same]
  · rw [h'.Len_eq, h.Len_eq, length_cons_erase he]

/-- In `GetNotStaleNow` the test `e.expire.Sub(now) > b.ExpireGracePeriod` of
an entry that expires before `now` fails for every positive grace period: the
difference `expire - now` is negative. -/
theorem sub_not_gt_grace {expire now g : Int} (hlt : expire < now) (hg : 0 < g) :
    ¬ Time.Sub expire now > g := by
  intro h
  have h' : g < Time.Sub expire now := h
  unfold Time.Sub maxDuration minDuration at h'
  split_ifs at h' with h1 h2
  · have h1' : (2 ^ 63 - 1 : Int) < expire - now := h1
    omega
  · omega
  · have h3 : g < expire - now := h'
    omega

/-- With a positive grace period `GetNotStaleNow` never removes an entry: a
key whose `expire` is before `now` is a miss and the state is unchanged,
however long ago it expired. -/
theorem GetNotStaleNow_grace [Inhabited T] {b : LRUCache T} {k : String} {e : Nat} {now : Time}
    (hk : b.table k = some e) (hnow : b.expire e < now) (hg : 0 < b.ExpireGracePeriod) :
    LRUCache.GetNotStaleNow b k now = some (b, default, false) := by
  apply GetNotStaleNow_keep hk hnow
  rintro (h | h)
  · rw [h] at hg
    exact lt_irrefl _ hg
  · exact sub_not_gt_grace hnow hg h

/-- Without grace period `GetNotStaleNow` removes an entry without TTL (zero
`expire`) as soon as `now` is after the zero instant. -/
theorem GetNotStaleNow_sentinel [Inhabited T] {c : Nat} {b : LRUCache T} {k : String} {e : Nat}
    {now : Time} (hb : Reachable c b) (hk : b.table k = some e) (hz : b.expire e = 0)
    (hnow : 0 < now) (hg : b.ExpireGracePeriod = 0) :
    ∃ b', LRUCache.GetNotStaleNow b k now = some (b', default, false) ∧
      LRUCache.Len b' = LRUCache.Len b - 1 ∧ b'.table k = none := by
  obtain ⟨hinv, hcl, -⟩ := hb.good.inv
  obtain ⟨b', h1, h2⟩ := GetNotStaleNow_purge hinv hk (by rw [hz]; exact hnow) (Or.inl hg)
  obtain ⟨he, hke⟩ := (hinv.table k e).1 hk
  obtain ⟨b1, g1, g2, g3, g4, g5, g6, g7, g8⟩ := removeEntry_spec hinv he
  rw [h2] at g1
  injection g1 with g1
  subst g1
  refine ⟨b', h1, ?_, ?_⟩
  · rw [g2.Len_eq, hinv.Len_eq, List.length_erase_of_mem he]
    have := List.length_pos_of_mem he
    omega
  · rw [g7, hke, Function.update_same]

theorem sublist_eq_filter {α : Type} (p : α → Bool) : ∀ {l' l : List α}, l'.Sublist l →
    l.Nodup → (∀ x ∈ l, (x ∈ l' ↔ p x = true)) → l' = l.filter p := by
  intro l' l h
  induction h with
  | slnil => intro _ _; rfl
  | @cons l' l a hs ih =>
    intro hnd hm
    rw [List.nodup_cons] at hnd
    have ha : p a = false := by
      cases hp : p a with
      | false => rfl
      | true => exact absurd (hs.subset ((hm a (List.mem_cons_self a l)).2 hp)) hnd.1
    rw [List.filter_cons_of_neg (by simp [ha])]
    exact ih hnd.2 fun x hx => hm x (List.mem_cons_of_mem a hx)
  | @cons₂ l' l a hs ih =>
    intro hnd hm
    rw [List.nodup_cons] at hnd
    have ha : p a = true := (hm a (List.mem_cons_self a l)).1 (List.mem_cons_self a l')
    rw [List.filter_cons_of_pos ha]
    congr 1
    refine ih hnd.2 fun x hx => ?_
    have hxa : x ≠ a := fun hh => hnd.1 (hh ▸ hx)
    rw [← hm x (List.mem_cons_of_mem a hx), List.mem_cons]
    exact ⟨Or.inr, fun h => h.resolve_left hxa⟩

theorem map_erase_of_injOn {α β : Type} [DecidableEq α] [DecidableEq β] (f : α → β) (e : α) :
    ∀ (l : List α), (∀ x ∈ l, f x = f e → x = e) →
      (l.erase e).map f = (l.map f).erase (f e) := by
  intro l
  induction l with
  | nil => intro _; rfl
  | cons a l ih =>
    intro h
    by_cases hae : a = e
    · subst hae
      simp
    · have hf : f a ≠ f e := fun hh => hae (h a (List.mem_cons_self a l) hh)
      rw [List.erase_cons_tail (by simpa using hae), List.map_cons, List.map_cons,
        List.erase_cons_tail (by simpa using hf),
        ih fun x hx => h x (List.mem_cons_of_mem a hx)]

theorem Inv.table_nil [Inhabited T] {b : LRUCache T} {free : List Nat} (h : Inv b [] free)
    (k : String) : b.table k = none := by
  cases hk : b.table k with
  | none => rfl
  | some i => cases ((h.table k i).1 hk).1

theorem Inv.pq_nil [Inhabited T] {b : LRUCache T} {free : List Nat} (h : Inv b [] free) :
    b.priorityQueue = [] := by
  cases hpq : b.priorityQueue with
  | nil => rfl
  | cons x xs =>
    have := ((h.pqMem x).1 (by rw [hpq]; exact List.mem_cons_self _ _)).1
    cases this

/-- On a cache without used entries `Clear()` removes nothing and returns 0. -/
theorem Clear_empty [Inhabited T] {b : LRUCache T} {free : List Nat} (h : Inv b [] free) :
    LRUCache.Clear b = some (b, 0) := by
  have hlen : list.Len b ListId.lruList = 0 := h.rings.len
  unfold LRUCache.Clear
  simp [h.pq_nil, clearHeapLoop, clearListLoop, hlen]

/-- On a cache without used entries `ExpireNow(now)` removes nothing and
returns 0. -/
theorem ExpireNow_empty [Inhabited T] {b : LRUCache T} {free : List Nat} (h : Inv b [] free)
    (now : Time) (clock : Nat → Time) : LRUCache.ExpireNow b now clock = some (b, 0) := by
  unfold LRUCache.ExpireNow
  rw [h.pq_nil, List.length_nil, Nat.zero_add, expireLoop, expiredEntry_eq]
  simp [h.pq_nil]

/-- The method `GetQuiet` of `MultiLRUCache` is the method `Get`: both call
`Get` on the shard. -/
theorem MultiLRUCache.GetQuiet_eq_Get [Inhabited T] (m : MultiLRUCache T) (k : String) :
    MultiLRUCache.GetQuiet m k = MultiLRUCache.Get m k := rfl

theorem demoHeap_reachable : Reachable 3 demoHeap := cacheAfter_reachable _ _

/-- An index that `priorityQueue[i]` reads without a panic is inside the
queue. -/
theorem at_some_range {b : LRUCache T} {i : Int} {x : Nat}
    (h : priorityQueue.at b i = some x) : 0 ≤ i ∧ i < (b.priorityQueue.length : Int) := by
  unfold priorityQueue.at at h
  split_ifs at h with hi
  obtain ⟨hlt, -⟩ := List.getElem?_eq_some_iff.1 h
  exact ⟨hi, by omega⟩

/-- A call of `HeapRemove` that does not panic has its index inside the
queue. -/
theorem HeapRemove_some_range {b : LRUCache T} {i : Int} {r : LRUCache T × Nat}
    (h : HeapRemove b i = some r) : 0 ≤ i ∧ i < (b.priorityQueue.length : Int) := by
  unfold HeapRemove at h
  simp only [Option.bind_eq_bind, Option.bind_eq_some] at h
  obtain ⟨b1, h1, h2⟩ := h
  by_cases hn : priorityQueue.Len b - 1 = i
  · rw [if_neg (not_not.2 hn)] at h1
    injection h1 with h1
    subst h1
    unfold priorityQueue.Pop at h2
    simp only [Option.bind_eq_bind, Option.bind_eq_some] at h2
    obtain ⟨item, h3, -⟩ := h2
    have := at_some_range h3
    unfold priorityQueue.Len at hn
    omega
  · rw [if_pos hn] at h1
    simp only [Option.bind_eq_bind, Option.bind_eq_some] at h1
    obtain ⟨b2, h3, -⟩ := h1
    unfold priorityQueue.Swap at h3
    simp only [Option.bind_eq_bind, Option.bind_eq_some] at h3
    obtain ⟨x, h4, -⟩ := h3
    exact at_some_range h4

/-- A call of `removeEntry` that does not panic is on an entry linked in
`lruList`, and calls `HeapRemove` only with an index inside the queue. -/
theorem removeEntry_some_linked [Inhabited T] {b b' : LRUCache T} {e : Option Nat}
    (h : LRUCache.removeEntry b e = some b') :
    ∃ e', e = some e' ∧ b.list (Node.elem e') = some ListId.lruList ∧
      (b.index e' ≠ -1 → 0 ≤ b.index e' ∧ b.index e' < (b.priorityQueue.length : Int)) := by
  unfold LRUCache.removeEntry at h
  simp only [Option.bind_eq_bind, Option.bind_eq_some] at h
  obtain ⟨e', he, h1⟩ := h
  by_cases hl : b.list (Node.elem e') = some ListId.lruList
  · refine ⟨e', he, hl, fun hidx => ?_⟩
    rw [if_neg (not_not.2 hl)] at h1
    simp only [Option.bind_eq_bind, Option.bind_eq_some] at h1
    obtain ⟨b1, h2, -⟩ := h1
    rw [if_pos hidx] at h2
    simp only [Option.bind_eq_bind, Option.bind_eq_some] at h2
    obtain ⟨r, h3, -⟩ := h2
    exact HeapRemove_some_range h3
  · rw [if_pos hl] at h1
    cases h1

/-- A call of `insertEntry` that does not panic is on an entry linked in
`freeList`. -/
theorem insertEntry_some_linked {b b' : LRUCache T} {e : Option Nat}
    (h : LRUCache.insertEntry b e = some b') :
    ∃ e', e = some e' ∧ b.list (Node.elem e') = some ListId.freeList := by
  unfold LRUCache.insertEntry at h
  simp only [Option.bind_eq_bind, Option.bind_eq_some] at h
  obtain ⟨e', he, h1⟩ := h
  by_cases hl : b.list (Node.elem e') = some ListId.freeList
  · exact ⟨e', he, hl⟩
  · rw [if_pos hl] at h1
    cases h1

/-- A call of `leastUsedEntry` that does not panic finds `lruList` non-empty. -/
theorem leastUsedEntry_some_nonempty {b : LRUCache T} {r : Option Nat}
    (h : LRUCache.leastUsedEntry b = some r) : list.Len b ListId.lruList ≠ 0 := by
  unfold LRUCache.leastUsedEntry list.Back at h
  intro h0
  unfold list.Len at h0
  simp [h0] at h

/-- An iteration of the first loop of `Clear` that does not panic finds the
heap non-empty. -/
theorem clearHeapLoop_some_nonempty [Inhabited T] {b b' : LRUCache T} {l : Nat}
    (h : clearHeapLoop (l + 1) b = some b') : b.priorityQueue ≠ [] := by
  rw [clearHeapLoop] at h
  simp only [Option.bind_eq_bind, Option.bind_eq_some] at h
  obtain ⟨e, h1, -⟩ := h
  have := at_some_range h1
  intro h0
  rw [h0] at this
  simp at this

/-- An iteration of the second loop of `Clear` that does not panic finds the
used list non-empty. -/
theorem clearListLoop_some_nonempty [Inhabited T] {b b' : LRUCache T} {r : Nat}
    (h : clearListLoop (r + 1) b = some b') : list.Len b ListId.lruList ≠ 0 := by
  rw [clearListLoop] at h
  simp only [Option.bind_eq_bind, Option.bind_eq_some] at h
  obtain ⟨e, h1, -⟩ := h
  exact leastUsedEntry_some_nonempty h1

theorem multiInitLoop_spec [Inhabited T] (c : Nat) : ∀ n : Nat,
    ∃ cs : List (LRUCache T), multiInitLoop c n = some cs ∧ cs.length = n ∧
      ∀ s ∈ cs, Good c s := by
  intro n
  induction n with
  | zero => exact ⟨[], rfl, rfl, fun s hs => by cases hs⟩
  | succ n ih =>
    obtain ⟨cs, h1, h2, h3⟩ := ih
    obtain ⟨b0, g1, g2⟩ := NewLRUCache_good (T := T) c
    refine ⟨b0 :: cs, ?_, by rw [List.length_cons, h2], ?_⟩
    · rw [multiInitLoop]
      simp only [Option.bind_eq_bind, g1, h1, Option.some_bind]
      rfl
    · intro s hs
      rcases List.mem_cons.1 hs with hs | hs
      · rw [hs]
        exact g2
      · exact h3 s hs

theorem NewMultiLRUCache_good [Inhabited T] (N c : Nat) :
    ∃ m0 : MultiLRUCache T, NewMultiLRUCache N c = some m0 ∧ MultiGood N c m0 := by
  obtain ⟨cs, h1, h2, h3⟩ := multiInitLoop_spec (T := T) c N
  refine ⟨{ buckets := N, cache := cs }, ?_, rfl, h2, h3⟩
  unfold NewMultiLRUCache MultiLRUCache.init
  simp only [Option.bind_eq_bind, h1, Option.some_bind]
  rfl

/-- In a cache of `N >= 1` shards `bucketNo(key)` is the checksum of the key
modulo `N`, and `m.cache[bucketNo(key)]` is one of the shards. -/
theorem bucket_spec [Inhabited T] {N c : Nat} {m : MultiLRUCache T} (h : MultiGood N c m)
    (hN : 1 ≤ N) (k : String) :
    ∃ s, MultiLRUCache.bucketNo m k = some (ChecksumIEEE (keyBytes k) % N) ∧
      ChecksumIEEE (keyBytes k) % N < N ∧
      m.cache[ChecksumIEEE (keyBytes k) % N]? = some s ∧
      MultiLRUCache.bucket m k = some (ChecksumIEEE (keyBytes k) % N, s) ∧ Good c s := by
  obtain ⟨h1, h2, h3⟩ := h
  have hlt : ChecksumIEEE (keyBytes k) % N < N := Nat.mod_lt _ (by omega)
  have hb : MultiLRUCache.bucketNo m k = some (ChecksumIEEE (keyBytes k) % N) := by
    unfold MultiLRUCache.bucketNo
    rw [h1, if_neg (by omega)]
  have hlt' : ChecksumIEEE (keyBytes k) % N < m.cache.length := by rw [h2]; exact hlt
  refine ⟨m.cache[ChecksumIEEE (keyBytes k) % N], hb, hlt, List.getElem?_eq_getElem hlt', ?_,
    h3 _ (List.getElem_mem _)⟩
  unfold MultiLRUCache.bucket
  simp only [Option.bind_eq_bind, hb, Option.some_bind, List.getElem?_eq_getElem hlt']
  rfl

theorem bind_some_map {α β : Type} (o : Option α) (f : α → β) :
    (o.bind fun a => some (f a)) = o.map f := by
  cases o <;> rfl

/-- A per-key method of `MultiLRUCache` runs one method of the shard
`m.cache[bucketNo(key)]` and stores nothing else. -/
theorem exec_route [Inhabited T] (m : MultiLRUCache T) {mc : MultiCall T} {k : String}
    {call : Call T} (h : MultiCall.route mc = some (k, call)) :
    MultiCall.exec m mc = (MultiLRUCache.bucket m k).bind fun ic =>
      (Call.exec ic.2 call).map fun s => { m with cache := m.cache.set ic.1 s } := by
  cases mc <;> simp only [MultiCall.route, Option.some.injEq, Prod.mk.injEq, reduceCtorEq] at h <;>
    obtain ⟨rfl, rfl⟩ := h <;>
    cases hb : MultiLRUCache.bucket m _ <;>
    simp [MultiCall.exec, Call.exec, MultiLRUCache.SetNow, MultiLRUCache.Set,
      MultiLRUCache.Get, MultiLRUCache.GetQuiet, MultiLRUCache.GetNotStaleNow,
      MultiLRUCache.GetNotStale, MultiLRUCache.GetStaleNow, MultiLRUCache.GetStale,
      MultiLRUCache.Del, hb, Option.map_eq_map, Option.bind_eq_bind, bind_some_map,
      Function.comp_def]

theorem sumLoop_good [Inhabited T] {c : Nat}
    (f : Nat → LRUCache T → Option (LRUCache T × Int))
    (hf : ∀ j s, Good c s → ∃ s' n, f j s = some (s', n) ∧ Good c s') :
    ∀ (cs : List (LRUCache T)) (j : Nat) (a : Int), (∀ s ∈ cs, Good c s) →
      ∃ cs' a', sumLoop f cs j a = some (cs', a') ∧ cs'.length = cs.length ∧
        ∀ s ∈ cs', Good c s := by
  intro cs
  induction cs with
  | nil => intro j a _; exact ⟨[], a, rfl, rfl, fun s hs => by cases hs⟩
  | cons x cs ih =>
    intro j a h
    obtain ⟨x', n, h1, h2⟩ := hf j x (h x (List.mem_cons_self x cs))
    obtain ⟨cs', a', g1, g2, g3⟩ := ih (j + 1) (a + n) fun s hs => h s (List.mem_cons_of_mem x hs)
    refine ⟨x' :: cs', a', ?_, by rw [List.length_cons, List.length_cons, g2], ?_⟩
    · rw [sumLoop]
      simp only [Option.bind_eq_bind, h1, Option.some_bind, g1]
      rfl
    · intro s hs
      rcases List.mem_cons.1 hs with hs | hs
      · rw [hs]
        exact h2
      · exact g3 s hs

theorem exec_result [Inhabited T] {c : Nat} {b : LRUCache T} (h : Good c b) (call : Call T)
    {R : Type} {o : Option (LRUCache T × R)}
    (ho : Call.exec b call = o.map fun r => r.1) :
    ∃ b' r, o = some (b', r) ∧ Good c b' := by
  obtain ⟨b', h1, h2⟩ := exec_good h call
  rw [ho] at h1
  obtain ⟨r, hr, hb⟩ := Option.map_eq_some'.1 h1
  exact ⟨b', r.2, by rw [hr, ← hb], h2⟩

/-- A method of `MultiLRUCache` that visits every shard returns, and keeps
the invariant. -/
theorem exec_all_good [Inhabited T] {N c : Nat} {m : MultiLRUCache T} (h : MultiGood N c m)
    {mc : MultiCall T} (hr : MultiCall.route mc = none) :
    ∃ m', MultiCall.exec m mc = some m' ∧ MultiGood N c m' := by
  obtain ⟨h1, h2, h3⟩ := h
  have key : ∀ f : Nat → LRUCache T → Option (LRUCache T × Int),
      (∀ j s, Good c s → ∃ s' n, f j s = some (s', n) ∧ Good c s') →
      ∃ m', ((sumLoop f m.cache 0 0).bind fun r =>
        some (({ m with cache := r.1 } : MultiLRUCache T), r.2)).map (fun r => r.1) = some m' ∧
        MultiGood N c m' := by
    intro f hf
    obtain ⟨cs', a', g1, g2, g3⟩ := sumLoop_good f hf m.cache 0 0 h3
    exact ⟨{ m with cache := cs' }, by rw [g1]; rfl, h1, by rw [← h2]; exact g2, g3⟩
  cases mc with
  | Clear => exact key _ fun _ s hs => exec_result hs Call.Clear rfl
  | ExpireNow now clock =>
    exact key _ fun j s hs => exec_result hs (Call.ExpireNow now (clock j)) rfl
  | Expire wall clock =>
    exact key _ fun j s hs => exec_result hs (Call.Expire (wall j) (clock j)) rfl
  | SetExpireGracePeriod p =>
    refine ⟨_, rfl, h1, ?_, ?_⟩
    · show (m.cache.map _).length = N
      rw [List.length_map, h2]
    · intro s hs
      obtain ⟨s0, hs0, rfl⟩ := List.mem_map.1 hs
      obtain ⟨b', e1, e2⟩ := exec_good (h3 s0 hs0) (Call.SetExpireGracePeriod p)
      injection e1 with e1
      rw [e1]
      exact e2
  | _ => simp [MultiCall.route] at hr

/-- A per-key method of a cache of `N >= 1` shards returns: it runs the shard
method on the shard `bucketNo(key)` and stores the new state of that shard. -/
theorem exec_key_good [Inhabited T] {N c : Nat} {m : MultiLRUCache T} (h : MultiGood N c m)
    (hN : 1 ≤ N) {mc : MultiCall T} {k : String} {call : Call T}
    (hr : MultiCall.route mc = some (k, call)) :
    ∃ s s', m.cache[ChecksumIEEE (keyBytes k) % N]? = some s ∧ Call.exec s call = some s' ∧
      Good c s ∧ Good c s' ∧
      MultiCall.exec m mc =
        some { m with cache := m.cache.set (ChecksumIEEE (keyBytes k) % N) s' } ∧
      MultiGood N c { m with cache := m.cache.set (ChecksumIEEE (keyBytes k) % N) s' } := by
  obtain ⟨s, -, -, b3, b4, b5⟩ := bucket_spec h hN k
  obtain ⟨s', e1, e2⟩ := exec_good b5 call
  refine ⟨s, s', b3, e1, b5, e2, ?_, h.1, ?_, ?_⟩
  · rw [exec_route m hr, b4, Option.some_bind, e1]
    rfl
  · show (m.cache.set _ s').length = N
    rw [List.length_set, h.2.1]
  · intro x hx
    rcases List.mem_or_eq_of_mem_set hx with hx | hx
    · exact h.2.2 x hx
    · rw [hx]
      exact e2

theorem multi_exec_good [Inhabited T] {N c : Nat} {m : MultiLRUCache T} (h : MultiGood N c m)
    (hN : 1 ≤ N) (mc : MultiCall T) :
    ∃ m', MultiCall.exec m mc = some m' ∧ MultiGood N c m' := by
  cases hr : MultiCall.route mc with
  | none => exact exec_all_good h hr
  | some kc =>
    obtain ⟨s, s', -, -, -, -, h5, h6⟩ := exec_key_good h hN
      (hr : MultiCall.route mc = some (kc.1, kc.2))
    exact ⟨_, h5, h6⟩

theorem multi_exec_pres [Inhabited T] {N c : Nat} {m m' : MultiLRUCache T}
    (h : MultiGood N c m) {mc : MultiCall T} (he : MultiCall.exec m mc = some m') :
    MultiGood N c m' := by
  rcases Nat.eq_zero_or_pos N with hN | hN
  · cases hr : MultiCall.route mc with
    | none =>
      obtain ⟨m'', g1, g2⟩ := exec_all_good h hr
      rw [g1] at he
      injection he with he
      rw [← he]
      exact g2
    | some kc =>
      exfalso
      rw [exec_route m (hr : MultiCall.route mc = some (kc.1, kc.2))] at he
      have : MultiLRUCache.bucket m kc.1 = none := by
        unfold MultiLRUCache.bucket MultiLRUCache.bucketNo
        rw [h.1, hN]
        rfl
      rw [this] at he
      cases he
  · obtain ⟨m'', g1, g2⟩ := multi_exec_good h hN mc
    rw [g1] at he
    injection he with he
    rw [← he]
    exact g2

theorem multiRun_good [Inhabited T] {N c : Nat} (hN : 1 ≤ N) :
    ∀ (calls : List (MultiCall T)) (m : MultiLRUCache T), MultiGood N c m →
      ∃ m', multiRun m calls = some m' ∧ MultiGood N c m' := by
  intro calls
  induction calls with
  | nil => intro m h; exact ⟨m, rfl, h⟩
  | cons mc calls ih =>
    intro m h
    obtain ⟨m1, h1, h2⟩ := multi_exec_good h hN mc
    obtain ⟨m', g1, g2⟩ := ih m1 h2
    exact ⟨m', by rw [multiRun, h1]; exact g1, g2⟩

theorem multiRun_pres [Inhabited T] {N c : Nat} :
    ∀ (calls : List (MultiCall T)) (m m' : MultiLRUCache T), MultiGood N c m →
      multiRun m calls = some m' → MultiGood N c m' := by
  intro calls
  induction calls with
  | nil =>
    intro m m' h hr
    injection hr with hr
    rw [← hr]
    exact h
  | cons mc calls ih =>
    intro m m' h hr
    rw [multiRun] at hr
    obtain ⟨m1, h1, h2⟩ := Option.bind_eq_some.1 hr
    exact ih m1 m' (multi_exec_pres h h1) h2

/-- Every reachable state of a `MultiLRUCache` has its `N` shards, each of
which satisfies the representation invariant. -/
theorem MultiReachable.multi_good [Inhabited T] {N c : Nat} {m : MultiLRUCache T}
    (h : MultiReachable N c m) : MultiGood N c m := by
  obtain ⟨m0, calls, h1, h2⟩ := h
  obtain ⟨m0', g1, g2⟩ := NewMultiLRUCache_good (T := T) N c
  rw [g1] at h1
  injection h1 with h1
  subst h1
  exact multiRun_pres calls _ m g2 h2

theorem multiAfter_reachable (N c : Nat) (hN : 1 ≤ N) (calls : List (MultiCall String)) :
    MultiReachable N c (multiAfter N c calls) := by
  obtain ⟨m0, h1, h2⟩ := NewMultiLRUCache_good (T := String) N c
  obtain ⟨m, g1, -⟩ := multiRun_good hN calls m0 h2
  refine ⟨m0, calls, h1, ?_⟩
  unfold multiAfter
  rw [h1, Option.some_bind, g1]
  rfl

theorem foldl_add_sum {α : Type} (f : α → Int) : ∀ (l : List α) (a : Int),
    l.foldl (fun s c => s + f c) a = a + (l.map f).sum := by
  intro l
  induction l with
  | nil => intro a; simp
  | cons x l ih =>
    intro a
    rw [List.foldl_cons, ih, List.map_cons, List.sum_cons]
    ring

theorem sum_const_of_forall {α : Type} (f : α → Int) (v : Int) : ∀ (l : List α),
    (∀ x ∈ l, f x = v) → (l.map f).sum = l.length * v := by
  intro l
  induction l with
  | nil => intro _; simp
  | cons x l ih =>
    intro h
    rw [List.map_cons, List.sum_cons, h x (List.mem_cons_self x l),
      ih fun y hy => h y (List.mem_cons_of_mem x hy), List.length_cons]
    push_cast
    ring

theorem sum_le_of_forall {α : Type} (f : α → Int) (v : Int) : ∀ (l : List α),
    (∀ x ∈ l, 0 ≤ f x ∧ f x ≤ v) → 0 ≤ (l.map f).sum ∧ (l.map f).sum ≤ l.length * v := by
  intro l
  induction l with
  | nil => intro _; simp
  | cons x l ih =>
    intro h
    have h1 := h x (List.mem_cons_self x l)
    have h2 := ih fun y hy => h y (List.mem_cons_of_mem x hy)
    rw [List.map_cons, List.sum_cons, List.length_cons]
    push_cast
    constructor
    · omega
    · have : ((l.length : Int) + 1) * v = l.length * v + v := by ring
      omega

/-- The method `GetStaleNow` in a reachable state: for a key of the table it
returns `(value, true, e.expire.Before(now))`, moves the entry to the front of
the recency list and writes nothing else, so nothing is removed; the flag is
the comparison of the stored `expire` with `now`, whether or not the `expire`
is zero.  For a key that is not in the table it returns `(zero value, false,
false)` and leaves the state unchanged. -/
theorem GetStaleNow_effects [Inhabited T] (c : Nat) (b : LRUCache T) (k : String) (now : Time)
    (hb : Reachable c b) :
    match b.table k with
    | some e =>
      ∃ b' expired, LRUCache.GetStaleNow b k now = some (b', b.value e, true, expired) ∧
        (expired = true ↔ b.expire e < now) ∧
        b'.order = e :: b.order.erase e ∧ b'.keys.head? = some k ∧ b'.keys.Perm b.keys ∧
        b'.key = b.key ∧ b'.value = b.value ∧ b'.expire = b.expire ∧ b'.table = b.table ∧
        b'.priorityQueue = b.priorityQueue ∧ LRUCache.Len b' = LRUCache.Len b
    | none => LRUCache.GetStaleNow b k now = some (b, default, false, false) := by
  cases hk : b.table k with
  | none => exact GetStaleNow_miss now hk
  | some e =>
    obtain ⟨hinv, -, -⟩ := hb.good.inv
    obtain ⟨he, hke⟩ := (hinv.table k e).1 hk
    obtain ⟨b', h1, h2, h3⟩ := GetStaleNow_hit hinv now hk
    obtain ⟨g1, g2, g3, g4, g5, g6, g7, g8⟩ := h3
    refine ⟨b', _, h1, by simp, h2.order_eq, ?_, ?_, g1, g2, g3, g6, g7, ?_⟩
    · unfold LRUCache.keys
      rw [h2.order_eq, g1, List.map_cons, List.head?_cons, hke]
    · unfold LRUCache.keys
      rw [h2.order_eq, g1, hinv.order_eq]
      exact ((List.perm_cons_erase he).symm).map _
    · rw [h2.Len_eq, hinv.Len_eq, length_cons_erase he]

/-- The method `GetStaleNow` reports an entry without TTL (zero `expire`) as
expired at every `now` after the zero instant: the flag is
`e.expire.Before(now)`, with no `IsZero` test. -/
theorem GetStaleNow_sentinel [Inhabited T] {c : Nat} {b : LRUCache T} {k : String} {e : Nat}
    {now : Time} (hb : Reachable c b) (hk : b.table k = some e) (hz : b.expire e = 0)
    (hnow : 0 < now) :
    ∃ b', LRUCache.GetStaleNow b k now = some (b', b.value e, true, true) := by
  obtain ⟨hinv, -, -⟩ := hb.good.inv
  obtain ⟨b', h1, -, -⟩ := GetStaleNow_hit hinv now hk
  refine ⟨b', ?_⟩
  rw [h1, hz, decide_eq_true hnow]

/-! ## The claims -/

/-- C1 (round trip): in every state reachable from `NewLRUCache(c)` with
`c >= 1`, `SetNow(k, v, t, now)` succeeds and the `Get(k)` that follows returns
`(v, true)`. -/
theorem set_get_roundtrip [Inhabited T] (c : Nat) (hc : 1 ≤ c) (b : LRUCache T)
    (hb : Reachable c b) (k : String) (v : T) (t now wall : Time) :
    ∃ b' b'', LRUCache.SetNow b k v t now wall = some b' ∧
      LRUCache.Get b' k = some (b'', v, true) := by
  obtain ⟨b', h1, h2, h3⟩ := SetNow_good hb.good k v t now wall
  obtain ⟨e, he, hv, -⟩ := h3 (by omega)
  obtain ⟨used, free, hinv, -, -⟩ := h2
  obtain ⟨b'', g1, -, -⟩ := Get_hit hinv he
  exact ⟨b', b'', h1, by rw [g1, hv]⟩

theorem set_get_roundtrip_witness :
    1 ≤ 2 ∧ Reachable 2 demoFull ∧
      ∃ b' b'', LRUCache.SetNow demoFull "c" "vc" 9 8 8 = some b' ∧
        LRUCache.Get b' "c" = some (b'', "vc", true) :=
  ⟨by decide, demoFull_reachable,
    set_get_roundtrip 2 (by decide) demoFull demoFull_reachable "c" "vc" 9 8 8⟩

/-- C2 (capacity bound): for every capacity `c`, every sequence of calls of
public methods on `NewLRUCache(c)` and every length `n`, the first `n` calls
run without a panic, and in the state after them `Capacity()` is `c` and
`0 <= Len() <= c`: the bound holds after each operation of the sequence. -/
theorem capacity_bound [Inhabited T] (c : Nat) (calls : List (Call T)) (n : Nat) :
    ∃ b0 b : LRUCache T, NewLRUCache c = some b0 ∧ run b0 (calls.take n) = some b ∧
      LRUCache.Capacity b = (c : Int) ∧ 0 ≤ LRUCache.Len b ∧ LRUCache.Len b ≤ (c : Int) := by
  obtain ⟨b0, h1, h2⟩ := NewLRUCache_good (T := T) c
  obtain ⟨b, g1, used, free, hinv, -, hlen⟩ := run_good (calls.take n) b0 h2
  refine ⟨b0, b, h1, g1, ?_, ?_, ?_⟩
  · rw [hinv.Capacity_eq, hlen]
  · rw [hinv.Len_eq]
    omega
  · rw [hinv.Len_eq]
    exact_mod_cast (by omega : used.length ≤ c)

/-- C3 (LRU eviction).  (1) In a reachable full cache of capacity `c >= 1` in
which no used entry has a non-zero `expire` before `now`, `SetNow(k, v, t, now)`
with a non-zero `now`, for a key `k` that is not in the table, evicts exactly
the key `lru` at the back of the recency list: `Get(lru)` misses afterwards,
every other key that was present is still returned with its value, `k` is
returned with `v`, and the new recency list is `k` followed by the old list
without its back.  (2) The recency list is ordered by the latest use (a
`Set`/`SetNow`, or a hit of `Get`/`GetNotStale`/`GetStale`; `GetQuiet` is not a
use): the stamps of the latest uses strictly decrease along it, so its back
is the present key whose latest use is oldest.  (3) Setting `c + 1` distinct
keys without TTL into a fresh cache leaves exactly the first key missing. -/
theorem lru_eviction [Inhabited T] :
    (∀ (c : Nat) (b : LRUCache T) (k : String) (v : T) (t now wall : Time),
      Reachable c b → 1 ≤ c → LRUCache.Len b = LRUCache.Capacity b →
      (∀ i ∈ b.order, b.expire i ≠ 0 → ¬ b.expire i < now) → now ≠ 0 → b.table k = none →
      ∃ b' lru, LRUCache.SetNow b k v t now wall = some b' ∧
        b.keys.getLast? = some lru ∧ b.table lru ≠ none ∧
        LRUCache.Get b' lru = some (b', default, false) ∧
        (∀ k' e, b.table k' = some e → k' ≠ lru →
          ∃ b'', LRUCache.Get b' k' = some (b'', b.value e, true)) ∧
        (∃ b'', LRUCache.Get b' k = some (b'', v, true)) ∧
        b'.keys = k :: b.keys.dropLast) ∧
    (∀ (c : Nat) (calls : List (Call T)) (b0 b : LRUCache T),
      NewLRUCache c = some b0 → run b0 calls = some b →
      List.Pairwise (fun k1 k2 => useStamps b0 calls 0 (fun _ => 0) k2 <
        useStamps b0 calls 0 (fun _ => 0) k1) b.keys ∧
      ∀ lru, b.keys.getLast? = some lru → ∀ k' ∈ b.keys, k' ≠ lru →
        useStamps b0 calls 0 (fun _ => 0) lru < useStamps b0 calls 0 (fun _ => 0) k') ∧
    (∀ (c : Nat) (now wall : String → Time) (q : String × T) (rest : List (String × T)),
      rest.length = c → ((q :: rest).map Prod.fst).Nodup →
      ∃ b0 b : LRUCache T, NewLRUCache c = some b0 ∧
        run b0 ((q :: rest).map fun kv => Call.SetNow kv.1 kv.2 0 (now kv.1) (wall kv.1))
          = some b ∧
        LRUCache.Get b q.1 = some (b, default, false) ∧
        ∀ kv ∈ rest, ∃ b', LRUCache.Get b kv.1 = some (b', kv.2, true)) := by
  refine ⟨?_, ?_, ?_⟩
  · intro c b k v t now wall hb hc hfull hfresh hnow hk
    obtain ⟨b', e, hv, he, h1, hinv, hinv', hr⟩ := SetNow_full hb.good hc hfull k v t now wall hk
    rw [victim_back hinv hnow hfresh] at hv
    obtain ⟨xs, hxs⟩ := List.getLast?_eq_some_iff.1 hv
    obtain ⟨e1, e2, e3, e4, e5, e6, e7⟩ := evict_effects hinv hinv' hr he hk
    have hx : e ∉ xs := by
      have := hinv.rings.nodup_left
      rw [hxs, List.nodup_append] at this
      exact fun hh => this.2.2 hh (by simp)
    refine ⟨b', b.key e, h1, ?_, by rw [e1]; simp, Get_miss e2, ?_, hinv'.Get_of_table e4 |>.imp
      (fun b'' h => by rw [h, e5]), ?_⟩
    · unfold LRUCache.keys
      rw [hxs]
      simp
    · intro k' e' hk' hne
      obtain ⟨g1, g2, -⟩ := e3 k' e' hk' hne
      obtain ⟨b'', g3⟩ := hinv'.Get_of_table g1
      exact ⟨b'', by rw [g3, g2]⟩
    · unfold LRUCache.keys
      rw [hinv'.order_eq, hxs, List.erase_append_right _ hx]
      simp only [List.erase_cons_head, List.append_nil, List.map_cons, List.map_append,
        List.map_nil, List.dropLast_concat]
      rw [hr.1, Function.update_same]
      congr 1
      apply List.map_congr_left
      intro i hi
      have hie : i ≠ e := fun hh => hx (hh ▸ hi)
      rw [Function.update_noteq hie]
  · intro c calls b0 b h0 hrun
    have hp := keys_by_stamp c calls b0 b h0 hrun
    exact ⟨hp, fun lru hl k' hk' hne => last_least _ _ lru hp hl k' hk' hne⟩
  · intro c now wall q rest hlen hnd
    exact fill_overflow c now wall q rest hlen hnd

theorem lru_eviction_witness :
    ∃ b' lru, LRUCache.SetNow demoFull "c" "vc" 0 8 8 = some b' ∧
      demoFull.keys.getLast? = some lru ∧ demoFull.table lru ≠ none ∧
      LRUCache.Get b' lru = some (b', default, false) ∧
      (∀ k' e, demoFull.table k' = some e → k' ≠ lru →
        ∃ b'', LRUCache.Get b' k' = some (b'', demoFull.value e, true)) ∧
      (∃ b'', LRUCache.Get b' "c" = some (b'', "vc", true)) ∧
      b'.keys = "c" :: demoFull.keys.dropLast :=
  lru_eviction.1 2 demoFull "c" "vc" 0 8 8 demoFull_reachable (by decide) (by decide)
    (by decide) (by decide) (by decide)

/-- C4 (expiry precedence): in a reachable full cache of capacity `c >= 1` in
which some used entry has a non-zero `expire` before `now`, `SetNow(k, v, t,
now)` with a non-zero `now`, for a key `k` that is not in the table, evicts an
entry `e` that is already expired and whose `expire` is least among the used
entries with a non-zero `expire`, wherever `e` stands in the recency list;
`Get` of its key misses afterwards and every other key that was present is
still returned with its value. -/
theorem expiry_precedence [Inhabited T] (c : Nat) (b : LRUCache T) (k : String) (v : T)
    (t now wall : Time) (hb : Reachable c b) (hc : 1 ≤ c)
    (hfull : LRUCache.Len b = LRUCache.Capacity b)
    (hexp : ∃ i ∈ b.order, b.expire i ≠ 0 ∧ b.expire i < now) (hnow : now ≠ 0)
    (hk : b.table k = none) :
    ∃ b' e, LRUCache.SetNow b k v t now wall = some b' ∧ e ∈ b.order ∧
      b.expire e ≠ 0 ∧ b.expire e < now ∧
      (∀ j ∈ b.order, b.expire j ≠ 0 → b.expire e ≤ b.expire j) ∧
      b.table (b.key e) = some e ∧
      LRUCache.Get b' (b.key e) = some (b', default, false) ∧
      (∀ k' e', b.table k' = some e' → k' ≠ b.key e →
        ∃ b'', LRUCache.Get b' k' = some (b'', b.value e', true)) ∧
      ∃ b'', LRUCache.Get b' k = some (b'', v, true) := by
  obtain ⟨b', e, hv, he, h1, hinv, hinv', hr⟩ := SetNow_full hb.good hc hfull k v t now wall hk
  obtain ⟨i, hi, hi1, hi2⟩ := hexp
  obtain ⟨f1, f2, f3, f4, f5⟩ := victim_expired wall hinv hnow hi hi1 hi2
  rw [f1] at hv
  injection hv with hv
  subst hv
  obtain ⟨e1, e2, e3, e4, e5, e6, e7⟩ := evict_effects hinv hinv' hr he hk
  refine ⟨b', _, h1, f2, f3, f4, f5, e1, Get_miss e2, ?_, ?_⟩
  · intro k' e' hk' hne
    obtain ⟨g1, g2, -⟩ := e3 k' e' hk' hne
    obtain ⟨b'', g3⟩ := hinv'.Get_of_table g1
    exact ⟨b'', by rw [g3, g2]⟩
  · obtain ⟨b'', g3⟩ := hinv'.Get_of_table e4
    exact ⟨b'', by rw [g3, e5]⟩

theorem expiry_precedence_witness :
    ∃ b' e, LRUCache.SetNow demoExpired "c" "vc" 0 8 8 = some b' ∧ e ∈ demoExpired.order ∧
      demoExpired.expire e ≠ 0 ∧ demoExpired.expire e < 8 ∧
      (∀ j ∈ demoExpired.order, demoExpired.expire j ≠ 0 →
        demoExpired.expire e ≤ demoExpired.expire j) ∧
      demoExpired.table (demoExpired.key e) = some e ∧
      LRUCache.Get b' (demoExpired.key e) = some (b', default, false) ∧
      (∀ k' e', demoExpired.table k' = some e' → k' ≠ demoExpired.key e →
        ∃ b'', LRUCache.Get b' k' = some (b'', demoExpired.value e', true)) ∧
      ∃ b'', LRUCache.Get b' "c" = some (b'', "vc", true) :=
  expiry_precedence 2 demoExpired "c" "vc" 0 8 8 demoExpired_reachable (by decide) (by decide)
    (by decide) (by decide) (by decide)

/-- C5 (exactly-one eviction): in a reachable full cache of capacity `c >= 1`,
`SetNow(k, v, t, now)` for a key `k` that is not in the table leaves `Len()`
unchanged, makes `Get(k)` return `(v, true)`, and there is one key `gone` that
was present and now misses, while every other key that was present is still
returned with its value. -/
theorem evicts_exactly_one [Inhabited T] (c : Nat) (b : LRUCache T) (k : String) (v : T)
    (t now wall : Time) (hb : Reachable c b) (hc : 1 ≤ c)
    (hfull : LRUCache.Len b = LRUCache.Capacity b) (hk : b.table k = none) :
    ∃ b' gone, LRUCache.SetNow b k v t now wall = some b' ∧
      LRUCache.Len b' = LRUCache.Len b ∧
      (∃ b'', LRUCache.Get b' k = some (b'', v, true)) ∧
      b.table gone ≠ none ∧ LRUCache.Get b' gone = some (b', default, false) ∧
      ∀ k' e', b.table k' = some e' → k' ≠ gone →
        ∃ b'', LRUCache.Get b' k' = some (b'', b.value e', true) := by
  obtain ⟨b', e, hv, he, h1, hinv, hinv', hr⟩ := SetNow_full hb.good hc hfull k v t now wall hk
  obtain ⟨e1, e2, e3, e4, e5, e6, e7⟩ := evict_effects hinv hinv' hr he hk
  refine ⟨b', b.key e, h1, e7, ?_, by rw [e1]; simp, Get_miss e2, ?_⟩
  · obtain ⟨b'', g3⟩ := hinv'.Get_of_table e4
    exact ⟨b'', by rw [g3, e5]⟩
  · intro k' e' hk' hne
    obtain ⟨g1, g2, -⟩ := e3 k' e' hk' hne
    obtain ⟨b'', g3⟩ := hinv'.Get_of_table g1
    exact ⟨b'', by rw [g3, g2]⟩

theorem evicts_exactly_one_witness :
    ∃ b' gone, LRUCache.SetNow demoFull "c" "vc" 0 0 8 = some b' ∧
      LRUCache.Len b' = LRUCache.Len demoFull ∧
      (∃ b'', LRUCache.Get b' "c" = some (b'', "vc", true)) ∧
      demoFull.table gone ≠ none ∧ LRUCache.Get b' gone = some (b', default, false) ∧
      ∀ k' e', demoFull.table k' = some e' → k' ≠ gone →
        ∃ b'', LRUCache.Get b' k' = some (b'', demoFull.value e', true) :=
  evicts_exactly_one 2 demoFull "c" "vc" 0 0 8 demoFull_reachable (by decide) (by decide)
    (by decide)

/-- C6 (Get marks most-recently-used): in a reachable state, `Get(k)` of a key
of the table returns `(value, true)` whatever its `expire` is, and moves the
entry to the front of the recency list: the other entries keep their relative
order, and every key, value, expire, the table, the heap, the heap indices and
`Len()` are unchanged.  `Get(k)` of a key that is not in the table returns
`(zero value, false)` and leaves the state unchanged. -/
theorem get_marks_mru [Inhabited T] (c : Nat) (b : LRUCache T) (k : String)
    (hb : Reachable c b) :
    match b.table k with
    | some e =>
      ∃ b', LRUCache.Get b k = some (b', b.value e, true) ∧
        b'.order = e :: b.order.erase e ∧ b'.key = b.key ∧ b'.value = b.value ∧
        b'.expire = b.expire ∧ b'.table = b.table ∧ b'.priorityQueue = b.priorityQueue ∧
        b'.index = b.index ∧ LRUCache.Len b' = LRUCache.Len b
    | none => LRUCache.Get b k = some (b, default, false) := by
  cases hk : b.table k with
  | none => exact Get_miss hk
  | some e =>
    obtain ⟨hinv, -, -⟩ := hb.good.inv
    obtain ⟨b', h1, h2, h3⟩ := Get_hit hinv hk
    obtain ⟨g1, g2, g3, g4, g5, g6, g7, g8⟩ := h3
    refine ⟨b', h1, h2.order_eq, g1, g2, g3, g6, g7, g4, ?_⟩
    rw [h2.Len_eq, hinv.Len_eq, length_cons_erase ((hinv.table k e).1 hk).1]

theorem get_marks_mru_witness :
    (∃ b', LRUCache.Get demoExpired "a" = some (b', "va", true) ∧
      b'.order = 0 :: demoExpired.order.erase 0 ∧ b'.key = demoExpired.key ∧
      b'.value = demoExpired.value ∧ b'.expire = demoExpired.expire ∧
      b'.table = demoExpired.table ∧ b'.priorityQueue = demoExpired.priorityQueue ∧
      b'.index = demoExpired.index ∧ LRUCache.Len b' = LRUCache.Len demoExpired) ∧
    LRUCache.Get demoExpired "zz" = some (demoExpired, default, false) :=
  ⟨get_marks_mru 2 demoExpired "a" demoExpired_reachable,
    get_marks_mru 2 demoExpired "zz" demoExpired_reachable⟩

/-- C7 (overwrite reuses the entry): in a reachable state, `SetNow(k, v2, t2,
now)` of a key of the table leaves `Len()` unchanged, keeps every other key
that was present with its value, makes `Get(k)` return `(v2, true)` and puts
the entry of `k` at the front of the recency list. -/
theorem overwrite_reuses [Inhabited T] (c : Nat) (b : LRUCache T) (k : String) (v2 : T)
    (t2 now wall : Time) (e : Nat) (hb : Reachable c b) (hk : b.table k = some e) :
    ∃ b', LRUCache.SetNow b k v2 t2 now wall = some b' ∧
      LRUCache.Len b' = LRUCache.Len b ∧
      (∀ k' e', b.table k' = some e' → k' ≠ k →
        ∃ b'', LRUCache.Get b' k' = some (b'', b.value e', true)) ∧
      (∃ b'', LRUCache.Get b' k = some (b'', v2, true)) ∧
      b'.order = e :: b.order.erase e ∧ b'.keys.head? = some k := by
  obtain ⟨hinv, hcl, -⟩ := hb.good.inv
  obtain ⟨b', h1, h2, h3, h4⟩ := SetNow_hit hinv hcl k v2 t2 now wall hk
  obtain ⟨e1, e2, e3, e4, e5⟩ := hit_effects hinv h2 h4 hk
  refine ⟨b', h1, e5, ?_, ?_, h2.order_eq, ?_⟩
  · intro k' e' hk' hne
    obtain ⟨g1, g2, -⟩ := e1 k' e' hk' hne
    obtain ⟨b'', g3⟩ := h2.Get_of_table g1
    exact ⟨b'', by rw [g3, g2]⟩
  · obtain ⟨b'', g3⟩ := h2.Get_of_table e2
    exact ⟨b'', by rw [g3, e3]⟩
  · unfold LRUCache.keys
    rw [h2.order_eq, List.map_cons, List.head?_cons, h4.1, Function.update_same]

theorem overwrite_reuses_witness :
    ∃ b', LRUCache.SetNow demoFull "a" "new" 9 0 8 = some b' ∧
      LRUCache.Len b' = LRUCache.Len demoFull ∧
      (∀ k' e', demoFull.table k' = some e' → k' ≠ "a" →
        ∃ b'', LRUCache.Get b' k' = some (b'', demoFull.value e', true)) ∧
      (∃ b'', LRUCache.Get b' "a" = some (b'', "new", true)) ∧
      b'.order = 0 :: demoFull.order.erase 0 ∧ b'.keys.head? = some "a" :=
  overwrite_reuses 2 demoFull "a" "new" 9 0 8 0 demoFull_reachable (by decide)

/-- C8 as stated fails on a cache of capacity 0, where `SetNow` stores nothing.
After `SetNow("a", "v1", 3)` and `SetNow("a", "v2", 5)` the key `a` is absent and
`ExpireNow(10)` evicts nothing (it returns 0), although `5` is a non-zero expire
before `10`; and after `SetNow("a", "v2", time.Time{})` the key is absent after
`ExpireNow(10)` although its expire would be the sentinel.  So neither
"removed by `ExpireNow`" nor "absent after `ExpireNow`" is equivalent to
"`t2` is not zero and before `now`". -/
theorem overwrite_expiry_zero_capacity :
    LRUCache.Capacity demoZeroTTL = 0 ∧ demoZeroTTL.table "a" = none ∧
    (LRUCache.ExpireNow demoZeroTTL 10 (fun _ => 10)).map (fun r => (r.2, r.1.table "a")) =
      some (0, none) ∧
    ¬ ((demoZeroTTL.table "a" ≠ none ∧
        ((LRUCache.ExpireNow demoZeroTTL 10 (fun _ => 10)).bind fun r => r.1.table "a") = none) ↔
      ((5 : Time) ≠ 0 ∧ (5 : Time) < 10)) ∧
    ¬ ((((LRUCache.ExpireNow demoZeroNoTTL 10 (fun _ => 10)).bind fun r =>
          (LRUCache.Get r.1 "a").map fun r' => r'.2.2) = some false) ↔
      ((0 : Time) ≠ 0 ∧ (0 : Time) < 10)) := by
  decide

/-- C8, amended (overwrite refreshes expiry, for a capacity of at least one):
in a reachable state of a cache of capacity `c >= 1`, after
`SetNow(k, v1, t1, _)` and `SetNow(k, v2, t2, _)` the entry of `k` carries the
expire `t2` and is in the expiry heap exactly when `t2` is not zero; and for
every non-zero `now`, `ExpireNow(now)` evicts `k` (`Get(k)` misses) if `t2` is
not zero and before `now`, and keeps it (`Get(k)` returns `(v2, true)`)
otherwise.  The old expire `t1` plays no part. -/
theorem overwrite_refreshes_expiry [Inhabited T] (c : Nat) (b : LRUCache T) (k : String)
    (v1 v2 : T) (t1 t2 now1 wall1 now2 wall2 now : Time) (clock : Nat → Time)
    (hb : Reachable c b) (hc : 1 ≤ c) (hnow : now ≠ 0) :
    ∃ b1 b2 b3 n e, LRUCache.SetNow b k v1 t1 now1 wall1 = some b1 ∧
      LRUCache.SetNow b1 k v2 t2 now2 wall2 = some b2 ∧
      b2.table k = some e ∧ b2.expire e = t2 ∧ (e ∈ b2.priorityQueue ↔ t2 ≠ 0) ∧
      LRUCache.ExpireNow b2 now clock = some (b3, n) ∧
      ((t2 ≠ 0 ∧ t2 < now) → LRUCache.Get b3 k = some (b3, default, false)) ∧
      (¬ (t2 ≠ 0 ∧ t2 < now) → ∃ b4, LRUCache.Get b3 k = some (b4, v2, true)) := by
  obtain ⟨b1, h1, hg1, -⟩ := SetNow_good hb.good k v1 t1 now1 wall1
  obtain ⟨b2, h2, hg2, hpres⟩ := SetNow_good hg1 k v2 t2 now2 wall2
  obtain ⟨e, he1, he2, he3⟩ := hpres (by omega)
  obtain ⟨hinv, hcl, -⟩ := hg2.inv
  obtain ⟨heu, hke⟩ := (hinv.table k e).1 he1
  obtain ⟨b3, used', free', f1, f2, f3, f4, f5, f6, f7, f8, f9⟩ := ExpireNow_spec hinv hcl now clock
  have hmem := f9 hnow e heu
  rw [he3] at hmem
  refine ⟨b1, b2, b3, _, e, h1, h2, he1, he3, ?_, f1, ?_, ?_⟩
  · rw [hinv.pqMem e, he3]
    exact ⟨fun h => h.2, fun h => ⟨heu, h⟩⟩
  · intro ht
    apply Get_miss
    cases hb3 : b3.table k with
    | none => rfl
    | some i =>
      exfalso
      obtain ⟨hi, hik⟩ := (f2.table k i).1 hb3
      rw [(f8 i hi).1] at hik
      have := hinv.key_inj (f5.subset hi) heu (hik.trans hke.symm)
      subst this
      exact (hmem.1 hi) ht
  · intro ht
    have he' : e ∈ used' := hmem.2 ht
    have htab : b3.table k = some e := (f2.table k e).2 ⟨he', by rw [(f8 e he').1]; exact hke⟩
    obtain ⟨b4, g⟩ := f2.Get_of_table htab
    exact ⟨b4, by rw [g, (f8 e he').2, he2]⟩

theorem overwrite_refreshes_expiry_witness :
    ∃ b1 b2 b3 n e, LRUCache.SetNow demoFull "a" "v1" 3 0 5 = some b1 ∧
      LRUCache.SetNow b1 "a" "v2" 0 0 5 = some b2 ∧
      b2.table "a" = some e ∧ b2.expire e = 0 ∧ (e ∈ b2.priorityQueue ↔ (0 : Time) ≠ 0) ∧
      LRUCache.ExpireNow b2 8 (fun _ => 8) = some (b3, n) ∧
      (((0 : Time) ≠ 0 ∧ (0 : Time) < 8) → LRUCache.Get b3 "a" = some (b3, default, false)) ∧
      (¬ ((0 : Time) ≠ 0 ∧ (0 : Time) < 8) → ∃ b4, LRUCache.Get b3 "a" = some (b4, "v2", true)) :=
  overwrite_refreshes_expiry 2 demoFull "a" "v1" "v2" 3 0 0 5 0 5 8 (fun _ => 8)
    demoFull_reachable (by decide) (by decide)

/-- C9 (code defect): an entry stored without TTL is stale for
`GetNotStaleNow`.  `demoSentinel` is `NewLRUCache(1)` after
`Set("a", "va", time.Time{})`: the entry of `a` has the zero `expire`, and
`GetNotStaleNow("a", now)` at an instant `now` after the zero instant returns
`("", false)` and removes the entry (`Len()` goes from 1 to 0, a following
`Get("a")` misses). -/
theorem getNotStale_evicts_sentinel_entry :
    demoSentinel.table "a" = some 0 ∧ demoSentinel.expire 0 = 0 ∧
    LRUCache.Len demoSentinel = 1 ∧
    (LRUCache.GetNotStaleNow demoSentinel "a" 1000).map
      (fun r => (r.2.1, r.2.2, LRUCache.Len r.1)) = some ("", false, 0) ∧
    ((LRUCache.GetNotStaleNow demoSentinel "a" 1000).bind fun r =>
      (LRUCache.Get r.1 "a").map fun r' => (r'.2.1, r'.2.2)) = some ("", false) := by
  decide

/-- C10 (code defect): with a positive grace period an entry that expired
longer ago than the grace period is not removed.  `demoGrace` is
`NewLRUCache(1)` with `ExpireGracePeriod = 1` after `Set("a", "va", 10)`: at
`now = 1000` the entry is expired by 990, more than the grace period, and
`GetNotStaleNow("a", 1000)` returns `("", false)` but leaves the entry in place
(`Len()` stays 1 and a following `Get("a")` returns `("va", true)`). -/
theorem getNotStale_keeps_beyond_grace :
    demoGrace.ExpireGracePeriod = 1 ∧ demoGrace.table "a" = some 0 ∧
    demoGrace.expire 0 = 10 ∧ LRUCache.Len demoGrace = 1 ∧
    (LRUCache.GetNotStaleNow demoGrace "a" 1000).map
      (fun r => (r.2.1, r.2.2, LRUCache.Len r.1)) = some ("", false, 1) ∧
    ((LRUCache.GetNotStaleNow demoGrace "a" 1000).bind fun r =>
      (LRUCache.Get r.1 "a").map fun r' => (r'.2.1, r'.2.2)) = some ("va", true) := by
  decide

/-- C11 (grace period, within): with a grace period `g > 0`, for a key `k` of
the table whose `expire` is before `now` by at most `g`
(`0 < now - expire <= g`), `GetNotStaleNow(k, now)` returns `(zero value,
false)` and the state after the call is the state before it: the entry is not
removed, `Len()` is unchanged and the recency order is not refreshed. -/
theorem grace_within_unchanged [Inhabited T] (b : LRUCache T) (k : String) (e : Nat)
    (now : Time) (hk : b.table k = some e) (hg : 0 < b.ExpireGracePeriod)
    (hwithin : 0 < now - b.expire e ∧ now - b.expire e ≤ b.ExpireGracePeriod) :
    ∃ b', LRUCache.GetNotStaleNow b k now = some (b', default, false) ∧ b' = b ∧
      b'.table k = some e ∧ LRUCache.Len b' = LRUCache.Len b ∧ b'.keys = b.keys :=
  ⟨b, GetNotStaleNow_grace hk (sub_pos.1 hwithin.1) hg, rfl, hk, rfl, rfl⟩

theorem grace_within_unchanged_witness :
    ∃ b', LRUCache.GetNotStaleNow demoGrace "a" 11 = some (b', default, false) ∧
      b' = demoGrace ∧ b'.table "a" = some 0 ∧ LRUCache.Len b' = LRUCache.Len demoGrace ∧
      b'.keys = demoGrace.keys :=
  grace_within_unchanged demoGrace "a" 0 11 (by decide) (by decide) (by decide)

/-- C12 (no grace period): in a reachable state with `ExpireGracePeriod == 0`,
for a key `k` of the table whose `expire` is not zero and is before `now`,
`GetNotStaleNow(k, now)` returns `(zero value, false)` and removes the entry:
`Len()` decreases by exactly one, a following `Get(k)` misses, and every other
key that was present is still returned with its value. -/
theorem no_grace_removes [Inhabited T] (c : Nat) (b : LRUCache T) (k : String) (e : Nat)
    (now : Time) (hb : Reachable c b) (hk : b.table k = some e)
    (hg : b.ExpireGracePeriod = 0) (hexp : b.expire e ≠ 0 ∧ b.expire e < now) :
    ∃ b', LRUCache.GetNotStaleNow b k now = some (b', default, false) ∧
      LRUCache.Len b' = LRUCache.Len b - 1 ∧
      LRUCache.Get b' k = some (b', default, false) ∧
      ∀ k' e', b.table k' = some e' → k' ≠ k →
        ∃ b'', LRUCache.Get b' k' = some (b'', b.value e', true) := by
  obtain ⟨hinv, hcl, -⟩ := hb.good.inv
  obtain ⟨he, hke⟩ := (hinv.table k e).1 hk
  obtain ⟨b', h1, h2⟩ := GetNotStaleNow_purge hinv hk hexp.2 (Or.inl hg)
  obtain ⟨b1, r1, r2, -, r4, -, -, r7, -⟩ := removeEntry_spec hinv he
  rw [h2] at r1
  injection r1 with r1
  subst r1
  refine ⟨b', h1, ?_, ?_, ?_⟩
  · rw [r2.Len_eq, hinv.Len_eq, ← length_cons_erase he]
    simp
  · apply Get_miss
    rw [r7, hke, Function.update_same]
  · intro k' e' hk' hne
    obtain ⟨he', hke'⟩ := (hinv.table k' e').1 hk'
    have hee : e' ≠ e := fun hh => hne (by rw [← hke', hh, hke])
    have htab : b'.table k' = some e' := by
      rw [r7, hke, Function.update_noteq hne]
      exact hk'
    obtain ⟨b'', g⟩ := r2.Get_of_table htab
    exact ⟨b'', by rw [g, r4, Function.update_noteq hee]⟩

theorem no_grace_removes_witness :
    ∃ b', LRUCache.GetNotStaleNow demoExpired "b" 8 = some (b', default, false) ∧
      LRUCache.Len b' = LRUCache.Len demoExpired - 1 ∧
      LRUCache.Get b' "b" = some (b', default, false) ∧
      ∀ k' e', demoExpired.table k' = some e' → k' ≠ "b" →
        ∃ b'', LRUCache.Get b' k' = some (b'', demoExpired.value e', true) :=
  no_grace_removes 2 demoExpired "b" 1 8 demoExpired_reachable (by decide) (by decide)
    (by decide)

/-- C13 (`GetNotStaleNow` on a fresh entry): in a reachable state, for a key
`k` of the table whose `expire` is not zero and not before `now`,
`GetNotStaleNow(k, now)` returns `(value, true)` and moves the entry to the
front of the recency list: the other entries keep their relative order, and
every key, value, expire, the table, the heap, the heap indices, the free list,
the grace period and `Len()` are unchanged.  For a key that is not in the
table it returns `(zero value, false)` and leaves the state unchanged. -/
theorem getNotStale_fresh_hit [Inhabited T] (c : Nat) (b : LRUCache T) (k : String)
    (now : Time) (hb : Reachable c b) :
    match b.table k with
    | some e =>
      b.expire e ≠ 0 ∧ ¬ b.expire e < now →
      ∃ b', LRUCache.GetNotStaleNow b k now = some (b', b.value e, true) ∧
        b'.order = e :: b.order.erase e ∧ b'.key = b.key ∧ b'.value = b.value ∧
        b'.expire = b.expire ∧ b'.table = b.table ∧ b'.priorityQueue = b.priorityQueue ∧
        b'.index = b.index ∧ b'.freeOrder = b.freeOrder ∧
        b'.ExpireGracePeriod = b.ExpireGracePeriod ∧ LRUCache.Len b' = LRUCache.Len b
    | none => LRUCache.GetNotStaleNow b k now = some (b, default, false) := by
  cases hk : b.table k with
  | none => exact GetNotStaleNow_miss now hk
  | some e =>
    intro hfresh
    obtain ⟨hinv, -, -⟩ := hb.good.inv
    obtain ⟨b', h1, h2, h3⟩ := GetNotStaleNow_fresh hinv hk hfresh.2
    obtain ⟨g1, g2, g3, g4, g5, g6, g7, g8⟩ := h3
    refine ⟨b', h1, h2.order_eq, g1, g2, g3, g6, g7, g4, ?_, g8, ?_⟩
    · rw [h2.freeOrder_eq, hinv.freeOrder_eq]
    · rw [h2.Len_eq, hinv.Len_eq, length_cons_erase ((hinv.table k e).1 hk).1]

theorem getNotStale_fresh_hit_witness :
    (∃ b', LRUCache.GetNotStaleNow demoExpired "b" 2 = some (b', "vb", true) ∧
      b'.order = 1 :: demoExpired.order.erase 1 ∧ b'.key = demoExpired.key ∧
      b'.value = demoExpired.value ∧ b'.expire = demoExpired.expire ∧
      b'.table = demoExpired.table ∧ b'.priorityQueue = demoExpired.priorityQueue ∧
      b'.index = demoExpired.index ∧ b'.freeOrder = demoExpired.freeOrder ∧
      b'.ExpireGracePeriod = demoExpired.ExpireGracePeriod ∧
      LRUCache.Len b' = LRUCache.Len demoExpired) ∧
    LRUCache.GetNotStaleNow demoExpired "zz" 2 = some (demoExpired, default, false) :=
  ⟨getNotStale_fresh_hit 2 demoExpired "b" 2 demoExpired_reachable (by decide),
    getNotStale_fresh_hit 2 demoExpired "zz" 2 demoExpired_reachable⟩

/-- C14 (`ExpireNow` evicts exactly the expired entries): in a reachable
state, `ExpireNow(now)` with a non-zero `now` returns the number of used
entries whose `expire` is not zero and is before `now`, and removes exactly
those entries: `Len()` decreases by the returned count, the recency list that
is left is the old one without them, their keys miss afterwards, a key that
was absent stays absent, and every key whose entry has a zero `expire` or an
`expire` not before `now` keeps its entry and is still returned with its
value. -/
theorem expireNow_exact [Inhabited T] (c : Nat) (b : LRUCache T) (now : Time)
    (clock : Nat → Time) (hb : Reachable c b) (hnow : now ≠ 0) :
    ∃ b' n, LRUCache.ExpireNow b now clock = some (b', n) ∧
      n = ((b.order.filter fun i => decide (b.expire i ≠ 0 ∧ b.expire i < now)).length : Int) ∧
      LRUCache.Len b' = LRUCache.Len b - n ∧
      b'.order = b.order.filter (fun i => !decide (b.expire i ≠ 0 ∧ b.expire i < now)) ∧
      (∀ k e, b.table k = some e → b.expire e ≠ 0 ∧ b.expire e < now →
        LRUCache.Get b' k = some (b', default, false)) ∧
      (∀ k, b.table k = none → b'.table k = none) ∧
      (∀ k e, b.table k = some e → ¬ (b.expire e ≠ 0 ∧ b.expire e < now) →
        b'.table k = some e ∧ b'.expire e = b.expire e ∧
        ∃ b'', LRUCache.Get b' k = some (b'', b.value e, true)) := by
  obtain ⟨hinv, hcl, -⟩ := hb.good.inv
  obtain ⟨b', used', free', f1, f2, f3, f4, f5, f6, f7, f8, f9⟩ :=
    ExpireNow_spec hinv hcl now clock
  have hfil : used' = b.order.filter
      (fun i => !decide (b.expire i ≠ 0 ∧ b.expire i < now)) := by
    apply sublist_eq_filter _ f5 hinv.rings.nodup_left
    intro x hx
    rw [f9 hnow x hx]
    simp only [Bool.not_eq_true', decide_eq_false_iff_not]
  have hlen := List.length_eq_length_filter_add (l := b.order)
    (fun i => decide (b.expire i ≠ 0 ∧ b.expire i < now))
  have hcount : b.order.length - used'.length =
      (b.order.filter fun i => decide (b.expire i ≠ 0 ∧ b.expire i < now)).length := by
    rw [hfil]
    omega
  have hgone : ∀ k e, b'.table k = some e → b.table k = some e ∧ e ∈ used' := by
    intro k e hk
    obtain ⟨he, hke⟩ := (f2.table k e).1 hk
    exact ⟨(hinv.table k e).2 ⟨f5.subset he, by rw [← (f8 e he).1]; exact hke⟩, he⟩
  refine ⟨b', _, f1, by rw [hcount], ?_, by rw [f2.order_eq]; exact hfil, ?_, ?_, ?_⟩
  · rw [f2.Len_eq, hinv.Len_eq]
    have := f5.length_le
    omega
  · intro k e hk hexp
    apply Get_miss
    cases hb3 : b'.table k with
    | none => rfl
    | some i =>
      exfalso
      obtain ⟨h1, h2⟩ := hgone k i hb3
      rw [hk] at h1
      injection h1 with h1
      subst h1
      exact (f9 hnow e ((hinv.table k e).1 hk).1).1 h2 hexp
  · intro k hk
    cases hb3 : b'.table k with
    | none => rfl
    | some i =>
      rw [(hgone k i hb3).1] at hk
      cases hk
  · intro k e hk hkeep
    obtain ⟨he, hke⟩ := (hinv.table k e).1 hk
    have he' : e ∈ used' := (f9 hnow e he).2 hkeep
    have htab : b'.table k = some e := (f2.table k e).2 ⟨he', by rw [(f8 e he').1]; exact hke⟩
    obtain ⟨b'', g⟩ := f2.Get_of_table htab
    exact ⟨htab, by rw [f6], b'', by rw [g, (f8 e he').2]⟩

theorem expireNow_exact_witness :
    ∃ b' n, LRUCache.ExpireNow demoExpired 8 (fun _ => 8) = some (b', n) ∧
      n = ((demoExpired.order.filter fun i =>
        decide (demoExpired.expire i ≠ 0 ∧ demoExpired.expire i < 8)).length : Int) ∧
      LRUCache.Len b' = LRUCache.Len demoExpired - n ∧
      b'.order = demoExpired.order.filter
        (fun i => !decide (demoExpired.expire i ≠ 0 ∧ demoExpired.expire i < 8)) ∧
      (∀ k e, demoExpired.table k = some e →
        demoExpired.expire e ≠ 0 ∧ demoExpired.expire e < 8 →
        LRUCache.Get b' k = some (b', default, false)) ∧
      (∀ k, demoExpired.table k = none → b'.table k = none) ∧
      (∀ k e, demoExpired.table k = some e →
        ¬ (demoExpired.expire e ≠ 0 ∧ demoExpired.expire e < 8) →
        b'.table k = some e ∧ b'.expire e = demoExpired.expire e ∧
        ∃ b'', LRUCache.Get b' k = some (b'', demoExpired.value e, true)) :=
  expireNow_exact 2 demoExpired 8 (fun _ => 8) demoExpired_reachable (by decide)

/-- C15 (idempotent clear): in a reachable state `Clear()` returns the `Len()`
held just before the call, which counts every used entry, with or without TTL;
afterwards `Len()` is 0, the table is empty and every `Get` misses, while
`Capacity()` is unchanged; and a `Clear()` repeated at once returns 0. -/
theorem clear_idempotent [Inhabited T] (c : Nat) (b : LRUCache T) (hb : Reachable c b) :
    ∃ b' b'', LRUCache.Clear b = some (b', LRUCache.Len b) ∧
      LRUCache.Len b = (b.order.length : Int) ∧ LRUCache.Len b' = 0 ∧
      (∀ k, b'.table k = none ∧ LRUCache.Get b' k = some (b', default, false)) ∧
      LRUCache.Capacity b' = LRUCache.Capacity b ∧
      LRUCache.Clear b' = some (b'', 0) ∧ LRUCache.Len b'' = 0 := by
  obtain ⟨hinv, hcl, -⟩ := hb.good.inv
  obtain ⟨b', free', h1, h2, h3, h4, -⟩ := Clear_spec hinv hcl
  obtain ⟨b'', free'', g1, g2, -, -, -⟩ := Clear_spec h2 h3
  have htab : ∀ k, b'.table k = none := by
    intro k
    cases hk : b'.table k with
    | none => rfl
    | some i => cases ((h2.table k i).1 hk).1
  refine ⟨b', b'', by rw [h1, hinv.Len_eq], hinv.Len_eq, by rw [h2.Len_eq]; rfl,
    fun k => ⟨htab k, Get_miss (htab k)⟩, ?_, g1, by rw [g2.Len_eq]; rfl⟩
  rw [h2.Capacity_eq, hinv.Capacity_eq, List.length_nil, Nat.zero_add, h4]

theorem clear_idempotent_witness :
    ∃ b' b'', LRUCache.Clear demoExpired = some (b', LRUCache.Len demoExpired) ∧
      LRUCache.Len demoExpired = (demoExpired.order.length : Int) ∧ LRUCache.Len b' = 0 ∧
      (∀ k, b'.table k = none ∧ LRUCache.Get b' k = some (b', default, false)) ∧
      LRUCache.Capacity b' = LRUCache.Capacity demoExpired ∧
      LRUCache.Clear b' = some (b'', 0) ∧ LRUCache.Len b'' = 0 :=
  clear_idempotent 2 demoExpired demoExpired_reachable

/-- C16 (`Del` removes and returns): in a reachable state, `Del(k)` of a key of
the table returns `(stored value, true)`; afterwards `Get(k)` misses, `Len()`
has decreased by exactly one, the freed slot is at the front of the free list
with its key and value cleared, so that the next `SetNow` of a new key takes
it; every other key that was present keeps its entry and its value, and the
recency list is the old one without `k`.  For a key that is not in the table
`Del` returns `(zero value, false)` and leaves the state unchanged. -/
theorem del_removes [Inhabited T] (c : Nat) (b : LRUCache T) (k : String)
    (hb : Reachable c b) :
    match b.table k with
    | some e =>
      ∃ b', LRUCache.Del b k = some (b', b.value e, true) ∧
        LRUCache.Get b' k = some (b', default, false) ∧
        LRUCache.Len b' = LRUCache.Len b - 1 ∧
        b'.freeOrder = e :: b.freeOrder ∧ b'.key e = "" ∧ b'.value e = default ∧
        (∀ k2 v t now wall, b'.table k2 = none →
          ∃ b2, LRUCache.SetNow b' k2 v t now wall = some b2 ∧ b2.table k2 = some e) ∧
        (∀ k' e', b.table k' = some e' → k' ≠ k →
          b'.table k' = some e' ∧ ∃ b'', LRUCache.Get b' k' = some (b'', b.value e', true)) ∧
        b'.order = b.order.erase e ∧ b'.keys = b.keys.erase k
    | none => LRUCache.Del b k = some (b, default, false) := by
  cases hk : b.table k with
  | none => exact Del_miss hk
  | some e =>
    obtain ⟨hinv, hcl, -⟩ := hb.good.inv
    obtain ⟨he, hke⟩ := (hinv.table k e).1 hk
    obtain ⟨b', h1, h2⟩ := Del_hit hinv hk
    obtain ⟨b1, r1, r2, r3, r4, -, -, r7, r8⟩ := removeEntry_spec hinv he
    rw [h2] at r1
    injection r1 with r1
    subst r1
    have hne : e ∉ b.order.erase e := fun hh =>
      (List.Nodup.mem_erase_iff hinv.rings.nodup_left).1 hh |>.1 rfl
    refine ⟨b', h1, ?_, ?_, r2.freeOrder_eq.trans (by rw [hinv.freeOrder_eq]), ?_, ?_, ?_, ?_,
      r2.order_eq, ?_⟩
    · apply Get_miss
      rw [r7, hke, Function.update_same]
    · rw [r2.Len_eq, hinv.Len_eq, ← length_cons_erase he]
      simp
    · rw [r3, Function.update_same]
    · rw [r4, Function.update_same]
    · intro k2 v t now wall hk2
      obtain ⟨b2, g1, g2, -, g4⟩ := SetNow_free r2 (r8 hcl) k2 v t now wall hk2
      refine ⟨b2, g1, (g2.table k2 e).2 ⟨List.mem_cons_self _ _, ?_⟩⟩
      rw [g4.1, Function.update_same]
    · intro k' e' hk' hkne
      obtain ⟨he', hke'⟩ := (hinv.table k' e').1 hk'
      have hee : e' ≠ e := fun hh => hkne (by rw [← hke', hh, hke])
      have htab : b'.table k' = some e' := by
        rw [r7, hke, Function.update_noteq hkne]
        exact hk'
      obtain ⟨b'', g⟩ := r2.Get_of_table htab
      exact ⟨htab, b'', by rw [g, r4, Function.update_noteq hee]⟩
    · unfold LRUCache.keys
      rw [r2.order_eq, ← hke, ← map_erase_of_injOn b.key e b.order
        (fun x hx hxe => hinv.key_inj hx he hxe)]
      apply List.map_congr_left
      intro i hi
      have hie : i ≠ e := fun hh => hne (hh ▸ hi)
      rw [r3, Function.update_noteq hie]

theorem del_removes_witness :
    (∃ b', LRUCache.Del demoExpired "a" = some (b', "va", true) ∧
      LRUCache.Get b' "a" = some (b', default, false) ∧
      LRUCache.Len b' = LRUCache.Len demoExpired - 1 ∧
      b'.freeOrder = 0 :: demoExpired.freeOrder ∧ b'.key 0 = "" ∧ b'.value 0 = default ∧
      (∀ k2 v t now wall, b'.table k2 = none →
        ∃ b2, LRUCache.SetNow b' k2 v t now wall = some b2 ∧ b2.table k2 = some 0) ∧
      (∀ k' e', demoExpired.table k' = some e' → k' ≠ "a" →
        b'.table k' = some e' ∧
        ∃ b'', LRUCache.Get b' k' = some (b'', demoExpired.value e', true)) ∧
      b'.order = demoExpired.order.erase 0 ∧ b'.keys = demoExpired.keys.erase "a") ∧
    LRUCache.Del demoExpired "zz" = some (demoExpired, default, false) :=
  ⟨del_removes 2 demoExpired "a" demoExpired_reachable,
    del_removes 2 demoExpired "zz" demoExpired_reachable⟩

/-- C17 (`GetQuiet` is a pure lookup): on `LRUCache`, `GetQuiet(k)` returns
`(value, true)` when `k` is in the table and `(zero value, false)` when it is
not, and the state after the call is the state before it, recency order
included.  So every sequence of calls, and in particular a `SetNow` that has
to evict, runs after a `GetQuiet` exactly as it runs without it, and
`freeSomeEntry` picks the same victim. -/
theorem getQuiet_pure [Inhabited T] (b : LRUCache T) (k : String) :
    (match b.table k with
      | some e => LRUCache.GetQuiet b k = some (b, b.value e, true)
      | none => LRUCache.GetQuiet b k = some (b, default, false)) ∧
    ((LRUCache.GetQuiet b k).map fun r => r.1.keys) = some b.keys ∧
    (∀ calls, run b (Call.GetQuiet k :: calls) = run b calls) ∧
    (∀ k' v t now wall, ((LRUCache.GetQuiet b k).bind fun r =>
      LRUCache.SetNow r.1 k' v t now wall) = LRUCache.SetNow b k' v t now wall) ∧
    (∀ now wall, ((LRUCache.GetQuiet b k).bind fun r =>
      LRUCache.freeSomeEntry r.1 now wall) = LRUCache.freeSomeEntry b now wall) := by
  cases hk : b.table k with
  | none =>
    have h := GetQuiet_miss hk
    refine ⟨h, by rw [h]; rfl, fun calls => ?_, fun _ _ _ _ _ => by rw [h]; rfl,
      fun _ _ => by rw [h]; rfl⟩
    show (Call.exec b (Call.GetQuiet k)).bind _ = _
    show ((LRUCache.GetQuiet b k).map _).bind _ = _
    rw [h]
    rfl
  | some e =>
    have h := GetQuiet_hit hk
    refine ⟨h, by rw [h]; rfl, fun calls => ?_, fun _ _ _ _ _ => by rw [h]; rfl,
      fun _ _ => by rw [h]; rfl⟩
    show (Call.exec b (Call.GetQuiet k)).bind _ = _
    show ((LRUCache.GetQuiet b k).map _).bind _ = _
    rw [h]
    rfl

/-- C18 (code defect): `GetQuiet` of `MultiLRUCache` refreshes the recency
order.  `demoMulti` is `NewMultiLRUCache(2, 2)` after `Set("a")` and
`Set("b")`; both keys go to shard 1, whose recency order is `b, a`.  The
`GetQuiet("a")` of the shard returns `("va", true)` and leaves the order
`b, a`; the `GetQuiet("a")` of the `MultiLRUCache` returns the same result but
leaves shard 1 in the order `a, b`.  A `SetNow("c")` that follows then evicts
`b`, where without the `GetQuiet` it evicts `a`. -/
theorem multi_getQuiet_refreshes_recency :
    demoMulti.buckets = 2 ∧ demoMulti.keys = [[], ["b", "a"]] ∧
    MultiLRUCache.bucketNo demoMulti "a" = some 1 ∧
    ((MultiLRUCache.bucket demoMulti "a").bind fun ic =>
      (LRUCache.GetQuiet ic.2 "a").map fun r => (r.2, r.1.keys)) =
      some (("va", true), ["b", "a"]) ∧
    ((MultiLRUCache.GetQuiet demoMulti "a").map fun r => (r.2, r.1.keys)) =
      some (("va", true), [[], ["a", "b"]]) ∧
    ((MultiLRUCache.SetNow demoMulti "c" "vc" 0 0 5).map fun m => m.keys) =
      some [[], ["c", "b"]] ∧
    ((MultiLRUCache.GetQuiet demoMulti "a").bind fun r =>
      (MultiLRUCache.SetNow r.1 "c" "vc" 0 0 5).map fun m => m.keys) =
      some [[], ["c", "a"]] := by
  decide

/-- C19 (code defect): `GetStaleNow` reports an entry that never expires as
expired.  `demoSentinel` is `NewLRUCache(1)` after `Set("a", "va", time.Time{})`:
the entry of `a` has the zero `expire`, the never-expires sentinel, and is not
in the expiry heap.  `GetStaleNow("a", 1000)` returns `("va", true, true)`:
`expired` is true although `now` is past no expiry time of the entry.  The
sibling paths do not take the entry for expired: `ExpireNow(1000)` evicts
nothing and returns 0.  The rest of the claim holds there: the entry is not
removed (`Len()` stays 1 and `Get("a")` still returns `("va", true)`).  For an
entry with a TTL the flag is right: in `demoExpired` the key `b` has the
expire 3, and `expired` is false at `now = 2` and true at `now = 8`. -/
theorem getStale_reports_sentinel_expired :
    demoSentinel.table "a" = some 0 ∧ demoSentinel.expire 0 = 0 ∧
    demoSentinel.priorityQueue = [] ∧
    (LRUCache.GetStaleNow demoSentinel "a" 1000).map
      (fun r => (r.2.1, r.2.2.1, r.2.2.2, LRUCache.Len r.1)) = some ("va", true, true, 1) ∧
    ((LRUCache.GetStaleNow demoSentinel "a" 1000).bind fun r =>
      (LRUCache.Get r.1 "a").map fun r' => (r'.2.1, r'.2.2)) = some ("va", true) ∧
    (LRUCache.ExpireNow demoSentinel 1000 (fun _ => 1000)).map
      (fun r => (r.2, LRUCache.Len r.1)) = some (0, 1) ∧
    (LRUCache.GetStaleNow demoExpired "b" 2).map
      (fun r => (r.2.1, r.2.2.1, r.2.2.2)) = some ("vb", true, false) ∧
    (LRUCache.GetStaleNow demoExpired "b" 8).map
      (fun r => (r.2.1, r.2.2.1, r.2.2.2)) = some ("vb", true, true) := by
  decide

/-- C20 (zero capacity): after every sequence of calls of public methods on
`NewLRUCache(0)`, none of which panics, `SetNow` and `Set` return without
storing anything (the state is unchanged), every lookup (`Get`, `GetQuiet`,
`GetNotStaleNow`, `GetStaleNow`, `Del`) misses and leaves the state unchanged,
`Len()` and `Capacity()` are 0, and `Clear()` and `ExpireNow(now)` return 0. -/
theorem zero_capacity [Inhabited T] (calls : List (Call T)) :
    ∃ b0 b : LRUCache T, NewLRUCache 0 = some b0 ∧ run b0 calls = some b ∧
      (∀ k v t now wall, LRUCache.SetNow b k v t now wall = some b) ∧
      (∀ k v t wall, LRUCache.Set b k v t wall = some b) ∧
      (∀ k, LRUCache.Get b k = some (b, default, false)) ∧
      (∀ k, LRUCache.GetQuiet b k = some (b, default, false)) ∧
      (∀ k now, LRUCache.GetNotStaleNow b k now = some (b, default, false)) ∧
      (∀ k now, LRUCache.GetStaleNow b k now = some (b, default, false, false)) ∧
      (∀ k, LRUCache.Del b k = some (b, default, false)) ∧
      LRUCache.Len b = 0 ∧ LRUCache.Capacity b = 0 ∧
      LRUCache.Clear b = some (b, 0) ∧
      (∀ now clock, LRUCache.ExpireNow b now clock = some (b, 0)) := by
  obtain ⟨b0, h0, hg0⟩ := NewLRUCache_good (T := T) 0
  obtain ⟨b, h1, used, free, hinv, -, hlen⟩ := run_good calls b0 hg0
  have hu : used = [] := List.length_eq_zero.1 (by omega)
  have hf : free = [] := List.length_eq_zero.1 (by omega)
  subst hu
  subst hf
  refine ⟨b0, b, h0, h1, fun k v t now wall => SetNow_zero hinv k v t now wall,
    fun k v t wall => SetNow_zero hinv k v t _ wall, fun k => Get_miss (hinv.table_nil k),
    fun k => GetQuiet_miss (hinv.table_nil k),
    fun k now => GetNotStaleNow_miss now (hinv.table_nil k),
    fun k now => GetStaleNow_miss now (hinv.table_nil k), fun k => Del_miss (hinv.table_nil k),
    by rw [hinv.Len_eq]; rfl, by rw [hinv.Capacity_eq]; rfl, Clear_empty hinv,
    fun now clock => ExpireNow_empty hinv now clock⟩

/-- C21 (sharded routing): in every reachable state `m` of a cache built by
`NewMultiLRUCache(N, c)` with `N >= 1`, `bucketNo(k)` is the checksum of the key
modulo `N`, a function of the key alone, and is less than `N`.  Every per-key
method called on `k` returns; it runs one method of the shard `bucketNo(k)`
(the method of the same name, except that `GetQuiet` runs `Get`) and stores the
new state of that shard: `buckets`, the number of shards and every other shard
are unchanged.  Hence with `c >= 1`, `SetNow(k, v, t, now)` followed by `Get(k)`
on the `MultiLRUCache` returns `(v, true)`. -/
theorem sharded_routing [Inhabited T] (N c : Nat) (m : MultiLRUCache T) (k : String)
    (hN : 1 ≤ N) (hm : MultiReachable N c m) :
    (∃ i, i = ChecksumIEEE (keyBytes k) % N ∧ i < N ∧ MultiLRUCache.bucketNo m k = some i ∧
      ∀ mc call, MultiCall.route mc = some (k, call) →
        ∃ s s' m', m.cache[i]? = some s ∧ Call.exec s call = some s' ∧
          MultiCall.exec m mc = some m' ∧ m'.cache = m.cache.set i s' ∧
          m'.buckets = m.buckets ∧ m'.cache.length = m.cache.length ∧
          MultiLRUCache.bucketNo m' k = some i ∧
          ∀ j, j ≠ i → m'.cache[j]? = m.cache[j]?) ∧
    (1 ≤ c → ∀ (v : T) (t now wall : Time), ∃ m' m'',
      MultiLRUCache.SetNow m k v t now wall = some m' ∧
      MultiLRUCache.Get m' k = some (m'', v, true)) := by
  have hg := hm.multi_good
  obtain ⟨s, b1, b2, b3, b4, b5⟩ := bucket_spec hg hN k
  refine ⟨⟨_, rfl, b2, b1, ?_⟩, ?_⟩
  · intro mc call hr
    obtain ⟨s1, s', g1, g2, -, -, g5, g6⟩ := exec_key_good hg hN hr
    refine ⟨s1, s', _, g1, g2, g5, rfl, rfl, ?_, ?_, ?_⟩
    · show (m.cache.set _ s').length = _
      rw [List.length_set]
    · exact (bucket_spec g6 hN k).choose_spec.1
    · intro j hj
      show (m.cache.set _ s')[j]? = _
      rw [List.getElem?_set_ne (Ne.symm hj)]
  · intro hc v t now wall
    obtain ⟨s', e1, e2, e3⟩ := SetNow_good b5 k v t now wall
    obtain ⟨e, he1, he2, -⟩ := e3 (by omega)
    obtain ⟨s1, s1', g1, g2, -, -, g5, g6⟩ := exec_key_good hg hN
      (rfl : MultiCall.route (MultiCall.SetNow k v t now wall) =
        some (k, Call.SetNow k v t now wall))
    rw [b3] at g1
    injection g1 with g1
    subst g1
    have g2' : LRUCache.SetNow s k v t now wall = some s1' := g2
    rw [e1] at g2'
    injection g2' with g2'
    subst g2'
    obtain ⟨s2, c1, c2, c3, c4, c5⟩ := bucket_spec g6 hN k
    have hs2 : s2 = s' := by
      have h1 : (m.cache.set (ChecksumIEEE (keyBytes k) % N) s')[ChecksumIEEE (keyBytes k) % N]?
          = some s' := List.getElem?_set_self (by rw [hg.2.1]; exact b2)
      have h2 : (m.cache.set (ChecksumIEEE (keyBytes k) % N) s')[ChecksumIEEE (keyBytes k) % N]?
          = some s2 := c3
      rw [h1] at h2
      exact (Option.some.inj h2).symm
    subst hs2
    obtain ⟨hinv, -, -⟩ := e2.inv
    obtain ⟨s3, hget⟩ := hinv.Get_of_table he1
    have hG : ∃ m'', MultiLRUCache.Get
        (MultiLRUCache.mk m.buckets (m.cache.set (ChecksumIEEE (keyBytes k) % N) s2)) k =
        some (m'', v, true) := by
      unfold MultiLRUCache.Get
      simp only [Option.bind_eq_bind, c4, Option.some_bind, hget, he2]
      exact ⟨_, rfl⟩
    obtain ⟨m'', hG⟩ := hG
    exact ⟨_, m'', g5, hG⟩

theorem sharded_routing_witness :
    (∃ i, i = ChecksumIEEE (keyBytes "a") % 2 ∧ i < 2 ∧
      MultiLRUCache.bucketNo demoShards "a" = some i ∧
      ∀ mc call, MultiCall.route mc = some ("a", call) →
        ∃ s s' m', demoShards.cache[i]? = some s ∧ Call.exec s call = some s' ∧
          MultiCall.exec demoShards mc = some m' ∧ m'.cache = demoShards.cache.set i s' ∧
          m'.buckets = demoShards.buckets ∧ m'.cache.length = demoShards.cache.length ∧
          MultiLRUCache.bucketNo m' "a" = some i ∧
          ∀ j, j ≠ i → m'.cache[j]? = demoShards.cache[j]?) ∧
    (1 ≤ 2 → ∀ (v : String) (t now wall : Time), ∃ m' m'',
      MultiLRUCache.SetNow demoShards "a" v t now wall = some m' ∧
      MultiLRUCache.Get m' "a" = some (m'', v, true)) :=
  sharded_routing 2 2 demoShards "a" (by decide) (multiAfter_reachable 2 2 (by decide) _)

/-- C22 (sharded aggregates): in every reachable state of a cache built by
`NewMultiLRUCache(N, c)` there are `N` shards, each of capacity `c` and with
`0 <= Len() <= c`; `Capacity()` is `N * c`, and `Len()` is the sum of the
`Len()` of the shards, so that `0 <= Len() <= N * c`. -/
theorem sharded_aggregates [Inhabited T] (N c : Nat) (m : MultiLRUCache T)
    (hm : MultiReachable N c m) :
    m.cache.length = N ∧
    (∀ s ∈ m.cache, LRUCache.Capacity s = (c : Int) ∧ 0 ≤ LRUCache.Len s ∧
      LRUCache.Len s ≤ (c : Int)) ∧
    MultiLRUCache.Capacity m = ((N * c : Nat) : Int) ∧
    MultiLRUCache.Len m = (m.cache.map LRUCache.Len).sum ∧
    0 ≤ MultiLRUCache.Len m ∧ MultiLRUCache.Len m ≤ ((N * c : Nat) : Int) := by
  obtain ⟨-, h2, h3⟩ := hm.multi_good
  have hs : ∀ s ∈ m.cache, LRUCache.Capacity s = (c : Int) ∧ 0 ≤ LRUCache.Len s ∧
      LRUCache.Len s ≤ (c : Int) := by
    intro s hs
    obtain ⟨hinv, -, hlen⟩ := (h3 s hs).inv
    rw [hinv.Capacity_eq, hinv.Len_eq, hlen]
    refine ⟨rfl, by omega, ?_⟩
    exact_mod_cast (by omega : s.order.length ≤ c)
  have hL : MultiLRUCache.Len m = (m.cache.map LRUCache.Len).sum := by
    unfold MultiLRUCache.Len
    rw [foldl_add_sum, zero_add]
  have hb := sum_le_of_forall LRUCache.Len (c : Int) m.cache fun s h => (hs s h).2
  refine ⟨h2, hs, ?_, hL, by rw [hL]; exact hb.1, ?_⟩
  · unfold MultiLRUCache.Capacity
    rw [foldl_add_sum, zero_add, sum_const_of_forall _ (c : Int) _ fun s h => (hs s h).1, h2]
    push_cast
    rfl
  · rw [hL]
    have := hb.2
    rw [h2] at this
    push_cast
    exact this

theorem sharded_aggregates_witness :
    demoShards.cache.length = 2 ∧
    (∀ s ∈ demoShards.cache, LRUCache.Capacity s = ((2 : Nat) : Int) ∧ 0 ≤ LRUCache.Len s ∧
      LRUCache.Len s ≤ ((2 : Nat) : Int)) ∧
    MultiLRUCache.Capacity demoShards = ((2 * 2 : Nat) : Int) ∧
    MultiLRUCache.Len demoShards = (demoShards.cache.map LRUCache.Len).sum ∧
    0 ≤ MultiLRUCache.Len demoShards ∧ MultiLRUCache.Len demoShards ≤ ((2 * 2 : Nat) : Int) :=
  sharded_aggregates 2 2 demoShards (multiAfter_reachable 2 2 (by decide) _)

/-- C24 (expiry heap invariant): after every sequence of calls of public
methods on `NewLRUCache(c)`, none of which panics, the priority queue holds
exactly the used entries whose `expire` is not zero, each exactly once; every
member records its position in `index`; no child expires before its parent
(the children of position `i` are the positions `2i + 1` and `2i + 2`); and so
`priorityQueue[0]` is a used entry whose `expire` is least among the used
entries with a non-zero `expire`. -/
theorem expiry_heap_invariant [Inhabited T] (c : Nat) (calls : List (Call T)) :
    ∃ b0 b : LRUCache T, NewLRUCache c = some b0 ∧ run b0 calls = some b ∧
      (∀ e, e ∈ b.priorityQueue ↔ (e ∈ b.order ∧ b.expire e ≠ 0)) ∧
      b.priorityQueue.Nodup ∧
      (∀ e, b.priorityQueue.count e = if e ∈ b.order ∧ b.expire e ≠ 0 then 1 else 0) ∧
      (∀ j, j < b.priorityQueue.length → b.index (entryAt b j) = (j : Int)) ∧
      (∀ i j, 2 * i + 1 ≤ j → j ≤ 2 * i + 2 → j < b.priorityQueue.length →
        ¬ expireAt b j < expireAt b i ∧
        priorityQueue.Less b (j : Int) (i : Int) = some false) ∧
      (b.priorityQueue ≠ [] → priorityQueue.at b 0 = some (entryAt b 0) ∧
        entryAt b 0 ∈ b.order ∧ expireAt b 0 ≠ 0 ∧
        ∀ e ∈ b.order, b.expire e ≠ 0 → expireAt b 0 ≤ b.expire e) := by
  obtain ⟨b0, h1, h2⟩ := NewLRUCache_good (T := T) c
  obtain ⟨b, g1, hg⟩ := run_good calls b0 h2
  obtain ⟨hinv, -, -⟩ := hg.inv
  have hedge : ∀ i j, 2 * i + 1 ≤ j → j ≤ 2 * i + 2 → j < b.priorityQueue.length →
      expireAt b i ≤ expireAt b j := by
    intro i j h1 h2 h3
    have := hinv.heap j (by omega) h3
    unfold HeapEdge at this
    rwa [show (j - 1) / 2 = i by omega] at this
  refine ⟨b0, b, h1, g1, hinv.pqMem, hinv.index.nodup, ?_, hinv.index, ?_, ?_⟩
  · intro e
    by_cases he : e ∈ b.order ∧ b.expire e ≠ 0
    · rw [if_pos he]
      exact List.count_eq_one_of_mem hinv.index.nodup ((hinv.pqMem e).2 he)
    · rw [if_neg he]
      exact List.count_eq_zero_of_not_mem fun hh => he ((hinv.pqMem e).1 hh)
  · intro i j h1 h2 h3
    have hle := hedge i j h1 h2 h3
    refine ⟨not_lt.2 hle, ?_⟩
    unfold priorityQueue.Less
    rw [at_lt b h3, at_lt b (by omega : i < b.priorityQueue.length)]
    simp only [Option.bind_eq_bind, Option.some_bind, Time.Before]
    show some (decide (expireAt b j < expireAt b i)) = some false
    rw [decide_eq_false (not_lt.2 hle)]
  · intro hne
    have hpos : 0 < b.priorityQueue.length := List.length_pos.2 hne
    have hmem := hinv.entryAt_mem hpos
    refine ⟨at_lt b hpos, hmem.1, hmem.2, fun e he hexp => hinv.inv_root_le he hexp⟩

theorem expiry_heap_invariant_witness :
    ∃ b0 b : LRUCache String, NewLRUCache 3 = some b0 ∧
      run b0 [Call.Set "a" "va" 5 1, Call.Set "b" "vb" 3 1, Call.Set "c" "vc" 0 1,
        Call.Del "b"] = some b ∧
      (∀ e, e ∈ b.priorityQueue ↔ (e ∈ b.order ∧ b.expire e ≠ 0)) ∧
      b.priorityQueue.Nodup ∧
      (∀ e, b.priorityQueue.count e = if e ∈ b.order ∧ b.expire e ≠ 0 then 1 else 0) ∧
      (∀ j, j < b.priorityQueue.length → b.index (entryAt b j) = (j : Int)) ∧
      (∀ i j, 2 * i + 1 ≤ j → j ≤ 2 * i + 2 → j < b.priorityQueue.length →
        ¬ expireAt b j < expireAt b i ∧
        priorityQueue.Less b (j : Int) (i : Int) = some false) ∧
      (b.priorityQueue ≠ [] → priorityQueue.at b 0 = some (entryAt b 0) ∧
        entryAt b 0 ∈ b.order ∧ expireAt b 0 ≠ 0 ∧
        ∀ e ∈ b.order, b.expire e ≠ 0 → expireAt b 0 ≤ b.expire e) :=
  expiry_heap_invariant 3 [Call.Set "a" "va" 5 1, Call.Set "b" "vb" 3 1, Call.Set "c" "vc" 0 1,
    Call.Del "b"]

/-- C25 (key index invariant): after every sequence of calls of public methods
on `NewLRUCache(c)`, none of which panics, the table maps a key to an entry if
and only if the entry is in the used recency list and carries the key;
distinct used entries carry distinct keys; the keys of the table are the keys
of the used list, without repetition, so the size of the table is `Len()`;
every free entry has the empty key and the zero value; and an entry is never
in both lists. -/
theorem key_index_invariant [Inhabited T] (c : Nat) (calls : List (Call T)) :
    ∃ b0 b : LRUCache T, NewLRUCache c = some b0 ∧ run b0 calls = some b ∧
      (∀ k e, b.table k = some e ↔ (e ∈ b.order ∧ b.key e = k)) ∧
      (∀ e1 ∈ b.order, ∀ e2 ∈ b.order, e1 ≠ e2 → b.key e1 ≠ b.key e2) ∧
      b.keys.Nodup ∧ (∀ k, b.table k ≠ none ↔ k ∈ b.keys) ∧
      Set.ncard {k | b.table k ≠ none} = b.keys.length ∧
      (b.keys.length : Int) = LRUCache.Len b ∧
      (∀ e ∈ b.freeOrder, b.key e = "" ∧ b.value e = default) ∧
      b.order.Nodup ∧ b.freeOrder.Nodup ∧ (∀ e ∈ b.order, e ∉ b.freeOrder) ∧
      b.order.length + b.freeOrder.length = c := by
  obtain ⟨b0, h1, h2⟩ := NewLRUCache_good (T := T) c
  obtain ⟨b, g1, hg⟩ := run_good calls b0 h2
  obtain ⟨hinv, hcl, hlen⟩ := hg.inv
  have hnd : b.keys.Nodup := by
    unfold LRUCache.keys
    exact (List.nodup_map_iff_inj_on hinv.rings.nodup_left).2
      fun x hx y hy hxy => hinv.key_inj hx hy hxy
  have hdom : ∀ k, b.table k ≠ none ↔ k ∈ b.keys := by
    intro k
    unfold LRUCache.keys
    rw [List.mem_map]
    constructor
    · intro hk
      cases hb : b.table k with
      | none => exact absurd hb hk
      | some e => exact ⟨e, (hinv.table k e).1 hb⟩
    · rintro ⟨e, he, hke⟩
      rw [(hinv.table k e).2 ⟨he, hke⟩]
      simp
  refine ⟨b0, b, h1, g1, hinv.table, fun e1 he1 e2 he2 hne hk => hne (hinv.key_inj he1 he2 hk),
    hnd, hdom, ?_, ?_, hcl, hinv.rings.nodup_left, hinv.rings.nodup_right,
    fun e he he' => hinv.rings.disjoint he he', hlen⟩
  · have hset : {k | b.table k ≠ none} = (↑b.keys.toFinset : Set String) := by
      ext k
      simp only [Set.mem_setOf_eq, Finset.mem_coe, List.mem_toFinset]
      exact hdom k
    rw [hset, Set.ncard_coe_Finset, List.toFinset_card_of_nodup hnd]
  · unfold LRUCache.keys
    rw [List.length_map, hinv.Len_eq]

theorem key_index_invariant_witness :
    ∃ b0 b : LRUCache String, NewLRUCache 2 = some b0 ∧
      run b0 [Call.Set "a" "va" 0 5, Call.Set "b" "vb" 3 5, Call.Del "a"] = some b ∧
      (∀ k e, b.table k = some e ↔ (e ∈ b.order ∧ b.key e = k)) ∧
      (∀ e1 ∈ b.order, ∀ e2 ∈ b.order, e1 ≠ e2 → b.key e1 ≠ b.key e2) ∧
      b.keys.Nodup ∧ (∀ k, b.table k ≠ none ↔ k ∈ b.keys) ∧
      Set.ncard {k | b.table k ≠ none} = b.keys.length ∧
      (b.keys.length : Int) = LRUCache.Len b ∧
      (∀ e ∈ b.freeOrder, b.key e = "" ∧ b.value e = default) ∧
      b.order.Nodup ∧ b.freeOrder.Nodup ∧ (∀ e ∈ b.order, e ∉ b.freeOrder) ∧
      b.order.length + b.freeOrder.length = 2 :=
  key_index_invariant 2 [Call.Set "a" "va" 0 5, Call.Set "b" "vb" 3 5, Call.Del "a"]

/-- C26 (`HeapRemove` correctness): for every priority queue that is
min-ordered on `expire` and in which every member records its position
(`pq[j].index == j`), and every position `i` inside it, `HeapRemove(pq, i)`
returns the entry that was at position `i`, with its `index` set to -1; the
queue that results is one shorter, holds exactly the other entries (it is a
permutation of the old queue without the entry), is again min-ordered and
again satisfies `pq[j].index == j`; no `expire` is changed. -/
theorem heapRemove_correct (b : LRUCache T) (i : Nat) (hi : i < b.priorityQueue.length)
    (hidx : IndexOK b) (hord : HeapOrdered b b.priorityQueue.length) :
    ∃ b', HeapRemove b (i : Int) = some (b', entryAt b i) ∧
      priorityQueue.at b (i : Int) = some (entryAt b i) ∧
      b'.index (entryAt b i) = -1 ∧
      (∀ y, y ∈ b'.priorityQueue ↔ (y ∈ b.priorityQueue ∧ y ≠ entryAt b i)) ∧
      b'.priorityQueue.Perm (b.priorityQueue.erase (entryAt b i)) ∧
      b'.priorityQueue.length + 1 = b.priorityQueue.length ∧
      HeapOrdered b' b'.priorityQueue.length ∧ IndexOK b' ∧ b'.expire = b.expire := by
  obtain ⟨b', h1, h2, h3, h4, h5, h6, -, h8⟩ := HeapRemove_spec b i hi hidx hord
  refine ⟨b', h1, at_lt b hi, h6, h5, ?_, h8, h4, h3, h2.2.2.1⟩
  rw [List.perm_ext_iff_of_nodup h3.nodup (hidx.nodup.erase _)]
  intro y
  rw [h5, List.Nodup.mem_erase_iff hidx.nodup]
  exact And.comm

theorem heapRemove_correct_witness :
    ∃ b', HeapRemove demoHeap ((0 : Nat) : Int) = some (b', entryAt demoHeap 0) ∧
      priorityQueue.at demoHeap ((0 : Nat) : Int) = some (entryAt demoHeap 0) ∧
      b'.index (entryAt demoHeap 0) = -1 ∧
      (∀ y, y ∈ b'.priorityQueue ↔ (y ∈ demoHeap.priorityQueue ∧ y ≠ entryAt demoHeap 0)) ∧
      b'.priorityQueue.Perm (demoHeap.priorityQueue.erase (entryAt demoHeap 0)) ∧
      b'.priorityQueue.length + 1 = demoHeap.priorityQueue.length ∧
      HeapOrdered b' b'.priorityQueue.length ∧ IndexOK b' ∧ b'.expire = demoHeap.expire :=
  heapRemove_correct demoHeap 0 (by decide) demoHeap_reachable.good.inv.1.index
    demoHeap_reachable.good.inv.1.heap

/-- C27 (no internal panic).  In the model a panic of the source (the two
explicit `panic` calls, an index out of range, a nil dereference) makes the
function return `none`, and `none` propagates to the public method.  For every
sequence of calls of public methods on `NewLRUCache(c)` the constructor and
every call return a state, and so does every further call.  Since `removeEntry`
returns a state only for an entry linked in `lruList` (and then `HeapRemove` is
called only with an index inside the heap), `insertEntry` only for an entry
linked in `freeList`, `priorityQueue[i]` only for `i` inside the heap,
`leastUsedEntry` only when the used list is non-empty, and an iteration of the
loops of `Clear` only when the heap resp. the used list is non-empty, none of
these panics is reached. -/
theorem no_internal_panic [Inhabited T] (c : Nat) (calls : List (Call T)) :
    (∃ b0 b : LRUCache T, NewLRUCache c = some b0 ∧ run b0 calls = some b ∧
      ∀ call, ∃ b', Call.exec b call = some b') ∧
    (∀ (b b' : LRUCache T) (e : Option Nat), LRUCache.removeEntry b e = some b' →
      ∃ e', e = some e' ∧ b.list (Node.elem e') = some ListId.lruList ∧
        (b.index e' ≠ -1 → 0 ≤ b.index e' ∧ b.index e' < (b.priorityQueue.length : Int))) ∧
    (∀ (b b' : LRUCache T) (e : Option Nat), LRUCache.insertEntry b e = some b' →
      ∃ e', e = some e' ∧ b.list (Node.elem e') = some ListId.freeList) ∧
    (∀ (b : LRUCache T) (i : Int) (x : Nat), priorityQueue.at b i = some x →
      0 ≤ i ∧ i < (b.priorityQueue.length : Int)) ∧
    (∀ (b : LRUCache T) (r : Option Nat), LRUCache.leastUsedEntry b = some r →
      list.Len b ListId.lruList ≠ 0) ∧
    (∀ (b : LRUCache T) (i : Int) (r : LRUCache T × Nat), HeapRemove b i = some r →
      0 ≤ i ∧ i < (b.priorityQueue.length : Int)) ∧
    (∀ (b b' : LRUCache T) (l : Nat), clearHeapLoop (l + 1) b = some b' →
      b.priorityQueue ≠ []) ∧
    (∀ (b b' : LRUCache T) (r : Nat), clearListLoop (r + 1) b = some b' →
      list.Len b ListId.lruList ≠ 0) := by
  obtain ⟨b0, h1, h2⟩ := NewLRUCache_good (T := T) c
  obtain ⟨b, g1, hg⟩ := run_good calls b0 h2
  refine ⟨⟨b0, b, h1, g1, fun call => ?_⟩, fun _ _ _ h => removeEntry_some_linked h,
    fun _ _ _ h => insertEntry_some_linked h, fun _ _ _ h => at_some_range h,
    fun _ _ h => leastUsedEntry_some_nonempty h, fun _ _ _ h => HeapRemove_some_range h,
    fun _ _ _ h => clearHeapLoop_some_nonempty h, fun _ _ _ h => clearListLoop_some_nonempty h⟩
  obtain ⟨b', hb', -⟩ := exec_good hg call
  exact ⟨b', hb'⟩

theorem no_internal_panic_witness :
    ∃ b0 b : LRUCache String, NewLRUCache 2 = some b0 ∧
      run b0 [Call.Set "a" "va" 0 5, Call.Set "b" "vb" 3 5, Call.Set "c" "vc" 4 5,
        Call.Clear, Call.ExpireNow 9 (fun _ => 9)] = some b ∧
      ∀ call, ∃ b', Call.exec b call = some b' :=
  (no_internal_panic 2 [Call.Set "a" "va" 0 5, Call.Set "b" "vb" 3 5, Call.Set "c" "vc" 4 5,
    Call.Clear, Call.ExpireNow 9 (fun _ => 9)]).1

end lrucache
